import Mathlib

/-!
Verification of the DEFLATE (RFC 1951) engine of the fconvert repository:
src/src/utils/deflate.cpp, src/src/utils/deflate_compress.cpp and
src/src/utils/lz77.cpp, against its natural-language specification.

The C++ classes are shallowly embedded: byte buffers are `List Nat`
(each element a byte value < 256 where the C++ type is uint8_t),
machine integers are `Nat`/`Int` with explicit wrapping where overflow
matters, stateful methods become explicit state-passing functions, and
`std::vector` node / hash storage becomes a persistent `Nat`-indexed map
with explicit capacity bookkeeping.  Out-of-bounds vector accesses that
are undefined behavior in the C++ are made into explicit `ub` outcomes.
-/

namespace Fconvert

/-! ## Bit-level utility definitions (specification side)

DEFLATE packs bits LSB-first within each byte.  `natBits v n` is the list
of the low `n` bits of `v`, least significant first; `bitsToNat` is its
inverse; `bytesBits` flattens a byte buffer into its LSB-first bit stream.
-/

def natBits (v : Nat) : Nat → List Bool
  | 0 => []
  | n + 1 => decide (v % 2 = 1) :: natBits (v / 2) n

def bitsToNat : List Bool → Nat
  | [] => 0
  | b :: r => (if b then 1 else 0) + 2 * bitsToNat r

def bytesBits : List Nat → List Bool
  | [] => []
  | b :: t => natBits b 8 ++ bytesBits t

theorem natBits_length (v n : Nat) : (natBits v n).length = n := by
  induction n generalizing v with
  | zero => rfl
  | succ m ih => simp [natBits, ih]

theorem mod_pow_succ_div_two (v k : Nat) : v % 2 ^ (k + 1) / 2 = v / 2 % 2 ^ k := by
  rw [Nat.pow_succ, Nat.mul_comm, Nat.mod_mul_right_div_self]

theorem mod_pow_succ_mod_two (v k : Nat) : v % 2 ^ (k + 1) % 2 = v % 2 := by
  apply Nat.mod_mod_of_dvd
  exact ⟨2 ^ k, by rw [Nat.pow_succ]; ring⟩

theorem div_pow_succ_two (v k : Nat) : v / 2 ^ (k + 1) = v / 2 / 2 ^ k := by
  rw [Nat.div_div_eq_div_mul, Nat.pow_succ, Nat.mul_comm]

theorem mod_pow_succ_split (v k : Nat) :
    v % 2 ^ (k + 1) = 2 * (v / 2 % 2 ^ k) + v % 2 := by
  have h1 := mod_pow_succ_div_two v k
  have h2 := mod_pow_succ_mod_two v k
  omega

theorem bitsToNat_natBits (v n : Nat) : bitsToNat (natBits v n) = v % 2 ^ n := by
  induction n generalizing v with
  | zero => simp [natBits, bitsToNat, Nat.mod_one]
  | succ m ih =>
    simp only [natBits, bitsToNat, ih]
    rw [mod_pow_succ_split]
    rcases Nat.mod_two_eq_zero_or_one v with h | h <;>
      simp only [h] <;> simp <;> omega

theorem bitsToNat_lt (l : List Bool) : bitsToNat l < 2 ^ l.length := by
  induction l with
  | nil => simp [bitsToNat]
  | cons b r ih =>
    simp only [bitsToNat, List.length_cons, Nat.pow_succ]
    split <;> omega

theorem natBits_bitsToNat (l : List Bool) : natBits (bitsToNat l) l.length = l := by
  induction l with
  | nil => rfl
  | cons b r ih =>
    simp only [bitsToNat, List.length_cons, natBits, List.cons.injEq]
    constructor
    · cases b <;> simp <;> omega
    · have h : ((if b then 1 else 0) + 2 * bitsToNat r) / 2 = bitsToNat r := by
        split <;> omega
      rw [h, ih]

/-- Splitting the bit list of a value into a low part and a high part. -/
theorem natBits_add (v m n : Nat) :
    natBits v (m + n) = natBits (v % 2 ^ m) m ++ natBits (v / 2 ^ m) n := by
  induction m generalizing v with
  | zero => simp [natBits]
  | succ k ih =>
    have hsucc : k + 1 + n = (k + n) + 1 := by omega
    rw [hsucc]
    simp only [natBits, List.cons_append, mod_pow_succ_mod_two, mod_pow_succ_div_two,
      div_pow_succ_two]
    rw [ih]

theorem natBits_mod_self (v n : Nat) : natBits (v % 2 ^ n) n = natBits v n := by
  induction n generalizing v with
  | zero => rfl
  | succ k ih =>
    simp only [natBits, mod_pow_succ_mod_two, mod_pow_succ_div_two, ih]

theorem bytesBits_append (a b : List Nat) :
    bytesBits (a ++ b) = bytesBits a ++ bytesBits b := by
  induction a with
  | nil => rfl
  | cons x t ih => simp [bytesBits, ih]

theorem bytesBits_length (a : List Nat) : (bytesBits a).length = 8 * a.length := by
  induction a with
  | nil => rfl
  | cons x t ih => simp [bytesBits, natBits_length, ih]; omega

theorem bytesBits_drop_bytes (l : List Nat) (k : Nat) :
    (bytesBits l).drop (8 * k) = bytesBits (l.drop k) := by
  induction k generalizing l with
  | zero => simp
  | succ j ih =>
    cases l with
    | nil => simp [bytesBits]
    | cons x t =>
      have h : 8 * (j + 1) = 8 + 8 * j := by omega
      rw [h]
      simp only [bytesBits, List.drop_succ_cons]
      rw [← List.drop_drop]
      have hx : (natBits x 8 ++ bytesBits t).drop 8 = bytesBits t := by
        rw [List.drop_append_of_le_length (by simp [natBits_length])]
        simp [natBits_length]
      rw [hx, ih]

theorem take_append_exact {A : Type} (l1 l2 : List A) (n : Nat) (h : l1.length = n) :
    (l1 ++ l2).take n = l1 := by
  subst h
  induction l1 with
  | nil => rfl
  | cons x t ih => simp [ih]

theorem drop_append_exact {A : Type} (l1 l2 : List A) (n : Nat) (h : l1.length = n) :
    (l1 ++ l2).drop n = l2 := by
  subst h
  induction l1 with
  | nil => rfl
  | cons x t ih => simp [ih]

/-! ## A persistent total map over `Nat` keys

`Smap` models `std::vector` element storage (the Huffman node arena and
the LZ77 hash tables): a binary trie keyed on the binary representation
of the index.  Capacity bookkeeping (`resize`) and bound checks stay at
the use sites, so an out-of-bounds C++ access can be surfaced explicitly
instead of silently working.
-/

inductive Smap (α : Type) where
  | empty : Smap α
  | node : Option α → Smap α → Smap α → Smap α

def Smap.get? {α : Type} : Smap α → Nat → Option α
  | .empty, _ => none
  | .node v _ _, 0 => v
  | .node _ l r, k + 1 =>
    if (k + 1) % 2 = 1 then Smap.get? l (k / 2) else Smap.get? r ((k - 1) / 2)

/-- Fuel-indexed spine construction for `single` (structural recursion so
that the kernel can evaluate it; `single k` passes fuel `k + 1`, which
always suffices since child keys at least halve). -/
def Smap.singleF {α : Type} : Nat → Nat → α → Smap α
  | 0, _, a => .node (some a) .empty .empty
  | _ + 1, 0, a => .node (some a) .empty .empty
  | f + 1, k + 1, a =>
    if (k + 1) % 2 = 1 then .node none (Smap.singleF f (k / 2) a) .empty
    else .node none .empty (Smap.singleF f ((k - 1) / 2) a)

def Smap.single {α : Type} (k : Nat) (a : α) : Smap α := Smap.singleF (k + 1) k a

def Smap.set {α : Type} : Smap α → Nat → α → Smap α
  | .empty, k, a => Smap.single k a
  | .node _ l r, 0, a => .node (some a) l r
  | .node v l r, k + 1, a =>
    if (k + 1) % 2 = 1 then .node v (Smap.set l (k / 2) a) r
    else .node v l (Smap.set r ((k - 1) / 2) a)

def Smap.getD {α : Type} (t : Smap α) (k : Nat) (d : α) : α :=
  (t.get? k).getD d

theorem Smap.get?_empty {α : Type} (k : Nat) : (Smap.empty : Smap α).get? k = none := by
  cases k <;> rfl

theorem Smap.get?_singleF_eq {α : Type} :
    ∀ (m k : Nat) (a : α), k < m → (Smap.singleF m k a).get? k = some a := by
  intro m
  induction m with
  | zero => intro k a hk; omega
  | succ f ih =>
    intro k a hk
    match k with
    | 0 => simp [Smap.singleF, Smap.get?]
    | k + 1 =>
      by_cases h : (k + 1) % 2 = 1 <;> simp only [Smap.singleF, Smap.get?, h, if_true,
        if_false, reduceIte]
      · exact ih (k / 2) a (by omega)
      · exact ih ((k - 1) / 2) a (by omega)

theorem Smap.get?_single_eq {α : Type} (k : Nat) (a : α) :
    (Smap.single k a).get? k = some a :=
  Smap.get?_singleF_eq (k + 1) k a (by omega)

theorem Smap.get?_singleF_ne {α : Type} :
    ∀ (m k k' : Nat) (a : α), k < m → k' ≠ k → (Smap.singleF m k a).get? k' = none := by
  intro m
  induction m with
  | zero => intro k k' a hk; omega
  | succ f ih =>
    intro k k' a hk h
    match k, k' with
    | 0, 0 => omega
    | 0, k' + 1 =>
      by_cases h2 : (k' + 1) % 2 = 1 <;>
        simp [Smap.singleF, Smap.get?, h2, Smap.get?_empty]
    | k + 1, 0 =>
      by_cases h1 : (k + 1) % 2 = 1 <;> simp [Smap.singleF, Smap.get?, h1]
    | k + 1, k' + 1 =>
      by_cases h1 : (k + 1) % 2 = 1 <;> by_cases h2 : (k' + 1) % 2 = 1 <;>
        simp only [Smap.singleF, Smap.get?, h1, h2, if_true, if_false, reduceIte,
          Smap.get?_empty]
      · exact ih (k / 2) (k' / 2) a (by omega) (by omega)
      · exact ih ((k - 1) / 2) ((k' - 1) / 2) a (by omega) (by omega)

theorem Smap.get?_single_ne {α : Type} (k k' : Nat) (a : α) (h : k' ≠ k) :
    (Smap.single k a).get? k' = none :=
  Smap.get?_singleF_ne (k + 1) k k' a (by omega) h

theorem Smap.get?_set_eq {α : Type} (t : Smap α) (k : Nat) (a : α) :
    (t.set k a).get? k = some a := by
  induction t generalizing k with
  | empty => exact Smap.get?_single_eq k a
  | node v l r ihl ihr =>
    match k with
    | 0 => rfl
    | k + 1 =>
      by_cases h : (k + 1) % 2 = 1 <;>
        simp only [Smap.set, Smap.get?, h, if_true, if_false, reduceIte]
      · exact ihl (k / 2)
      · exact ihr ((k - 1) / 2)

theorem Smap.get?_set_ne {α : Type} (t : Smap α) (k k' : Nat) (a : α) (h : k' ≠ k) :
    (t.set k a).get? k' = t.get? k' := by
  induction t generalizing k k' with
  | empty =>
    show (Smap.single k a).get? k' = _
    rw [Smap.get?_single_ne k k' a h, Smap.get?_empty]
  | node v l r ihl ihr =>
    match k, k' with
    | 0, 0 => omega
    | 0, k' + 1 =>
      by_cases h2 : (k' + 1) % 2 = 1 <;> simp [Smap.set, Smap.get?, h2]
    | k + 1, 0 =>
      by_cases h1 : (k + 1) % 2 = 1 <;> simp [Smap.set, Smap.get?, h1]
    | k + 1, k' + 1 =>
      by_cases h1 : (k + 1) % 2 = 1 <;> by_cases h2 : (k' + 1) % 2 = 1 <;>
        simp only [Smap.set, Smap.get?, h1, h2, if_true, if_false, reduceIte]
      · exact ihl (k / 2) (k' / 2) (by omega)
      · exact ihr ((k - 1) / 2) ((k' - 1) / 2) (by omega)

theorem Smap.getD_set_eq {α : Type} (t : Smap α) (k : Nat) (a d : α) :
    (t.set k a).getD k d = a := by
  simp [Smap.getD, Smap.get?_set_eq]

theorem Smap.getD_set_ne {α : Type} (t : Smap α) (k k' : Nat) (a d : α) (h : k' ≠ k) :
    (t.set k a).getD k' d = t.getD k' d := by
  simp [Smap.getD, Smap.get?_set_ne t k k' a h]

/-! ## BitStream (deflate.cpp lines 17-61)

The reader state mirrors the C++ members `data_`/`size_` (one list),
`byte_pos_`, `bit_buffer_` (uint32, explicit `% 2^32`), `bits_available_`.
`read_bits` returns uint16 in C++; every call site passes `count ≤ 16`, so
the value always fits and is modelled as `Nat`.
-/

structure BitStream where
  data : List Nat
  byte_pos : Nat
  bit_buffer : Nat
  bits_available : Nat

/-- The `BitStream(data, size)` constructor. -/
def BitStream.init (data : List Nat) : BitStream :=
  { data := data, byte_pos := 0, bit_buffer := 0, bits_available := 0 }

/-- One iteration of the `fill_buffer` while loop:
`bit_buffer_ |= data_[byte_pos_++] << bits_available_; bits_available_ += 8`. -/
def BitStream.fillStep (s : BitStream) : BitStream :=
  { data := s.data, byte_pos := s.byte_pos + 1,
    bit_buffer :=
      (s.bit_buffer ||| (s.data.getD s.byte_pos 0 <<< s.bits_available)) % 2 ^ 32,
    bits_available := s.bits_available + 8 }

/-- Fuel-indexed `fill_buffer` while loop; the loop advances `byte_pos_`
each iteration, so `data_.size() - byte_pos_` iterations always suffice. -/
def BitStream.fillF : BitStream → Nat → BitStream
  | s, 0 => s
  | s, f + 1 =>
    if s.bits_available < 16 ∧ s.byte_pos < s.data.length then s.fillStep.fillF f
    else s

def BitStream.fill_buffer (s : BitStream) : BitStream :=
  s.fillF (s.data.length - s.byte_pos)

/-- The post-read reader state: `bit_buffer_ >>= count; bits_available_ -= count`. -/
def BitStream.consumed (t : BitStream) (count : Nat) : BitStream :=
  { data := t.data, byte_pos := t.byte_pos,
    bit_buffer := t.bit_buffer >>> count,
    bits_available := t.bits_available - count }

def BitStream.read_bits (s : BitStream) (count : Nat) : Nat × BitStream :=
  let t := s.fill_buffer
  if count > t.bits_available then (0, t)
  else (t.bit_buffer &&& ((1 <<< count) - 1), t.consumed count)

def BitStream.align_to_byte (s : BitStream) : BitStream :=
  let skip := s.bits_available &&& 7
  if 0 < skip then (s.read_bits skip).2 else s

/-- Abstraction: the not-yet-consumed bits of the stream, in arrival order. -/
def BitStream.sbits (s : BitStream) : List Bool :=
  natBits s.bit_buffer s.bits_available ++ bytesBits (s.data.drop s.byte_pos)

/-- Reachable reader states: buffered bits fit `bits_available`, the byte
cursor is in range, and the remaining bits are a suffix of the whole
stream's bits (all bytes < 256, as they are uint8_t in the C++). -/
def BitStream.WF (s : BitStream) : Prop :=
  (∀ b ∈ s.data, b < 256) ∧
  s.bit_buffer < 2 ^ s.bits_available ∧
  s.byte_pos ≤ s.data.length ∧
  s.bits_available ≤ 8 * s.byte_pos ∧
  s.sbits = (bytesBits s.data).drop (8 * s.byte_pos - s.bits_available)

theorem sbits_length (s : BitStream) :
    s.sbits.length = s.bits_available + 8 * (s.data.length - s.byte_pos) := by
  simp [BitStream.sbits, natBits_length, bytesBits_length]

theorem init_WF (data : List Nat) (h : ∀ b ∈ data, b < 256) :
    (BitStream.init data).WF := by
  refine ⟨h, by simp [BitStream.init], by simp [BitStream.init], by simp [BitStream.init], ?_⟩
  simp [BitStream.init, BitStream.sbits, natBits]

theorem init_sbits (data : List Nat) : (BitStream.init data).sbits = bytesBits data := by
  simp [BitStream.init, BitStream.sbits, natBits]

theorem lor_shift_add (a b n : Nat) (h : a < 2 ^ n) :
    a ||| (b <<< n) = 2 ^ n * b + a := by
  apply Nat.eq_of_testBit_eq
  intro j
  rw [Nat.testBit_lor, Nat.testBit_shiftLeft, Nat.testBit_mul_pow_two_add b h j]
  by_cases hj : j < n
  · simp [hj, show ¬ n ≤ j by omega]
  · have ha : a.testBit j = false :=
      Nat.testBit_lt_two_pow (lt_of_lt_of_le h (Nat.pow_le_pow_right (by omega) (by omega)))
    simp [ha, hj, show n ≤ j by omega]

theorem fillStep_spec (s : BitStream) (h : s.WF)
    (hcond : s.bits_available < 16 ∧ s.byte_pos < s.data.length) :
    s.fillStep.WF ∧ s.fillStep.sbits = s.sbits ∧ s.fillStep.data = s.data := by
  obtain ⟨hbytes, hbuf, hpos, hba, hsuf⟩ := h
  have hget : s.data.getD s.byte_pos 0 = s.data.get ⟨s.byte_pos, hcond.2⟩ := by
    rw [List.getD_eq_getElem?_getD, List.getElem?_eq_getElem hcond.2]
    rfl
  have hclt : s.data.getD s.byte_pos 0 < 256 := by
    rw [hget]
    exact hbytes _ (List.get_mem s.data _ _)
  have hsum : s.bit_buffer ||| (s.data.getD s.byte_pos 0 <<< s.bits_available) =
      2 ^ s.bits_available * s.data.getD s.byte_pos 0 + s.bit_buffer :=
    lor_shift_add _ _ _ hbuf
  have hlt32 : 2 ^ s.bits_available * s.data.getD s.byte_pos 0 + s.bit_buffer < 2 ^ 32 := by
    have h1 : 2 ^ s.bits_available ≤ 2 ^ 16 :=
      Nat.pow_le_pow_right (by omega) (by omega)
    have h2 : s.bit_buffer < 2 ^ 16 := lt_of_lt_of_le hbuf h1
    have h3 : (65536 : Nat) ≤ 2 ^ 32 := by norm_num
    have h4 : 2 ^ s.bits_available * s.data.getD s.byte_pos 0 ≤ 2 ^ 16 * 255 := by
      apply Nat.mul_le_mul h1
      omega
    norm_num at h2 h4 ⊢
    omega
  have hbuf2 : s.fillStep.bit_buffer =
      2 ^ s.bits_available * s.data.getD s.byte_pos 0 + s.bit_buffer := by
    show (s.bit_buffer ||| (s.data.getD s.byte_pos 0 <<< s.bits_available)) % 2 ^ 32 = _
    rw [hsum]
    exact Nat.mod_eq_of_lt hlt32
  have hlt2 : s.fillStep.bit_buffer < 2 ^ s.fillStep.bits_available := by
    rw [hbuf2]
    show _ < 2 ^ (s.bits_available + 8)
    rw [Nat.pow_add]
    have : s.data.getD s.byte_pos 0 + 1 ≤ 2 ^ 8 := by omega
    calc 2 ^ s.bits_available * s.data.getD s.byte_pos 0 + s.bit_buffer
        < 2 ^ s.bits_available * s.data.getD s.byte_pos 0 + 2 ^ s.bits_available := by omega
      _ = 2 ^ s.bits_available * (s.data.getD s.byte_pos 0 + 1) := by ring
      _ ≤ 2 ^ s.bits_available * 2 ^ 8 := Nat.mul_le_mul_left _ this
  have hdrop : s.data.drop s.byte_pos =
      s.data.getD s.byte_pos 0 :: s.data.drop (s.byte_pos + 1) := by
    rw [hget]
    exact List.drop_eq_getElem_cons hcond.2
  have hsb : s.fillStep.sbits = s.sbits := by
    show natBits s.fillStep.bit_buffer (s.bits_available + 8) ++
        bytesBits (s.data.drop (s.byte_pos + 1)) =
      natBits s.bit_buffer s.bits_available ++ bytesBits (s.data.drop s.byte_pos)
    rw [hbuf2, hdrop, natBits_add]
    have hm1 : (2 ^ s.bits_available * s.data.getD s.byte_pos 0 + s.bit_buffer) %
        2 ^ s.bits_available = s.bit_buffer := by
      rw [Nat.mul_comm, Nat.add_comm, Nat.add_mul_mod_self_right, Nat.mod_eq_of_lt hbuf]
    have hm2 : (2 ^ s.bits_available * s.data.getD s.byte_pos 0 + s.bit_buffer) /
        2 ^ s.bits_available = s.data.getD s.byte_pos 0 := by
      rw [Nat.mul_comm, Nat.add_comm, Nat.add_mul_div_right _ _
        (Nat.pos_pow_of_pos _ (by omega)), Nat.div_eq_of_lt hbuf]
      omega
    rw [hm1, hm2, List.append_assoc]
    rfl
  refine ⟨⟨hbytes, hlt2, ?_, ?_, ?_⟩, hsb, rfl⟩
  · show s.byte_pos + 1 ≤ s.data.length
    omega
  · show s.bits_available + 8 ≤ 8 * (s.byte_pos + 1)
    omega
  · rw [hsb, hsuf]
    show _ = (bytesBits s.data).drop (8 * (s.byte_pos + 1) - (s.bits_available + 8))
    congr 1
    omega

theorem fillF_spec : ∀ (m : Nat) (s : BitStream), s.data.length - s.byte_pos ≤ m →
    s.WF →
    (s.fillF m).WF ∧ (s.fillF m).sbits = s.sbits ∧ (s.fillF m).data = s.data ∧
      (16 ≤ (s.fillF m).bits_available ∨
        (s.fillF m).bits_available = s.sbits.length) := by
  intro m
  induction m with
  | zero =>
    intro s hm h
    show s.WF ∧ s.sbits = s.sbits ∧ s.data = s.data ∧
      (16 ≤ s.bits_available ∨ s.bits_available = s.sbits.length)
    refine ⟨h, rfl, rfl, ?_⟩
    right
    rw [sbits_length]
    omega
  | succ m ih =>
    intro s hm h
    rw [BitStream.fillF]
    by_cases hcond : s.bits_available < 16 ∧ s.byte_pos < s.data.length
    · rw [if_pos hcond]
      obtain ⟨hwf2, hsb2, hdata2⟩ := fillStep_spec s h hcond
      have hrec := ih s.fillStep (by simp [BitStream.fillStep]; omega) hwf2
      refine ⟨hrec.1, ?_, ?_, ?_⟩
      · rw [hrec.2.1, hsb2]
      · rw [hrec.2.2.1, hdata2]
      · rcases hrec.2.2.2 with h16 | hend
        · exact Or.inl h16
        · right
          rw [hend, hsb2]
    · rw [if_neg hcond]
      refine ⟨h, rfl, rfl, ?_⟩
      rw [Classical.not_and_iff_or_not_not] at hcond
      rcases hcond with h16 | hend
      · omega
      · right
        rw [sbits_length]
        have hp := h.2.2.1
        omega

theorem fill_buffer_spec (s : BitStream) (h : s.WF) :
    s.fill_buffer.WF ∧ s.fill_buffer.sbits = s.sbits ∧ s.fill_buffer.data = s.data ∧
      (16 ≤ s.fill_buffer.bits_available ∨
        s.fill_buffer.bits_available = s.sbits.length) :=
  fillF_spec (s.data.length - s.byte_pos) s (Nat.le_refl _) h

theorem consume_spec (u : BitStream) (count : Nat) (h : u.WF)
    (hcnt : count ≤ u.bits_available) :
    (u.consumed count).WF ∧
    (u.consumed count).sbits = u.sbits.drop count ∧
    u.bit_buffer &&& ((1 <<< count) - 1) = bitsToNat (u.sbits.take count) := by
  obtain ⟨hbytes, hbuf, hpos, hba, hsuf⟩ := h
  have hsplit : natBits u.bit_buffer u.bits_available =
      natBits (u.bit_buffer % 2 ^ count) count ++
      natBits (u.bit_buffer / 2 ^ count) (u.bits_available - count) := by
    have hcc : u.bits_available = count + (u.bits_available - count) := by omega
    rw [hcc, natBits_add]
    congr 2
    omega
  have htake : u.sbits.take count = natBits (u.bit_buffer % 2 ^ count) count := by
    rw [BitStream.sbits, hsplit, List.append_assoc]
    exact take_append_exact _ _ _ (natBits_length _ _)
  have hdropu : u.sbits.drop count =
      natBits (u.bit_buffer / 2 ^ count) (u.bits_available - count) ++
      bytesBits (u.data.drop u.byte_pos) := by
    rw [BitStream.sbits, hsplit, List.append_assoc]
    exact drop_append_exact _ _ _ (natBits_length _ _)
  have hdiv : u.bit_buffer >>> count = u.bit_buffer / 2 ^ count :=
    Nat.shiftRight_eq_div_pow _ _
  have hdivlt : u.bit_buffer / 2 ^ count < 2 ^ (u.bits_available - count) := by
    rw [Nat.div_lt_iff_lt_mul (Nat.pos_pow_of_pos _ (by omega)), ← Nat.pow_add]
    have hcc : u.bits_available - count + count = u.bits_available := by omega
    rw [hcc]
    exact hbuf
  have hsb2 : (u.consumed count).sbits = u.sbits.drop count := by
    rw [hdropu]
    show natBits (u.bit_buffer >>> count) (u.bits_available - count) ++
        bytesBits (u.data.drop u.byte_pos) = _
    rw [hdiv]
  refine ⟨⟨hbytes, ?_, hpos, ?_, ?_⟩, hsb2, ?_⟩
  · show u.bit_buffer >>> count < 2 ^ (u.bits_available - count)
    rw [hdiv]
    exact hdivlt
  · show u.bits_available - count ≤ 8 * u.byte_pos
    omega
  · show (u.consumed count).sbits =
      (bytesBits u.data).drop (8 * u.byte_pos - (u.bits_available - count))
    rw [hsb2, hsuf, List.drop_drop]
    congr 1
    omega
  · have hmask : (1 <<< count) - 1 = 2 ^ count - 1 := by
      rw [Nat.shiftLeft_eq, Nat.one_mul]
    rw [hmask, Nat.and_pow_two_sub_one_eq_mod, htake, bitsToNat_natBits,
      Nat.mod_mod_of_dvd _ dvd_rfl]

theorem read_bits_spec (s : BitStream) (count : Nat) (h : s.WF) (hc : count ≤ 16)
    (hlen : count ≤ s.sbits.length) :
    (s.read_bits count).1 = bitsToNat (s.sbits.take count) ∧
    (s.read_bits count).2.WF ∧
    (s.read_bits count).2.sbits = s.sbits.drop count ∧
    (s.read_bits count).2.data = s.data := by
  obtain ⟨hwf, hsb, hdata, hba⟩ := fill_buffer_spec s h
  have hcnt : count ≤ s.fill_buffer.bits_available := by
    rcases hba with h16 | hend
    · omega
    · omega
  rw [BitStream.read_bits]
  simp only [if_neg (show ¬ count > s.fill_buffer.bits_available by omega)]
  obtain ⟨hwf2, hsb2, hval⟩ := consume_spec s.fill_buffer count hwf hcnt
  rw [← hsb]
  exact ⟨hval, hwf2, hsb2, hdata⟩

theorem read_bits_starved (s : BitStream) (count : Nat) (h : s.WF)
    (hlen : s.sbits.length < count) :
    (s.read_bits count).1 = 0 ∧
    (s.read_bits count).2.WF ∧
    (s.read_bits count).2.sbits = s.sbits ∧
    (s.read_bits count).2.data = s.data := by
  obtain ⟨hwf, hsb, hdata, hba⟩ := fill_buffer_spec s h
  have hcnt : s.fill_buffer.bits_available < count := by
    have hlb := sbits_length s.fill_buffer
    rw [hsb, hdata] at hlb
    have hle : s.fill_buffer.bits_available ≤ s.sbits.length := by omega
    omega
  rw [BitStream.read_bits]
  simp only [if_pos (show count > s.fill_buffer.bits_available by omega)]
  exact ⟨by trivial, hwf, hsb, hdata⟩

theorem align_to_byte_spec (s : BitStream) (h : s.WF) :
    (s.align_to_byte).WF ∧
    s.align_to_byte.sbits = s.sbits.drop (s.sbits.length % 8) ∧
    s.align_to_byte.data = s.data := by
  have hskip : s.bits_available &&& 7 = s.bits_available % 8 := by
    have h8 : (7 : Nat) = 2 ^ 3 - 1 := by norm_num
    rw [h8, Nat.and_pow_two_sub_one_eq_mod]
  have hmod : s.bits_available % 8 = s.sbits.length % 8 := by
    rw [sbits_length]
    omega
  rw [BitStream.align_to_byte]
  simp only [hskip, hmod]
  by_cases hpos : 0 < s.sbits.length % 8
  · rw [if_pos hpos]
    have hle : s.sbits.length % 8 ≤ s.sbits.length := Nat.mod_le _ _
    obtain ⟨hv, hwf2, hsb2, hdata2⟩ := read_bits_spec s (s.sbits.length % 8) h
      (by omega) hle
    exact ⟨hwf2, hsb2, hdata2⟩
  · rw [if_neg hpos]
    have hz : s.sbits.length % 8 = 0 := by omega
    rw [hz]
    exact ⟨h, by simp, rfl⟩

/-- After a byte-aligning operation the remaining bits are exactly the bits
of a suffix of the input byte buffer. -/
theorem sbits_bytes_of_aligned (s : BitStream) (h : s.WF)
    (hal : s.sbits.length % 8 = 0) :
    s.sbits = bytesBits (s.data.drop ((8 * s.data.length - s.sbits.length) / 8)) := by
  obtain ⟨hbytes, hbuf, hpos, hba, hsuf⟩ := h
  have hlen : s.sbits.length = 8 * s.data.length - (8 * s.byte_pos - s.bits_available) := by
    rw [sbits_length]
    omega
  have hc8 : (8 * s.byte_pos - s.bits_available) % 8 = 0 := by
    rw [sbits_length] at hal
    omega
  obtain ⟨q, hq⟩ : ∃ q, 8 * s.byte_pos - s.bits_available = 8 * q := by
    refine ⟨(8 * s.byte_pos - s.bits_available) / 8, ?_⟩
    omega
  have hqle : 8 * q ≤ 8 * s.data.length := by omega
  have hqv : (8 * s.data.length - s.sbits.length) / 8 = q := by
    rw [hlen, hq]
    omega
  rw [hqv, hsuf, hq, bytesBits_drop_bytes]

/-! ## BitWriter (deflate.cpp lines 436-478)

State mirrors `data_` (flushed bytes), `bit_buffer_` (uint32, explicit
`% 2^32`), `bits_in_buffer_`.
-/

structure BitWriter where
  data : List Nat
  bit_buffer : Nat
  bits_in_buffer : Nat

def BitWriter.init : BitWriter := { data := [], bit_buffer := 0, bits_in_buffer := 0 }

def BitWriter.flush_byte (w : BitWriter) : BitWriter :=
  { data := w.data ++ [w.bit_buffer &&& 255],
    bit_buffer := w.bit_buffer >>> 8,
    bits_in_buffer := w.bits_in_buffer - 8 }

/-- Fuel-indexed `while (bits_in_buffer_ >= 8) flush_byte();` loop of
`write_bits`; each flush removes 8 bits, so fuel `bits_in_buffer_`
always suffices. -/
def BitWriter.flushF : BitWriter → Nat → BitWriter
  | w, 0 => w
  | w, f + 1 => if 8 ≤ w.bits_in_buffer then w.flush_byte.flushF f else w

def BitWriter.flushLoop (w : BitWriter) : BitWriter := w.flushF w.bits_in_buffer

def BitWriter.write_bits (w : BitWriter) (bits count : Nat) : BitWriter :=
  BitWriter.flushLoop
    { data := w.data,
      bit_buffer := (w.bit_buffer ||| (bits <<< w.bits_in_buffer)) % 2 ^ 32,
      bits_in_buffer := w.bits_in_buffer + count }

/-- The bit-reversal loop of `write_bits_reverse` / `BitStream::read_bits_reverse`
and of the trie insertion in `build_from_lengths`:
`for i < count: reversed = (reversed << 1) | (bits & 1); bits >>= 1`. -/
def revLoop (bits reversed : Nat) : Nat → Nat
  | 0 => reversed
  | i + 1 => revLoop (bits >>> 1) ((reversed <<< 1) ||| (bits &&& 1)) i

def BitWriter.write_bits_reverse (w : BitWriter) (bits count : Nat) : BitWriter :=
  w.write_bits (revLoop bits 0 count) count

def BitWriter.get_data (w : BitWriter) : List Nat :=
  if 0 < w.bits_in_buffer then w.data ++ [w.bit_buffer &&& 255] else w.data

/-- Abstraction: all bits written so far, in stream order. -/
def BitWriter.wbits (w : BitWriter) : List Bool :=
  bytesBits w.data ++ natBits w.bit_buffer w.bits_in_buffer

def BitWriter.WF (w : BitWriter) : Prop :=
  w.bit_buffer < 2 ^ w.bits_in_buffer ∧ w.bits_in_buffer < 8 ∧ ∀ b ∈ w.data, b < 256

theorem init_writer_WF : BitWriter.init.WF := by
  refine ⟨by simp [BitWriter.init], by simp [BitWriter.init], by simp [BitWriter.init]⟩

theorem init_wbits : BitWriter.init.wbits = [] := by
  simp [BitWriter.init, BitWriter.wbits, bytesBits, natBits]

theorem natBits_zero (n : Nat) : natBits 0 n = List.replicate n false := by
  induction n with
  | zero => rfl
  | succ k ih => simp [natBits, ih, List.replicate_succ]

theorem flush_byte_spec (w : BitWriter) (hbytes : ∀ b ∈ w.data, b < 256)
    (h8 : 8 ≤ w.bits_in_buffer) :
    w.flush_byte.wbits = w.wbits ∧
    w.flush_byte.bits_in_buffer = w.bits_in_buffer - 8 ∧
    (∀ b ∈ w.flush_byte.data, b < 256) ∧
    (w.bit_buffer < 2 ^ w.bits_in_buffer →
      w.flush_byte.bit_buffer < 2 ^ w.flush_byte.bits_in_buffer) := by
  have hand : w.bit_buffer &&& 255 = w.bit_buffer % 2 ^ 8 := by
    have h255 : (255 : Nat) = 2 ^ 8 - 1 := by norm_num
    rw [h255, Nat.and_pow_two_sub_one_eq_mod]
  have hshift : w.bit_buffer >>> 8 = w.bit_buffer / 2 ^ 8 :=
    Nat.shiftRight_eq_div_pow _ _
  refine ⟨?_, rfl, ?_, ?_⟩
  · show bytesBits (w.data ++ [w.bit_buffer &&& 255]) ++
        natBits (w.bit_buffer >>> 8) (w.bits_in_buffer - 8) = _
    rw [bytesBits_append, hand, hshift, List.append_assoc]
    show _ ++ (natBits (w.bit_buffer % 2 ^ 8) 8 ++ [] ++ natBits (w.bit_buffer / 2 ^ 8)
      (w.bits_in_buffer - 8)) = _
    rw [List.append_nil, BitWriter.wbits, ← natBits_add]
    congr 2
    omega
  · intro b hb
    rcases List.mem_append.mp hb with hb | hb
    · exact hbytes b hb
    · have : b = w.bit_buffer &&& 255 := List.mem_singleton.mp hb
      rw [this, hand]
      have : w.bit_buffer % 2 ^ 8 < 2 ^ 8 := Nat.mod_lt _ (by norm_num)
      omega
  · intro hlt
    show w.bit_buffer >>> 8 < 2 ^ (w.bits_in_buffer - 8)
    rw [hshift, Nat.div_lt_iff_lt_mul (by norm_num : 0 < 2 ^ 8), ← Nat.pow_add]
    have hc : w.bits_in_buffer - 8 + 8 = w.bits_in_buffer := by omega
    rw [hc]
    exact hlt

theorem flushF_spec : ∀ (m : Nat) (w : BitWriter), w.bits_in_buffer ≤ m →
    (∀ b ∈ w.data, b < 256) → w.bit_buffer < 2 ^ w.bits_in_buffer →
    (w.flushF m).wbits = w.wbits ∧ (w.flushF m).WF ∧
    (w.flushF m).bits_in_buffer = w.bits_in_buffer % 8 := by
  intro m
  induction m with
  | zero =>
    intro w hm hbytes hlt
    show w.wbits = w.wbits ∧ w.WF ∧ w.bits_in_buffer = w.bits_in_buffer % 8
    refine ⟨rfl, ⟨hlt, by omega, hbytes⟩, by omega⟩
  | succ m ih =>
    intro w hm hbytes hlt
    rw [BitWriter.flushF]
    by_cases h8 : 8 ≤ w.bits_in_buffer
    · rw [if_pos h8]
      obtain ⟨hwb, hbib, hby2, hlt2⟩ := flush_byte_spec w hbytes h8
      have hrec := ih w.flush_byte (by rw [hbib]; omega) hby2 (hlt2 hlt)
      refine ⟨by rw [hrec.1, hwb], hrec.2.1, ?_⟩
      rw [hrec.2.2, hbib]
      omega
    · rw [if_neg h8]
      refine ⟨rfl, ⟨hlt, by omega, hbytes⟩, by omega⟩

theorem flushLoop_spec (w : BitWriter) (hbytes : ∀ b ∈ w.data, b < 256)
    (hlt : w.bit_buffer < 2 ^ w.bits_in_buffer) :
    w.flushLoop.wbits = w.wbits ∧ w.flushLoop.WF ∧
    w.flushLoop.bits_in_buffer = w.bits_in_buffer % 8 :=
  flushF_spec w.bits_in_buffer w (Nat.le_refl _) hbytes hlt

theorem write_bits_spec (w : BitWriter) (v count : Nat) (h : w.WF)
    (hv : v < 2 ^ count) (hc : count ≤ 24) :
    (w.write_bits v count).WF ∧
    (w.write_bits v count).wbits = w.wbits ++ natBits v count := by
  obtain ⟨hbuf, hbib, hbytes⟩ := h
  have hsum : w.bit_buffer ||| (v <<< w.bits_in_buffer) =
      2 ^ w.bits_in_buffer * v + w.bit_buffer := lor_shift_add _ _ _ hbuf
  have hltc : 2 ^ w.bits_in_buffer * v + w.bit_buffer < 2 ^ (w.bits_in_buffer + count) := by
    rw [Nat.pow_add]
    calc 2 ^ w.bits_in_buffer * v + w.bit_buffer
        < 2 ^ w.bits_in_buffer * v + 2 ^ w.bits_in_buffer := by omega
      _ = 2 ^ w.bits_in_buffer * (v + 1) := by ring
      _ ≤ 2 ^ w.bits_in_buffer * 2 ^ count := Nat.mul_le_mul_left _ (by omega)
  have hlt32 : 2 ^ w.bits_in_buffer * v + w.bit_buffer < 2 ^ 32 := by
    apply lt_of_lt_of_le hltc
    exact Nat.pow_le_pow_right (by omega) (by omega)
  have hmod : (w.bit_buffer ||| (v <<< w.bits_in_buffer)) % 2 ^ 32 =
      2 ^ w.bits_in_buffer * v + w.bit_buffer := by
    rw [hsum]
    exact Nat.mod_eq_of_lt hlt32
  rw [BitWriter.write_bits]
  have hflush := flushLoop_spec
    { data := w.data,
      bit_buffer := (w.bit_buffer ||| (v <<< w.bits_in_buffer)) % 2 ^ 32,
      bits_in_buffer := w.bits_in_buffer + count }
    hbytes (by show _ % 2 ^ 32 < _; rw [hmod]; exact hltc)
  refine ⟨hflush.2.1, ?_⟩
  rw [hflush.1]
  show bytesBits w.data ++ natBits ((w.bit_buffer ||| (v <<< w.bits_in_buffer)) % 2 ^ 32)
      (w.bits_in_buffer + count) = (bytesBits w.data ++ _) ++ _
  rw [hmod, natBits_add, List.append_assoc]
  congr 2
  · rw [Nat.mul_comm, Nat.add_comm, Nat.add_mul_mod_self_right, Nat.mod_eq_of_lt hbuf]
  · rw [Nat.mul_comm, Nat.add_comm, Nat.add_mul_div_right _ _
      (Nat.pos_pow_of_pos _ (by omega)), Nat.div_eq_of_lt hbuf]
    congr 1 <;> omega

theorem get_data_spec (w : BitWriter) (h : w.WF) :
    bytesBits w.get_data =
      w.wbits ++ List.replicate ((8 - w.bits_in_buffer) % 8) false ∧
    (∀ b ∈ w.get_data, b < 256) := by
  obtain ⟨hbuf, hbib, hbytes⟩ := h
  rw [BitWriter.get_data]
  by_cases hpos : 0 < w.bits_in_buffer
  · rw [if_pos hpos]
    have hand : w.bit_buffer &&& 255 = w.bit_buffer % 2 ^ 8 := by
      have h255 : (255 : Nat) = 2 ^ 8 - 1 := by norm_num
      rw [h255, Nat.and_pow_two_sub_one_eq_mod]
    have hsmall : w.bit_buffer % 2 ^ 8 = w.bit_buffer := by
      apply Nat.mod_eq_of_lt
      have : (2 : Nat) ^ w.bits_in_buffer ≤ 2 ^ 8 :=
        Nat.pow_le_pow_right (by omega) (by omega)
      omega
    have hsplit8 : natBits w.bit_buffer 8 =
        natBits w.bit_buffer w.bits_in_buffer ++ natBits 0 (8 - w.bits_in_buffer) := by
      have hadd := natBits_add w.bit_buffer w.bits_in_buffer (8 - w.bits_in_buffer)
      rw [Nat.mod_eq_of_lt hbuf, Nat.div_eq_of_lt hbuf] at hadd
      have hc : w.bits_in_buffer + (8 - w.bits_in_buffer) = 8 := by omega
      rw [hc] at hadd
      exact hadd
    constructor
    · rw [bytesBits_append]
      show _ ++ (natBits (w.bit_buffer &&& 255) 8 ++ []) = _
      rw [List.append_nil, hand, hsmall, BitWriter.wbits, List.append_assoc]
      congr 1
      rw [hsplit8, natBits_zero]
      congr 2
      omega
    · intro b hb
      rcases List.mem_append.mp hb with hb | hb
      · exact hbytes b hb
      · have : b = w.bit_buffer &&& 255 := List.mem_singleton.mp hb
        rw [this, hand]
        have : w.bit_buffer % 2 ^ 8 < 2 ^ 8 := Nat.mod_lt _ (by norm_num)
        omega
  · rw [if_neg hpos]
    have hz : w.bits_in_buffer = 0 := by omega
    constructor
    · rw [BitWriter.wbits, hz]
      simp [natBits]
    · exact hbytes

/-! ## HuffmanTree (deflate.cpp lines 67-193)

`HuffmanNode` is `{int16_t symbol; uint16_t left; uint16_t right}`; child
index 0 means absent, node 0 is the root.  `std::vector<HuffmanNode>` is
an `Smap` plus a capacity (`nodes_.resize(num_symbols * 2)`); a write at
an index `≥` capacity is out of bounds in the C++ (undefined behavior)
and is surfaced as an explicit `ub`-style result.  `vector::resize`
value-initializes, so unwritten nodes read as `{0, 0, 0}` (never read on
reachable paths).
-/

structure HuffmanNode where
  symbol : Int
  left : Nat
  right : Nat

def HuffmanNode.zero : HuffmanNode := { symbol := 0, left := 0, right := 0 }

structure Arena where
  nodes : Smap HuffmanNode
  next : Nat

structure HuffmanTree where
  nodes : Smap HuffmanNode
  cap : Nat
  valid : Bool
  root : Int

/-- The cleared tree produced by `HuffmanTree::clear()`. -/
def HuffmanTree.cleared : HuffmanTree :=
  { nodes := .empty, cap := 0, valid := false, root := -1 }

/-- Counting loop of `build_from_lengths`: `length_counts[lengths[i]]++`
with running maximum.  A length above 15 would write past the
`int length_counts[16]` stack array: undefined behavior, hence `none`. -/
def countStep (lens : List Nat) (st : Option (List Nat × Nat)) (i : Nat) :
    Option (List Nat × Nat) :=
  match st with
  | none => none
  | some (counts, maxl) =>
    let l := lens.getD i 0
    if l = 0 then some (counts, maxl)
    else if 16 ≤ l then none
    else some (counts.set l (counts.getD l 0 + 1), if maxl < l then l else maxl)

def countLengths (lens : List Nat) (n : Nat) : Option (List Nat × Nat) :=
  (List.range n).foldl (countStep lens) (some (List.replicate 16 0, 0))

/-- `for (len = 1; len <= max_length; len++) { code = (code + length_counts[len-1]) << 1; codes[len] = code; }`
Fuel-indexed with fuel `maxl + 1 - len`, which always suffices. -/
def codesGoF (counts : List Nat) (maxl : Nat) : Nat → Nat → Nat → List Nat → List Nat
  | 0, _, _, codes => codes
  | f + 1, len, code, codes =>
    if len ≤ maxl then
      codesGoF counts maxl f (len + 1) ((code + counts.getD (len - 1) 0) <<< 1)
        (codes.set len ((code + counts.getD (len - 1) 0) <<< 1))
    else codes

def codesGo (counts : List Nat) (maxl len code : Nat) (codes : List Nat) : List Nat :=
  codesGoF counts maxl (maxl + 1 - len) len code codes

inductive ARes where
  | ok (ar : Arena)
  | fail
  | ub

/-- The final (`b == len - 1`) iteration of the insertion walk: place the
leaf, failing on a duplicate slot and flagging an out-of-capacity
allocation as undefined behavior. -/
def insertLeaf (cap sym bit : Nat) (ar : Arena) (node : Nat) : ARes :=
  let nd := ar.nodes.getD node HuffmanNode.zero
  if bit = 0 then
    if nd.left ≠ 0 then .fail
    else if cap ≤ ar.next then .ub
    else .ok ⟨(ar.nodes.set node { nd with left := ar.next }).set ar.next
      { symbol := (sym : Int), left := 0, right := 0 }, ar.next + 1⟩
  else
    if nd.right ≠ 0 then .fail
    else if cap ≤ ar.next then .ub
    else .ok ⟨(ar.nodes.set node { nd with right := ar.next }).set ar.next
      { symbol := (sym : Int), left := 0, right := 0 }, ar.next + 1⟩

/-- The per-symbol trie insertion walk (`for (b = 0; b < len; b++)`),
fuel-indexed by the remaining bits `len - b` (which always suffices).
The loop only runs for `b < len`, so the source's leaf test `b == len - 1`
is stated as its equivalent `¬ (b + 1 < len)`. -/
def insertLoopF (cap sym reversed len : Nat) : Nat → Arena → Nat → Nat → ARes
  | 0, ar, node, b => insertLeaf cap sym ((reversed >>> b) &&& 1) ar node
  | f + 1, ar, node, b =>
    let bit := (reversed >>> b) &&& 1
    if b + 1 < len then
      let nd := ar.nodes.getD node HuffmanNode.zero
      let child := if bit = 0 then nd.left else nd.right
      if child = 0 then
        if cap ≤ ar.next then .ub
        else
          insertLoopF cap sym reversed len f
            ⟨(ar.nodes.set node (if bit = 0 then { nd with left := ar.next }
                else { nd with right := ar.next })).set ar.next
              { symbol := -1, left := 0, right := 0 }, ar.next + 1⟩ ar.next (b + 1)
      else insertLoopF cap sym reversed len f ar child (b + 1)
    else insertLeaf cap sym bit ar node

def insertLoop (cap sym reversed len : Nat) (ar : Arena) (node b : Nat) : ARes :=
  insertLoopF cap sym reversed len (len - b) ar node b

inductive SRes where
  | ok (codes : List Nat) (ar : Arena)
  | fail
  | ub

/-- The outer symbol loop of `build_from_lengths`: fetch-and-post-increment
`codes[len]++`, bit-reverse the code, insert into the trie. -/
def symStep (lens : List Nat) (cap : Nat) (st : SRes) (i : Nat) : SRes :=
  match st with
  | .fail => .fail
  | .ub => .ub
  | .ok codes ar =>
    let len := lens.getD i 0
    if len = 0 then .ok codes ar
    else
      let code_val := codes.getD len 0
      let codes2 := codes.set len (code_val + 1)
      let reversed := revLoop code_val 0 len
      match insertLoop cap i reversed len ar 0 0 with
      | .ok ar2 => .ok codes2 ar2
      | .fail => .fail
      | .ub => .ub

inductive BuildRes where
  | ok (t : HuffmanTree)
  | fail (t : HuffmanTree)
  | ub

def HuffmanTree.build_from_lengths (lens : List Nat) (num_symbols : Nat) : BuildRes :=
  match countLengths lens num_symbols with
  | none => .ub
  | some (counts, maxl) =>
    if maxl = 0 then .fail HuffmanTree.cleared
    else
      let codes := codesGo counts maxl 1 0 (List.replicate 16 0)
      let cap := num_symbols * 2
      if cap = 0 then .ub
      else
        let ar0 : Arena := ⟨Smap.empty.set 0 { symbol := -1, left := 0, right := 0 }, 1⟩
        match (List.range num_symbols).foldl (symStep lens cap) (.ok codes ar0) with
        | .ok _ ar =>
          .ok { nodes := ar.nodes, cap := cap, valid := true, root := 0 }
        | .fail => .fail { nodes := .empty, cap := cap, valid := false, root := 0 }
        | .ub => .ub

inductive DecRes where
  | val (sym : Int) (s : BitStream)
  | hang

/-- `decode_symbol` walk.  Fuel `cap + 1` suffices for every tree built by
`build_from_lengths`, because child indices there are strictly larger than
their parent's, so a walk visits strictly increasing indices `< cap`;
`hang` is unreachable for such trees. -/
def HuffmanTree.decodeLoop (t : HuffmanTree) : Nat → BitStream → Nat → DecRes
  | _, _, 0 => .hang
  | node, s, fuel + 1 =>
    let nd := t.nodes.getD node HuffmanNode.zero
    if nd.symbol = -1 then
      let r := s.read_bits 1
      if r.1 = 0 then
        if nd.left = 0 then .val (-1) r.2 else t.decodeLoop nd.left r.2 fuel
      else
        if nd.right = 0 then .val (-1) r.2 else t.decodeLoop nd.right r.2 fuel
    else .val nd.symbol s

def HuffmanTree.decode_symbol (t : HuffmanTree) (s : BitStream) : DecRes :=
  if t.valid = false then .val (-1) s
  else t.decodeLoop t.root.toNat s (t.cap + 1)

/-! ## Inflate (deflate.cpp lines 199-430) -/

def fixed_lit_lengths : List Nat :=
  List.replicate 144 8 ++ List.replicate 112 9 ++ List.replicate 24 7 ++
    List.replicate 8 8

def fixed_dist_lengths : List Nat := List.replicate 32 5

/-- `build_fixed_trees` ignores the boolean results; the built trees are
used as-is.  (Both builds succeed; proved below.) -/
def fixed_lit_tree : HuffmanTree :=
  match HuffmanTree.build_from_lengths fixed_lit_lengths 288 with
  | .ok t => t
  | .fail t => t
  | .ub => HuffmanTree.cleared

def fixed_dist_tree : HuffmanTree :=
  match HuffmanTree.build_from_lengths fixed_dist_lengths 32 with
  | .ok t => t
  | .fail t => t
  | .ub => HuffmanTree.cleared

def length_base : List Nat :=
  [3, 4, 5, 6, 7, 8, 9, 10, 11, 13, 15, 17, 19, 23] ++
    [27, 31, 35, 43, 51, 59, 67, 83, 99, 115, 131, 163, 195, 227, 258]

def length_extra : List Nat :=
  [0, 0, 0, 0, 0, 0, 0, 0, 1, 1, 1, 1, 2, 2] ++
    [2, 2, 3, 3, 3, 3, 4, 4, 4, 4, 5, 5, 5, 5, 0]

def dist_base : List Nat :=
  [1, 2, 3, 4, 5, 7, 9, 13, 17, 25, 33, 49, 65, 97, 129] ++
    [193, 257, 385, 513, 769, 1025, 1537, 2049, 3073, 4097, 6145,
     8193, 12289, 16385, 24577]

def dist_extra : List Nat :=
  [0, 0, 0, 0, 1, 1, 2, 2, 3, 3, 4, 4, 5, 5, 6] ++
    [6, 7, 7, 8, 8, 9, 9, 10, 10, 11, 11, 12, 12, 13, 13]

/-- The byte-by-byte history copy `output.push_back(output[start + i])`.
An out-of-range read is undefined behavior, hence `none`. -/
def copyLoop : List Nat → Nat → Nat → Option (List Nat)
  | out, _, 0 => some out
  | out, pos, l + 1 =>
    match out.get? pos with
    | none => none
    | some b => copyLoop (out ++ [b]) (pos + 1) l

/-- `lz77_copy`: `size_t start = output.size() - distance;` wraps around
when `distance > output.size()`, making every subsequent `output[start+i]`
access out of bounds (undefined behavior → `none`). -/
def Inflate.lz77_copy (output : List Nat) (distance len : Nat) : Option (List Nat) :=
  if distance ≤ output.length then copyLoop output (output.length - distance) len
  else if len = 0 then some output
  else none

inductive HuffRes where
  | done (s : BitStream) (out : List Nat)
  | fail (s : BitStream) (out : List Nat)
  | ub
  | hang

/-- One iteration of the literal/length-distance symbol loop of
`decode_huffman_data`; `next` is the continuation for the following
iteration (the loop body is factored out so that a single unrolling of the
fuel-indexed loop below is a one-step rewrite). -/
def Inflate.decodeStep (lit_tree dist_tree : HuffmanTree)
    (next : BitStream → List Nat → HuffRes) (s : BitStream) (out : List Nat) :
    HuffRes :=
  match lit_tree.decode_symbol s with
  | .hang => .hang
  | .val sym s1 =>
    if sym < 0 then .fail s1 out
    else if sym < 256 then next s1 (out ++ [sym.toNat])
    else if sym = 256 then .done s1 out
    else
      let len_code := (sym - 257).toNat
      if 29 ≤ len_code then .fail s1 out
      else
        let lenBase := length_base.getD len_code 0
        let lenExtra := length_extra.getD len_code 0
        let re := if 0 < lenExtra then s1.read_bits lenExtra else (0, s1)
        let length := lenBase + re.1
        match dist_tree.decode_symbol re.2 with
        | .hang => .hang
        | .val dsym s3 =>
          if dsym < 0 ∨ 30 ≤ dsym then .fail s3 out
          else
            let dist_code := dsym.toNat
            let dBase := dist_base.getD dist_code 0
            let dExtra := dist_extra.getD dist_code 0
            let rd := if 0 < dExtra then s3.read_bits dExtra else (0, s3)
            let distance := dBase + rd.1
            match Inflate.lz77_copy out distance length with
            | none => .ub
            | some out2 => next rd.2 out2

/-- The shared literal/length-distance symbol loop (`decode_huffman_data`).
The C++ loop has no iteration bound (a crafted stream can make it spin on
zero-bit reads); fuel exhaustion is the explicit `hang` outcome. -/
def Inflate.decode_huffman_data (lit_tree dist_tree : HuffmanTree) :
    BitStream → List Nat → Nat → HuffRes
  | _, _, 0 => .hang
  | s, out, fuel + 1 =>
    Inflate.decodeStep lit_tree dist_tree
      (fun s1 o1 => Inflate.decode_huffman_data lit_tree dist_tree s1 o1 fuel) s out

def Inflate.process_fixed_huffman (s : BitStream) (out : List Nat) (fuel : Nat) :
    HuffRes :=
  Inflate.decode_huffman_data fixed_lit_tree fixed_dist_tree s out fuel

/-- `for (int i = 0; i < len; i++) output.push_back(stream.read_bits(8));` -/
def readBytesLoop : BitStream → List Nat → Nat → BitStream × List Nat
  | s, out, 0 => (s, out)
  | s, out, i + 1 =>
    let r := s.read_bits 8
    readBytesLoop r.2 (out ++ [r.1]) i

/-- `process_uncompressed`.  The C++ reads LEN and NLEN via
`read_bits(8) | (read_bits(8) << 8)`; the two-call order is modelled
low-byte-first (little-endian), matching RFC 1951 and the encoder. -/
def Inflate.process_uncompressed (s : BitStream) (out : List Nat) :
    Bool × BitStream × List Nat :=
  let s0 := s.align_to_byte
  let r1 := s0.read_bits 8
  let r2 := r1.2.read_bits 8
  let len := r1.1 ||| (r2.1 <<< 8)
  let r3 := r2.2.read_bits 8
  let r4 := r3.2.read_bits 8
  let nlen := r3.1 ||| (r4.1 <<< 8)
  if len ^^^ nlen ≠ 65535 then (false, r4.2, out)
  else
    let r := readBytesLoop r4.2 out len
    (true, r.1, r.2)

def code_length_order : List Nat :=
  [16, 17, 18, 0, 8, 7, 9, 6, 10, 5] ++ [11, 4, 12, 3, 13, 2, 14, 1, 15]

/-- `for (i = 0; i < hclen; i++) code_lengths[code_length_order[i]] = read_bits(3);`
`i` is the running index, the last argument counts the remaining iterations. -/
def clLoop : BitStream → List Nat → Nat → Nat → BitStream × List Nat
  | s, cl, _, 0 => (s, cl)
  | s, cl, i, c + 1 =>
    let r := s.read_bits 3
    clLoop r.2 (cl.set (code_length_order.getD i 0) r.1) (i + 1) c

inductive LenRes where
  | ok (lens : List Nat) (s : BitStream)
  | fail (s : BitStream)
  | hang

/-- The code-length decoding loop of `process_dynamic_huffman`
(`while (lengths.size() < hlit + hdist)`).  Every reachable iteration
appends at least one entry, so fuel `target + 1` is enough; the final
`hang` alternative marks the (unreachable) case of a decoded symbol
outside `0..18`, on which the C++ would loop forever. -/
def lengthsLoop (ct : HuffmanTree) : BitStream → List Nat → Nat → Nat → LenRes
  | _, _, _, 0 => .hang
  | s, acc, target, fuel + 1 =>
    if acc.length < target then
      match ct.decode_symbol s with
      | .hang => .hang
      | .val sym s1 =>
        if sym < 0 then .fail s1
        else if sym < 16 then lengthsLoop ct s1 (acc ++ [sym.toNat]) target fuel
        else if sym = 16 then
          if acc.length = 0 then .fail s1
          else
            let r := s1.read_bits 2
            lengthsLoop ct r.2 (acc ++ List.replicate (r.1 + 3) (acc.getLastD 0))
              target fuel
        else if sym = 17 then
          let r := s1.read_bits 3
          lengthsLoop ct r.2 (acc ++ List.replicate (r.1 + 3) 0) target fuel
        else if sym = 18 then
          let r := s1.read_bits 7
          lengthsLoop ct r.2 (acc ++ List.replicate (r.1 + 11) 0) target fuel
        else .hang
    else .ok acc s

def Inflate.process_dynamic_huffman (s : BitStream) (out : List Nat) (fuel : Nat) :
    HuffRes :=
  let r1 := s.read_bits 5
  let hlit := r1.1 + 257
  let r2 := r1.2.read_bits 5
  let hdist := r2.1 + 1
  let r3 := r2.2.read_bits 4
  let hclen := r3.1 + 4
  let rcl := clLoop r3.2 (List.replicate 19 0) 0 hclen
  match HuffmanTree.build_from_lengths rcl.2 19 with
  | .ub => .ub
  | .fail _ => .fail rcl.1 out
  | .ok code_tree =>
    match lengthsLoop code_tree rcl.1 [] (hlit + hdist) (hlit + hdist + 1) with
    | .hang => .hang
    | .fail s5 => .fail s5 out
    | .ok lens s5 =>
      match HuffmanTree.build_from_lengths lens hlit with
      | .ub => .ub
      | .fail _ => .fail s5 out
      | .ok lit_tree =>
        match HuffmanTree.build_from_lengths (lens.drop hlit) hdist with
        | .ub => .ub
        | .fail _ => .fail s5 out
        | .ok dist_tree =>
          Inflate.decode_huffman_data lit_tree dist_tree s5 out fuel

inductive DOut where
  | ok (out : List Nat)
  | corrupted (out : List Nat)
  | ub
  | hang
deriving DecidableEq

/-- One iteration of the `while (!is_final_block)` loop of
`Inflate::decompress`; `next` is the continuation for the following block
(the body is factored out so a single unrolling of the fuel-indexed loop
below is a one-step rewrite). -/
def Inflate.blockStep (dataFuel : Nat) (next : BitStream → List Nat → DOut)
    (s : BitStream) (out : List Nat) : DOut :=
  let r1 := s.read_bits 1
  let is_final := r1.1 ≠ 0
  let r2 := r1.2.read_bits 2
  let block_type := r2.1
  if block_type = 0 then
    match Inflate.process_uncompressed r2.2 out with
    | (false, _, out3) => .corrupted out3
    | (true, s3, out3) => if is_final then .ok out3 else next s3 out3
  else if block_type = 1 then
    match Inflate.process_fixed_huffman r2.2 out dataFuel with
    | .done s3 out3 => if is_final then .ok out3 else next s3 out3
    | .fail _ out3 => .corrupted out3
    | .ub => .ub
    | .hang => .hang
  else if block_type = 2 then
    match Inflate.process_dynamic_huffman r2.2 out dataFuel with
    | .done s3 out3 => if is_final then .ok out3 else next s3 out3
    | .fail _ out3 => .corrupted out3
    | .ub => .ub
    | .hang => .hang
  else .corrupted out

/-- The block loop of `Inflate::decompress`.  `dataFuel` bounds the inner
symbol loops, `fuel` the number of blocks; both are generous enough for
every terminating C++ execution (see `Inflate.decompress`). -/
def Inflate.blockLoop (dataFuel : Nat) : BitStream → List Nat → Nat → DOut
  | _, _, 0 => .hang
  | s, out, fuel + 1 =>
    Inflate.blockStep dataFuel
      (fun s3 out3 => Inflate.blockLoop dataFuel s3 out3 fuel) s out

/-- `Inflate::decompress`.  `ok out` is `FCONVERT_OK` with `output = out`;
`corrupted out` is `FCONVERT_ERROR_CORRUPTED_FILE` with the partially
filled `output` buffer still visible to the caller (it is passed by
reference and only cleared on entry). -/
def Inflate.decompress (data : List Nat) : DOut :=
  Inflate.blockLoop (8 * data.length + 64) (BitStream.init data) []
    (8 * data.length + 64)

/-! ## LZ77 (lz77.h / lz77.cpp)

`LZ77Token` is the C++ tagged union `{bool is_literal; union {uint8_t literal;
LZ77Match match;}}`, modelled as a sum type.  The hash table and chain array
(`hash_table_`, `prev_`, both `std::vector<int>` filled with `-1`) are
`Smap Int` with default `-1`.  Constants: window 32768, minimum match 3,
maximum match 258, hash size 8192.
-/

inductive LZ77Token where
  | literal (b : Nat)
  | mtch (length distance : Nat)
deriving DecidableEq

structure LZ77State where
  hash_table : Smap Int
  prev : Smap Int

def hash3 (a b c : Nat) : Nat :=
  ((a <<< 10) ^^^ (b <<< 5) ^^^ c) &&& 8191

/-- The byte-equality run `while (match_len < max_len && data[i + match_len]
== data[pos + match_len]) match_len++`, counting from the front. -/
def matchLen : List Nat → Nat → Nat → Nat → Nat
  | _, _, _, 0 => 0
  | data, i, pos, m + 1 =>
    if data.getD i 0 = data.getD pos 0 then 1 + matchLen data (i + 1) (pos + 1) m
    else 0

/-- Brute-force window scan (`LZ77::find_match`), used for levels 1-5.
Fuel-indexed with fuel `pos - i`, which always suffices. -/
def find_match_goF (data : List Nat) (pos size : Nat) :
    Nat → Nat → Nat × Nat → Nat × Nat
  | 0, _, best => best
  | f + 1, i, best =>
    if i < pos then
      let max_len := min 258 (size - pos)
      let ml := matchLen data i pos max_len
      find_match_goF data pos size f (i + 1)
        (if 3 ≤ ml ∧ best.1 < ml then (ml, pos - i) else best)
    else best

def find_match_go (data : List Nat) (pos size i : Nat) (best : Nat × Nat) :
    Nat × Nat :=
  find_match_goF data pos size (pos - i) i best

def LZ77.find_match (data : List Nat) (pos size window_start : Nat) : Nat × Nat :=
  find_match_go data pos size window_start (0, 0)

/-- `prev_[pos] = hash_table_[h]; hash_table_[h] = pos;` -/
def insertHash (st : LZ77State) (data : List Nat) (pos : Nat) : LZ77State :=
  let h := hash3 (data.getD pos 0) (data.getD (pos + 1) 0) (data.getD (pos + 2) 0)
  { hash_table := st.hash_table.set h (pos : Int),
    prev := st.prev.set pos (st.hash_table.getD h (-1)) }

/-- The hash-chain walk of `find_match_hash`.  The fuel is
`max_chain - chain_len` (`max_chain = 128`).  The quick check is
`data[match_pos] == data[pos] && data[match_pos + best_match.length] ==
data[pos + best_match.length]`: when the first comparison passes and the
best match already reaches the end of the input
(`pos + best_match.length = size`), the second comparison reads one byte
past the end of the buffer — undefined behavior, surfaced as `none`.
(The left operand `match_pos + best_match.length` is always in bounds,
because `match_pos < pos`.) -/
def chainLoop (st : LZ77State) (data : List Nat) (pos size window_start : Nat) :
    Int → Nat × Nat → Nat → Option (Nat × Nat)
  | _, best, 0 => some best
  | mp, best, f + 1 =>
    if mp < (window_start : Int) then some best
    else if (pos : Int) ≤ mp then some best
    else
      let mpn := mp.toNat
      let max_len := min 258 (size - pos)
      if data.getD mpn 0 = data.getD pos 0 then
        if size ≤ pos + best.1 then none
        else if data.getD (mpn + best.1) 0 = data.getD (pos + best.1) 0 then
          let ml := matchLen data mpn pos max_len
          if best.1 < ml then
            if 128 ≤ ml then some (ml, pos - mpn)
            else chainLoop st data pos size window_start (st.prev.getD mpn (-1))
              (ml, pos - mpn) f
          else chainLoop st data pos size window_start (st.prev.getD mpn (-1)) best f
        else chainLoop st data pos size window_start (st.prev.getD mpn (-1)) best f
      else chainLoop st data pos size window_start (st.prev.getD mpn (-1)) best f

def LZ77.find_match_hash (st : LZ77State) (data : List Nat)
    (pos size window_start : Nat) : Option (Nat × Nat) :=
  if size ≤ pos + 2 then some (0, 0)
  else
    let h := hash3 (data.getD pos 0) (data.getD (pos + 1) 0) (data.getD (pos + 2) 0)
    chainLoop st data pos size window_start (st.hash_table.getD h (-1)) (0, 0) 128

/-- Hash-table update over the bytes of an emitted match:
`for (i = 0; i < match.length && pos < size; i++, pos++)
  if (pos + 2 < size) insert`. -/
def insertHashRange (data : List Nat) (size : Nat) : LZ77State → Nat → Nat → LZ77State
  | st, _, 0 => st
  | st, pos, l + 1 =>
    if pos < size then
      insertHashRange data size
        (if pos + 2 < size then insertHash st data pos else st) (pos + 1) l
    else st

/-- Match selection of the main loop: hash chain for `level >= 6`, brute
force for `level >= 1`, no search otherwise (`LZ77Match match = {0, 0}`). -/
def LZ77.pickMatch (st : LZ77State) (data : List Nat) (level : Int)
    (pos size window_start : Nat) : Option (Nat × Nat) :=
  if 6 ≤ level ∧ pos + 3 ≤ size then
    LZ77.find_match_hash st data pos size window_start
  else if 1 ≤ level ∧ pos + 3 ≤ size then
    some (LZ77.find_match data pos size window_start)
  else some (0, 0)

/-- `size_t window_start = (pos >= WINDOW_SIZE) ? (pos - WINDOW_SIZE) : 0;` -/
def LZ77.wstart (pos : Nat) : Nat := if 32768 ≤ pos then pos - 32768 else 0

/-- The main loop of `LZ77::compress`, fuel-indexed with fuel
`size - pos` (each iteration advances `pos` by at least 1, so that always
suffices).  The C++ stores the selected match in a local
(`LZ77Match match`); `pickMatch` being pure, the local is inlined at its
use sites. -/
def LZ77.compressLoopF (data : List Nat) (size : Nat) (level : Int) :
    Nat → LZ77State → Nat → List LZ77Token → Option (List LZ77Token)
  | 0, _, _, tokens => some tokens
  | f + 1, st, pos, tokens =>
    if pos < size then
      match LZ77.pickMatch st data level pos size (LZ77.wstart pos) with
      | none => none
      | some m =>
        if 3 ≤ m.1 then
          LZ77.compressLoopF data size level f
            (insertHashRange data size st pos m.1) (pos + m.1)
            (tokens ++ [.mtch m.1 m.2])
        else
          LZ77.compressLoopF data size level f
            (if pos + 2 < size then insertHash st data pos else st)
            (pos + 1) (tokens ++ [.literal (data.getD pos 0)])
    else some tokens

def LZ77.compressLoop (data : List Nat) (size : Nat) (level : Int)
    (st : LZ77State) (pos : Nat) (tokens : List LZ77Token) :
    Option (List LZ77Token) :=
  LZ77.compressLoopF data size level (size - pos) st pos tokens

def LZ77.compress (data : List Nat) (level : Int) : Option (List LZ77Token) :=
  if data.length = 0 then some []
  else
    LZ77.compressLoop data data.length level
      { hash_table := .empty, prev := .empty } 0 []

/-! ## Deflate (deflate.cpp lines 484-536, deflate_compress.cpp) -/

/-- The two members of `fconvert_error_t` (include/fconvert.h) that this
engine produces or is specified to produce. -/
inductive fconvert_error_t where
  | FCONVERT_OK
  | FCONVERT_ERROR_CORRUPTED_FILE
deriving DecidableEq

structure HuffmanCode where
  code : Nat
  length : Nat

/-- `get_fixed_codes` fills `lit_codes[288]` with exactly this mapping
(deflate_compress.cpp lines 13-37). -/
def lit_code (i : Nat) : HuffmanCode :=
  if i ≤ 143 then { code := i + 48, length := 8 }
  else if i ≤ 255 then { code := i + 256, length := 9 }
  else if i ≤ 279 then { code := i - 256, length := 7 }
  else { code := i - 88, length := 8 }

def dist_code_fixed (i : Nat) : HuffmanCode := { code := i, length := 5 }

/-- `for (i = 0; i < bound; i++) { if (v < table[i]) break; c = i; }`
Fuel-indexed with fuel `bound - i`, which always suffices. -/
def scanGoF (table : List Nat) (v bound : Nat) : Nat → Nat → Nat → Nat
  | 0, _, cur => cur
  | f + 1, i, cur =>
    if i < bound then
      if v < table.getD i 0 then cur
      else scanGoF table v bound f (i + 1) i
    else cur

def scanGo (table : List Nat) (v bound i cur : Nat) : Nat :=
  scanGoF table v bound (bound - i) i cur

def find_len_code (len : Nat) : Nat :=
  let c := scanGo length_base len 29 0 0
  if c < 28 ∧ length_base.getD (c + 1) 0 ≤ len then c + 1 else c

def find_dist_code (dist : Nat) : Nat :=
  let c := scanGo dist_base dist 30 0 0
  if c < 29 ∧ dist_base.getD (c + 1) 0 ≤ dist then c + 1 else c

/-- The token-emission body of the `for (token : tokens)` loop of
`compress_fixed_huffman`. -/
def writeToken (w : BitWriter) (t : LZ77Token) : BitWriter :=
  match t with
  | .literal b => w.write_bits_reverse (lit_code b).code (lit_code b).length
  | .mtch len dist =>
    let lc := find_len_code len
    let w1 := w.write_bits_reverse (lit_code (257 + lc)).code (lit_code (257 + lc)).length
    let w2 :=
      if 0 < length_extra.getD lc 0 then
        w1.write_bits (len - length_base.getD lc 0) (length_extra.getD lc 0)
      else w1
    let dc := find_dist_code dist
    let w3 := w2.write_bits_reverse (dist_code_fixed dc).code (dist_code_fixed dc).length
    if 0 < dist_extra.getD dc 0 then
      w3.write_bits (dist - dist_base.getD dc 0) (dist_extra.getD dc 0)
    else w3

def Deflate.compress_fixed_huffman (input : List Nat) (level : Int) :
    Option (fconvert_error_t × List Nat) :=
  match LZ77.compress input level with
  | none => none
  | some tokens =>
    let w0 := BitWriter.init
    let w1 := w0.write_bits 1 1
    let w2 := w1.write_bits 1 2
    let w3 := tokens.foldl writeToken w2
    let w4 := w3.write_bits_reverse (lit_code 256).code (lit_code 256).length
    some (.FCONVERT_OK, w4.get_data)

/-- The stored-block chunk loop of `compress_uncompressed`.  `~len` on
uint16_t is `65535 - len`.  Fuel-indexed: each chunk advances `pos` by at
least 1 byte, so fuel `input.length - pos` always suffices. -/
def storedLoopF (input : List Nat) : Nat → Nat → List Nat → List Nat
  | 0, _, out => out
  | f + 1, pos, out =>
    if pos < input.length then
      let block_size := min 65535 (input.length - pos)
      let is_final := input.length ≤ pos + block_size
      let header : Nat := if is_final then 1 else 0
      let len := block_size
      let nlen := 65535 - len
      storedLoopF input f (pos + block_size)
        (out ++ [header, len % 256, len / 256 % 256, nlen % 256, nlen / 256 % 256] ++
          ((input.drop pos).take block_size))
    else out

def storedLoop (input : List Nat) (pos : Nat) (out : List Nat) : List Nat :=
  storedLoopF input (input.length - pos) pos out

def Deflate.compress_uncompressed (input : List Nat) : fconvert_error_t × List Nat :=
  (.FCONVERT_OK, storedLoop input 0 [])

/-- The level dispatch of `Deflate::compress`.  The stored path always
completes; the fixed-Huffman path inherits the possible out-of-bounds
read of `LZ77::compress` (`none` = undefined behavior). -/
def Deflate.compress (input : List Nat) (level : Int) :
    Option (fconvert_error_t × List Nat) :=
  if level = 0 then some (Deflate.compress_uncompressed input)
  else Deflate.compress_fixed_huffman input level

/-! ## Token replay (specification side, §3 of the spec / claim C8)

A token sequence is replayed by appending literals and resolving each
match as "copy `length` bytes starting `distance` bytes before the current
output position", byte by byte, so overlapping (`distance < length`)
copies are tolerated.
-/

def replayCopy : List Nat → Nat → Nat → List Nat
  | out, _, 0 => out
  | out, dist, l + 1 => replayCopy (out ++ [out.getD (out.length - dist) 0]) dist l

def replayToken (out : List Nat) : LZ77Token → List Nat
  | .literal b => out ++ [b]
  | .mtch len dist => replayCopy out dist len

def replayTokens : List Nat → List LZ77Token → List Nat
  | out, [] => out
  | out, t :: ts => replayTokens (replayToken out t) ts

/-- `TokensFit data pos toks`: replaying `toks` from output `data.take pos`
reconstructs `data`, with every match in range of the window and of the
already-produced output.  This is the invariant of the `LZ77::compress`
main loop. -/
inductive TokensFit (data : List Nat) : Nat → List LZ77Token → Prop where
  | nil : TokensFit data data.length []
  | lit (pos : Nat) (toks : List LZ77Token) (hp : pos < data.length)
      (ht : TokensFit data (pos + 1) toks) :
      TokensFit data pos (.literal (data.getD pos 0) :: toks)
  | mat (pos len dist : Nat) (toks : List LZ77Token)
      (h3 : 3 ≤ len) (h258 : len ≤ 258) (hle : pos + len ≤ data.length)
      (hd1 : 1 ≤ dist) (hdp : dist ≤ pos) (hdw : dist ≤ 32768)
      (hmatch : ∀ k, k < len → data.getD (pos - dist + k) 0 = data.getD (pos + k) 0)
      (ht : TokensFit data (pos + len) toks) :
      TokensFit data pos (.mtch len dist :: toks)

theorem matchLen_le (data : List Nat) (i pos m : Nat) :
    matchLen data i pos m ≤ m := by
  induction m generalizing i pos with
  | zero => simp [matchLen]
  | succ k ih =>
    rw [matchLen]
    split
    · have := ih (i + 1) (pos + 1)
      omega
    · omega

theorem matchLen_spec (data : List Nat) (m i pos : Nat) :
    ∀ k, k < matchLen data i pos m →
      data.getD (i + k) 0 = data.getD (pos + k) 0 := by
  induction m generalizing i pos with
  | zero => simp [matchLen]
  | succ n ih =>
    intro k hk
    rw [matchLen] at hk
    by_cases heq : data.getD i 0 = data.getD pos 0
    · rw [if_pos heq] at hk
      match k with
      | 0 => simpa using heq
      | k + 1 =>
        have := ih (i + 1) (pos + 1) k (by omega)
        have e1 : i + (k + 1) = i + 1 + k := by omega
        have e2 : pos + (k + 1) = pos + 1 + k := by omega
        rw [e1, e2]
        exact this
    · rw [if_neg heq] at hk
      omega

/-- Validity of a candidate match at `pos` (relative to the window). -/
def ValidMatch (data : List Nat) (pos size : Nat) (m : Nat × Nat) : Prop :=
  3 ≤ m.1 ∧ m.1 ≤ 258 ∧ pos + m.1 ≤ size ∧ 1 ≤ m.2 ∧ m.2 ≤ pos ∧ m.2 ≤ 32768 ∧
  ∀ k, k < m.1 → data.getD (pos - m.2 + k) 0 = data.getD (pos + k) 0

theorem valid_of_candidate (data : List Nat) (pos size i : Nat)
    (hi : i < pos) (hw : pos - 32768 ≤ i) (ml : Nat)
    (hml3 : 3 ≤ ml) (hmlle : ml ≤ min 258 (size - pos)) (hps : pos ≤ size)
    (hspec : ∀ k, k < ml → data.getD (i + k) 0 = data.getD (pos + k) 0) :
    ValidMatch data pos size (ml, pos - i) := by
  refine ⟨hml3, by omega, by omega, by omega, by omega, by omega, ?_⟩
  intro k hk
  have hpi : pos - (pos - i) = i := by omega
  rw [hpi]
  exact hspec k hk

theorem ws_bound (pos : Nat) : pos - 32768 ≤ LZ77.wstart pos := by
  rw [LZ77.wstart]
  split <;> omega

theorem find_match_go_spec (data : List Nat) (pos size : Nat) (hps : pos ≤ size) :
    ∀ i best, pos - 32768 ≤ i →
      (3 ≤ best.1 → ValidMatch data pos size best) →
      (3 ≤ (find_match_go data pos size i best).1 →
        ValidMatch data pos size (find_match_go data pos size i best)) := by
  suffices key : ∀ m i best, pos - i ≤ m → pos - 32768 ≤ i →
      (3 ≤ best.1 → ValidMatch data pos size best) →
      (3 ≤ (find_match_goF data pos size m i best).1 →
        ValidMatch data pos size (find_match_goF data pos size m i best)) by
    intro i best hw hbest
    simp only [find_match_go]
    exact key (pos - i) i best (Nat.le_refl _) hw hbest
  intro m
  induction m with
  | zero =>
    intro i best hm hw hbest
    exact hbest
  | succ n ih =>
    intro i best hm hw hbest
    rw [find_match_goF]
    by_cases hi : i < pos
    · rw [if_pos hi]
      apply ih (i + 1) _ (by omega) (by omega)
      by_cases hupd : 3 ≤ matchLen data i pos (min 258 (size - pos)) ∧
          best.1 < matchLen data i pos (min 258 (size - pos))
      · rw [if_pos hupd]
        intro _
        exact valid_of_candidate data pos size i hi hw _ hupd.1
          (matchLen_le _ _ _ _) hps (matchLen_spec _ _ _ _)
      · rw [if_neg hupd]
        exact hbest
    · rw [if_neg hi]
      exact hbest

theorem chainLoop_spec (st : LZ77State) (data : List Nat) (pos size ws : Nat)
    (hps : pos ≤ size) (hw : pos - 32768 ≤ ws) :
    ∀ f mp best best2, (3 ≤ best.1 → ValidMatch data pos size best) →
      chainLoop st data pos size ws mp best f = some best2 →
      3 ≤ best2.1 → ValidMatch data pos size best2 := by
  intro f
  induction f with
  | zero =>
    intro mp best best2 hbest heq
    have hb : best = best2 := by
      have h2 : some best = some best2 := heq
      exact (Option.some.injEq _ _).mp h2
    rw [← hb]
    exact hbest
  | succ n ih =>
    intro mp best best2 hbest heq
    rw [chainLoop] at heq
    by_cases h1 : mp < (ws : Int)
    · rw [if_pos h1] at heq
      have hb := (Option.some.injEq _ _).mp heq
      rw [← hb]
      exact hbest
    · rw [if_neg h1] at heq
      by_cases h2 : (pos : Int) ≤ mp
      · rw [if_pos h2] at heq
        have hb := (Option.some.injEq _ _).mp heq
        rw [← hb]
        exact hbest
      · rw [if_neg h2] at heq
        have hge : (ws : Int) ≤ mp := by omega
        have hlt : mp < (pos : Int) := by omega
        have hmpn1 : mp.toNat < pos := by omega
        have hmpn2 : pos - 32768 ≤ mp.toNat := by omega
        by_cases hq1 : data.getD mp.toNat 0 = data.getD pos 0
        · rw [if_pos hq1] at heq
          by_cases hub : size ≤ pos + best.1
          · rw [if_pos hub] at heq
            exact absurd heq (by simp)
          · rw [if_neg hub] at heq
            by_cases hq2 : data.getD (mp.toNat + best.1) 0 =
                data.getD (pos + best.1) 0
            · rw [if_pos hq2] at heq
              by_cases himp : best.1 < matchLen data mp.toNat pos
                  (min 258 (size - pos))
              · rw [if_pos himp] at heq
                have hcand : 3 ≤ matchLen data mp.toNat pos (min 258 (size - pos)) →
                    ValidMatch data pos size
                      (matchLen data mp.toNat pos (min 258 (size - pos)),
                        pos - mp.toNat) := by
                  intro h3
                  exact valid_of_candidate data pos size mp.toNat hmpn1 hmpn2 _ h3
                    (matchLen_le _ _ _ _) hps (matchLen_spec _ _ _ _)
                by_cases hbig : 128 ≤ matchLen data mp.toNat pos (min 258 (size - pos))
                · rw [if_pos hbig] at heq
                  have hb := (Option.some.injEq _ _).mp heq
                  rw [← hb]
                  exact hcand
                · rw [if_neg hbig] at heq
                  exact ih _ _ _ (fun h3 => hcand h3) heq
              · rw [if_neg himp] at heq
                exact ih _ _ _ hbest heq
            · rw [if_neg hq2] at heq
              exact ih _ _ _ hbest heq
        · rw [if_neg hq1] at heq
          exact ih _ _ _ hbest heq

theorem pickMatch_spec (st : LZ77State) (data : List Nat) (level : Int)
    (pos size ws : Nat) (hps : pos ≤ size) (hw : pos - 32768 ≤ ws)
    (m : Nat × Nat) (heq : LZ77.pickMatch st data level pos size ws = some m) :
    3 ≤ m.1 → ValidMatch data pos size m := by
  rw [LZ77.pickMatch] at heq
  by_cases h6 : 6 ≤ level ∧ pos + 3 ≤ size
  · rw [if_pos h6] at heq
    rw [LZ77.find_match_hash] at heq
    by_cases hsz : size ≤ pos + 2
    · rw [if_pos hsz] at heq
      have hb := (Option.some.injEq _ _).mp heq
      rw [← hb]
      intro h
      simp at h
    · rw [if_neg hsz] at heq
      exact chainLoop_spec st data pos size ws hps hw 128 _ (0, 0) m
        (by intro h; simp at h) heq
  · rw [if_neg h6] at heq
    by_cases h1 : 1 ≤ level ∧ pos + 3 ≤ size
    · rw [if_pos h1] at heq
      have hb := (Option.some.injEq _ _).mp heq
      rw [← hb]
      exact find_match_go_spec data pos size hps ws (0, 0) hw
        (by intro h; simp at h)
    · rw [if_neg h1] at heq
      have hb := (Option.some.injEq _ _).mp heq
      rw [← hb]
      intro h
      simp at h

theorem compressLoopF_append (data : List Nat) (size : Nat) (level : Int) :
    ∀ f pos st tokens, LZ77.compressLoopF data size level f st pos tokens =
      (LZ77.compressLoopF data size level f st pos []).map
        (fun ts => tokens ++ ts) := by
  intro f
  induction f with
  | zero =>
    intro pos st tokens
    simp [LZ77.compressLoopF]
  | succ n ih =>
    intro pos st tokens
    conv_lhs => rw [LZ77.compressLoopF]
    conv_rhs => rw [LZ77.compressLoopF]
    by_cases hp : pos < size
    · rw [if_pos hp, if_pos hp]
      rcases hpick : LZ77.pickMatch st data level pos size (LZ77.wstart pos)
        with - | m
      · simp
      · simp only
        by_cases hm3 : 3 ≤ m.1
        · rw [if_pos hm3, if_pos hm3]
          rw [ih _ _ (tokens ++ [LZ77Token.mtch m.1 m.2]),
            ih _ _ ([] ++ [LZ77Token.mtch m.1 m.2])]
          cases LZ77.compressLoopF data size level n
            (insertHashRange data size st pos m.1) (pos + m.1) [] <;> simp
        · rw [if_neg hm3, if_neg hm3]
          rw [ih _ _ (tokens ++ [LZ77Token.literal (data.getD pos 0)]),
            ih _ _ ([] ++ [LZ77Token.literal (data.getD pos 0)])]
          cases LZ77.compressLoopF data size level n
            (if pos + 2 < size then insertHash st data pos else st) (pos + 1) []
            <;> simp
    · rw [if_neg hp, if_neg hp]
      simp

theorem compressLoop_append (data : List Nat) (size : Nat) (level : Int) :
    ∀ pos st tokens, LZ77.compressLoop data size level st pos tokens =
      (LZ77.compressLoop data size level st pos []).map
        (fun ts => tokens ++ ts) := by
  intro pos st tokens
  simp only [LZ77.compressLoop]
  exact compressLoopF_append data size level (size - pos) pos st tokens

/-- The main-loop invariant of `LZ77::compress`: when the loop completes
(no out-of-bounds read), the emitted token suffix fits the data from the
current position on. -/
theorem compressLoop_fit (data : List Nat) (level : Int) :
    ∀ pos st toks, pos ≤ data.length →
      LZ77.compressLoop data data.length level st pos [] = some toks →
      TokensFit data pos toks := by
  suffices key : ∀ m pos st toks, pos ≤ data.length → data.length - pos ≤ m →
      LZ77.compressLoopF data data.length level m st pos [] = some toks →
      TokensFit data pos toks by
    intro pos st toks hpos heq
    exact key (data.length - pos) pos st toks hpos (Nat.le_refl _) heq
  intro m
  induction m with
  | zero =>
    intro pos st toks hpos hm heq
    have hp : pos = data.length := by omega
    have ht : toks = [] := by
      have h2 : some ([] : List LZ77Token) = some toks := heq
      exact ((Option.some.injEq _ _).mp h2).symm
    rw [ht, hp]
    exact TokensFit.nil
  | succ n ih =>
    intro pos st toks hpos hm heq
    rw [LZ77.compressLoopF] at heq
    by_cases hp : pos < data.length
    · rw [if_pos hp] at heq
      rcases hpick : LZ77.pickMatch st data level pos data.length (LZ77.wstart pos)
        with - | mtc
      · rw [hpick] at heq
        exact absurd heq (by simp)
      · rw [hpick] at heq
        simp only at heq
        by_cases hm3 : 3 ≤ mtc.1
        · rw [if_pos hm3] at heq
          rw [compressLoopF_append data data.length level n _ _
            ([] ++ [LZ77Token.mtch mtc.1 mtc.2])] at heq
          rcases hrec : LZ77.compressLoopF data data.length level n
              (insertHashRange data data.length st pos mtc.1) (pos + mtc.1) []
            with - | rest
          · rw [hrec] at heq
            exact absurd heq (by simp)
          · rw [hrec] at heq
            have ht : toks = LZ77Token.mtch mtc.1 mtc.2 :: rest := by
              have h2 := (Option.some.injEq _ _).mp heq
              rw [← h2]
              rfl
            have hvm : ValidMatch data pos data.length mtc :=
              pickMatch_spec st data level pos data.length (LZ77.wstart pos)
                (le_of_lt hp) (ws_bound pos) mtc hpick hm3
            obtain ⟨h3, h258, hle, hd1, hdp, hdw, hmatch⟩ := hvm
            rw [ht]
            exact TokensFit.mat pos _ _ _ h3 h258 hle hd1 hdp hdw hmatch
              (ih _ _ _ (by omega) (by omega) hrec)
        · rw [if_neg hm3] at heq
          rw [compressLoopF_append data data.length level n _ _
            ([] ++ [LZ77Token.literal (data.getD pos 0)])] at heq
          rcases hrec : LZ77.compressLoopF data data.length level n
              (if pos + 2 < data.length then insertHash st data pos else st)
              (pos + 1) []
            with - | rest
          · rw [hrec] at heq
            exact absurd heq (by simp)
          · rw [hrec] at heq
            have ht : toks = LZ77Token.literal (data.getD pos 0) :: rest := by
              have h2 := (Option.some.injEq _ _).mp heq
              rw [← h2]
              rfl
            rw [ht]
            exact TokensFit.lit pos _ hp (ih (pos + 1) _ _ (by omega) (by omega) hrec)
    · rw [if_neg hp] at heq
      have hp2 : pos = data.length := by omega
      have ht : toks = [] := ((Option.some.injEq _ _).mp heq).symm
      rw [ht, hp2]
      exact TokensFit.nil

theorem compress_fit (data : List Nat) (level : Int) (toks : List LZ77Token)
    (heq : LZ77.compress data level = some toks) :
    TokensFit data 0 toks := by
  rw [LZ77.compress] at heq
  by_cases hz : data.length = 0
  · rw [if_pos hz] at heq
    have ht : toks = [] := ((Option.some.injEq _ _).mp heq).symm
    rw [ht, show (0 : Nat) = data.length from hz.symm]
    exact TokensFit.nil
  · rw [if_neg hz] at heq
    exact compressLoop_fit data level 0 _ toks (by omega) heq

theorem getD_take (data : List Nat) (n i : Nat) (h : i < n) :
    (data.take n).getD i 0 = data.getD i 0 := by
  rw [List.getD_eq_getElem?_getD, List.getD_eq_getElem?_getD, List.getElem?_take,
    if_pos h]

theorem take_succ_getD (data : List Nat) (pos : Nat) (h : pos < data.length) :
    data.take (pos + 1) = data.take pos ++ [data.getD pos 0] := by
  rw [List.take_succ]
  congr 1
  rw [List.getElem?_eq_getElem h]
  simp [List.getD_eq_getElem?_getD, List.getElem?_eq_getElem h]

theorem replayCopy_take (data : List Nat) :
    ∀ len pos dist, 1 ≤ dist → dist ≤ pos → pos + len ≤ data.length →
      (∀ k, k < len → data.getD (pos - dist + k) 0 = data.getD (pos + k) 0) →
      replayCopy (data.take pos) dist len = data.take (pos + len) := by
  intro len
  induction len with
  | zero => intro pos dist _ _ _ _; simp [replayCopy]
  | succ l ih =>
    intro pos dist hd1 hdp hle hmatch
    rw [replayCopy]
    have hlen : (data.take pos).length = pos :=
      (List.length_take _ _).trans (Nat.min_eq_left (by omega))
    have hread : (data.take pos).getD ((data.take pos).length - dist) 0 =
        data.getD pos 0 := by
      rw [hlen, getD_take data pos (pos - dist) (by omega)]
      have := hmatch 0 (by omega)
      simpa using this
    rw [hread, ← take_succ_getD data pos (by omega)]
    have hstep := ih (pos + 1) dist hd1 (by omega) (by omega) ?_
    · rw [hstep]
      congr 1
      omega
    · intro k hk
      have := hmatch (k + 1) (by omega)
      have e1 : pos - dist + (k + 1) = pos + 1 - dist + k := by omega
      have e2 : pos + (k + 1) = pos + 1 + k := by omega
      rw [e1, e2] at this
      exact this

/-- Replaying a fitting token list from the matching prefix reconstructs
the whole buffer. -/
theorem replay_fit (data : List Nat) :
    ∀ pos toks, TokensFit data pos toks →
      replayTokens (data.take pos) toks = data := by
  intro pos toks h
  induction h with
  | nil => simp [replayTokens]
  | lit pos toks hp ht ih =>
    rw [replayTokens, replayToken, ← take_succ_getD data pos hp]
    exact ih
  | mat pos len dist toks h3 h258 hle hd1 hdp hdw hmatch ht ih =>
    rw [replayTokens, replayToken,
      replayCopy_take data len pos dist hd1 hdp hle hmatch]
    exact ih

/-! ## The length/distance code search of the encoder

`scanGo` finds the last table index whose base value is `≤ v`; the
follow-up `if (c < bound-1 && v >= table[c+1]) c++` bump in the source is
redundant and never fires.  These lemmas characterize the scan on the
strictly increasing RFC tables.
-/

theorem mono_of_adjacent (t : List Nat) (bound : Nat)
    (hadj : ∀ j, j + 1 < bound → t.getD j 0 < t.getD (j + 1) 0) :
    ∀ j k, j ≤ k → k < bound → t.getD j 0 ≤ t.getD k 0 := by
  intro j k
  induction k with
  | zero => intro hjk _; interval_cases j; exact Nat.le_refl _
  | succ n ih =>
    intro hjk hkb
    by_cases hj : j = n + 1
    · rw [hj]
    · have h1 : t.getD j 0 ≤ t.getD n 0 := ih (by omega) (by omega)
      have h2 := hadj n hkb
      omega

theorem scanGo_spec (t : List Nat) (v bound : Nat)
    (hmono : ∀ j k, j ≤ k → k < bound → t.getD j 0 ≤ t.getD k 0) :
    ∀ m i cur, bound - i ≤ m → i ≤ cur + 1 → cur < bound → t.getD cur 0 ≤ v →
      t.getD (scanGo t v bound i cur) 0 ≤ v ∧
      scanGo t v bound i cur < bound ∧
      (scanGo t v bound i cur + 1 < bound →
        v < t.getD (scanGo t v bound i cur + 1) 0) := by
  suffices key : ∀ m i cur, bound - i ≤ m → i ≤ cur + 1 → cur < bound →
      t.getD cur 0 ≤ v →
      t.getD (scanGoF t v bound m i cur) 0 ≤ v ∧
      scanGoF t v bound m i cur < bound ∧
      (scanGoF t v bound m i cur + 1 < bound →
        v < t.getD (scanGoF t v bound m i cur + 1) 0) by
    intro _ i cur _ hic hcb hcv
    simp only [scanGo]
    exact key (bound - i) i cur (Nat.le_refl _) hic hcb hcv
  intro m
  induction m with
  | zero =>
    intro i cur hm hic hcb hcv
    simp only [scanGoF]
    exact ⟨hcv, hcb, by omega⟩
  | succ n ih =>
    intro i cur hm hic hcb hcv
    rw [scanGoF]
    by_cases hib : i < bound
    · rw [if_pos hib]
      by_cases hvi : v < t.getD i 0
      · rw [if_pos hvi]
        refine ⟨hcv, hcb, ?_⟩
        intro hc1
        by_cases hieq : i = cur + 1
        · rw [← hieq]; exact hvi
        · have hile : i ≤ cur := by omega
          have := hmono i cur hile hcb
          omega
      · rw [if_neg hvi]
        exact ih (i + 1) i (by omega) (by omega) hib (by omega)
    · rw [if_neg hib]
      refine ⟨hcv, hcb, by omega⟩

theorem length_base_adj :
    ∀ j < 28, length_base.getD j 0 < length_base.getD (j + 1) 0 := by decide

theorem dist_base_adj :
    ∀ j < 29, dist_base.getD j 0 < dist_base.getD (j + 1) 0 := by decide

theorem length_gap : ∀ c < 28,
    length_base.getD (c + 1) 0 - length_base.getD c 0 ≤
      2 ^ length_extra.getD c 0 := by decide

theorem dist_gap : ∀ c < 29,
    dist_base.getD (c + 1) 0 - dist_base.getD c 0 ≤ 2 ^ dist_extra.getD c 0 := by
  decide

theorem length_extra0 : ∀ c < 28, length_extra.getD c 0 = 0 →
    length_base.getD (c + 1) 0 = length_base.getD c 0 + 1 := by decide

theorem dist_extra0 : ∀ c < 30, dist_extra.getD c 0 = 0 →
    c + 1 < 30 ∧ dist_base.getD (c + 1) 0 = dist_base.getD c 0 + 1 := by decide

theorem find_len_code_spec (len : Nat) (h1 : 3 ≤ len) (h2 : len ≤ 258) :
    find_len_code len < 29 ∧
    length_base.getD (find_len_code len) 0 ≤ len ∧
    len - length_base.getD (find_len_code len) 0 <
      2 ^ length_extra.getD (find_len_code len) 0 ∧
    (length_extra.getD (find_len_code len) 0 = 0 →
      length_base.getD (find_len_code len) 0 = len) := by
  have hmono := mono_of_adjacent length_base 29
    (fun j hj => length_base_adj j (by omega))
  have hs := scanGo_spec length_base len 29 hmono 29 0 0 (by omega) (by omega)
    (by omega) (by show length_base.getD 0 0 ≤ len; simp [length_base]; omega)
  obtain ⟨hle, hlt, hnext⟩ := hs
  have hnof : find_len_code len = scanGo length_base len 29 0 0 := by
    rw [find_len_code]
    by_cases hcond : scanGo length_base len 29 0 0 < 28 ∧
        length_base.getD (scanGo length_base len 29 0 0 + 1) 0 ≤ len
    · have := hnext (by omega)
      omega
    · rw [if_neg hcond]
  rw [hnof]
  refine ⟨hlt, hle, ?_, ?_⟩
  · by_cases htop : scanGo length_base len 29 0 0 + 1 < 29
    · have h3 := hnext htop
      have h4 := length_gap _ (by omega : scanGo length_base len 29 0 0 < 28)
      have h5 : 0 < 2 ^ length_extra.getD (scanGo length_base len 29 0 0) 0 :=
        Nat.pos_pow_of_pos _ (by omega)
      omega
    · have he : scanGo length_base len 29 0 0 = 28 := by omega
      rw [he] at hle ⊢
      have hb : length_base.getD 28 0 = 258 := by decide
      have hx : length_extra.getD 28 0 = 0 := by decide
      rw [hb] at hle
      rw [hb, hx]
      have hp : (2 : Nat) ^ 0 = 1 := by norm_num
      omega
  · intro hex0
    by_cases htop : scanGo length_base len 29 0 0 + 1 < 29
    · have h3 := hnext htop
      have h4 := length_extra0 _ (by omega : scanGo length_base len 29 0 0 < 28) hex0
      omega
    · have he : scanGo length_base len 29 0 0 = 28 := by omega
      rw [he] at hle ⊢
      have hb : length_base.getD 28 0 = 258 := by decide
      rw [hb] at hle
      rw [hb]
      omega

theorem find_dist_code_spec (dist : Nat) (h1 : 1 ≤ dist) (h2 : dist ≤ 32768) :
    find_dist_code dist < 30 ∧
    dist_base.getD (find_dist_code dist) 0 ≤ dist ∧
    dist - dist_base.getD (find_dist_code dist) 0 <
      2 ^ dist_extra.getD (find_dist_code dist) 0 ∧
    (dist_extra.getD (find_dist_code dist) 0 = 0 →
      dist_base.getD (find_dist_code dist) 0 = dist) := by
  have hmono := mono_of_adjacent dist_base 30
    (fun j hj => dist_base_adj j (by omega))
  have hs := scanGo_spec dist_base dist 30 hmono 30 0 0 (by omega) (by omega)
    (by omega) (by show dist_base.getD 0 0 ≤ dist; simp [dist_base]; omega)
  obtain ⟨hle, hlt, hnext⟩ := hs
  have hnof : find_dist_code dist = scanGo dist_base dist 30 0 0 := by
    rw [find_dist_code]
    by_cases hcond : scanGo dist_base dist 30 0 0 < 29 ∧
        dist_base.getD (scanGo dist_base dist 30 0 0 + 1) 0 ≤ dist
    · have := hnext (by omega)
      omega
    · rw [if_neg hcond]
  rw [hnof]
  refine ⟨hlt, hle, ?_, ?_⟩
  · by_cases htop : scanGo dist_base dist 30 0 0 + 1 < 30
    · have h3 := hnext htop
      have h4 := dist_gap _ (by omega : scanGo dist_base dist 30 0 0 < 29)
      have h5 : 0 < 2 ^ dist_extra.getD (scanGo dist_base dist 30 0 0) 0 :=
        Nat.pos_pow_of_pos _ (by omega)
      omega
    · have he : scanGo dist_base dist 30 0 0 = 29 := by omega
      rw [he] at hle ⊢
      have hb : dist_base.getD 29 0 = 24577 := by decide
      have hx : dist_extra.getD 29 0 = 13 := by decide
      rw [hb] at hle
      rw [hb, hx]
      have hp : (2 : Nat) ^ 13 = 8192 := by norm_num
      omega
  · intro hex0
    have h4 := dist_extra0 _ hlt hex0
    have h3 := hnext h4.1
    omega

/-! ## Decoding along a trie path

`pathOk t node bits sym` says: starting at arena index `node`, walking
`bits` (`false` = left, `true` = right) visits only internal nodes
(`symbol = -1`) with nonzero child indices and ends at a node carrying
`sym ≠ -1`.  On such a path `decode_symbol` consumes exactly those bits
and returns `sym`. -/

def codeBits (c : HuffmanCode) : List Bool := (natBits c.code c.length).reverse

def pathOk (t : HuffmanTree) : Nat → List Bool → Int → Bool
  | node, [], sym =>
    decide ((t.nodes.getD node HuffmanNode.zero).symbol = sym ∧ sym ≠ -1)
  | node, b :: bs, sym =>
    let nd := t.nodes.getD node HuffmanNode.zero
    decide (nd.symbol = -1) &&
      (let ch := if b then nd.right else nd.left
       decide (ch ≠ 0) && pathOk t ch bs sym)

theorem decodeLoop_path (t : HuffmanTree) (sym : Int) (rest : List Bool) :
    ∀ bits fuel node s, s.WF → pathOk t node bits sym = true →
      bits.length < fuel → s.sbits = bits ++ rest →
      ∃ s', t.decodeLoop node s fuel = .val sym s' ∧ s'.WF ∧
        s'.sbits = rest ∧ s'.data = s.data := by
  intro bits
  induction bits with
  | nil =>
    intro fuel node s hwf hpath hfuel hsb
    simp only [pathOk, decide_eq_true_eq] at hpath
    obtain ⟨f, rfl⟩ : ∃ f, fuel = f + 1 := ⟨fuel - 1, by omega⟩
    rw [HuffmanTree.decodeLoop]
    rw [if_neg (by rw [hpath.1]; exact hpath.2)]
    rw [hpath.1]
    exact ⟨s, rfl, hwf, by simpa using hsb, rfl⟩
  | cons b bs ih =>
    intro fuel node s hwf hpath hfuel hsb
    obtain ⟨f, rfl⟩ : ∃ f, fuel = f + 1 := ⟨fuel - 1, by omega⟩
    have hlen : 1 ≤ s.sbits.length := by rw [hsb]; simp
    obtain ⟨hval, hwf2, hsb2, hdata2⟩ := read_bits_spec s 1 hwf (by omega) hlen
    rw [hsb] at hval hsb2
    simp only [List.take_cons, List.take_zero, List.drop_succ_cons,
      List.drop_zero, List.cons_append] at hval hsb2
    cases b with
    | false =>
      simp only [pathOk, Bool.and_eq_true, decide_eq_true_eq, Bool.false_eq_true,
        if_false] at hpath
      obtain ⟨hint, hch, hrec⟩ := hpath
      rw [HuffmanTree.decodeLoop]
      rw [if_pos hint]
      have hv0 : (s.read_bits 1).1 = 0 := by
        rw [hval]; rfl
      rw [if_pos hv0]
      rw [if_neg hch]
      obtain ⟨s', hc, hwf', hsb', hdata'⟩ :=
        ih f (t.nodes.getD node HuffmanNode.zero).left (s.read_bits 1).2
          hwf2 hrec (by simpa using hfuel) hsb2
      exact ⟨s', hc, hwf', hsb', by rw [hdata', hdata2]⟩
    | true =>
      simp only [pathOk, Bool.and_eq_true, decide_eq_true_eq, if_true] at hpath
      obtain ⟨hint, hch, hrec⟩ := hpath
      rw [HuffmanTree.decodeLoop]
      rw [if_pos hint]
      have hv1 : (s.read_bits 1).1 = 1 := by
        rw [hval]; rfl
      rw [if_neg (by rw [hv1]; exact one_ne_zero)]
      rw [if_neg hch]
      obtain ⟨s', hc, hwf', hsb', hdata'⟩ :=
        ih f (t.nodes.getD node HuffmanNode.zero).right (s.read_bits 1).2
          hwf2 hrec (by simpa using hfuel) hsb2
      exact ⟨s', hc, hwf', hsb', by rw [hdata', hdata2]⟩

theorem decode_symbol_path (t : HuffmanTree) (sym : Int) (bits rest : List Bool)
    (s : BitStream) (hv : t.valid = true) (hroot : t.root = 0)
    (hwf : s.WF) (hpath : pathOk t 0 bits sym = true)
    (hfuel : bits.length ≤ t.cap) (hsb : s.sbits = bits ++ rest) :
    ∃ s', t.decode_symbol s = .val sym s' ∧ s'.WF ∧
      s'.sbits = rest ∧ s'.data = s.data := by
  rw [HuffmanTree.decode_symbol, hv]
  simp only [Bool.true_eq_false, if_false]
  rw [hroot]
  exact decodeLoop_path t sym rest bits (t.cap + 1) 0 s hwf hpath (by omega) hsb

/-! ## The fixed trees decode every fixed code

The encoder's fixed tables (`get_fixed_codes`) and the decoder's fixed
trees (`build_fixed_trees`) agree: for each symbol, walking the decoder
trie along the encoder's code bits (MSB first, as they are inserted after
`write_bits_reverse`/`revLoop` double reversal) ends at that symbol. -/

set_option maxRecDepth 10000 in
theorem fixed_lit_paths :
    ∀ sym < 288, pathOk fixed_lit_tree 0 (codeBits (lit_code sym)) sym = true := by
  decide

set_option maxRecDepth 10000 in
theorem fixed_dist_paths :
    ∀ sym < 32, pathOk fixed_dist_tree 0 (codeBits (dist_code_fixed sym)) sym = true := by
  decide

set_option maxRecDepth 10000 in
theorem fixed_lit_tree_shape :
    fixed_lit_tree.valid = true ∧ fixed_lit_tree.root = 0 ∧
      fixed_lit_tree.cap = 576 := by
  refine ⟨by decide, by decide, by decide⟩

set_option maxRecDepth 10000 in
theorem fixed_dist_tree_shape :
    fixed_dist_tree.valid = true ∧ fixed_dist_tree.root = 0 ∧
      fixed_dist_tree.cap = 64 := by
  refine ⟨by decide, by decide, by decide⟩

/-! ## Stored blocks: LEN, NLEN and the byte-copy loop -/

theorem xor_two_mul_add (a b x y : Nat) (hx : x < 2) (hy : y < 2) :
    (2 * a + x) ^^^ (2 * b + y) = 2 * (a ^^^ b) + (x ^^^ y) := by
  have hxy : x ^^^ y < 2 := by interval_cases x <;> interval_cases y <;> decide
  apply Nat.eq_of_testBit_eq
  intro i
  cases i with
  | zero =>
    rw [Nat.testBit_xor]
    simp only [Nat.testBit_zero]
    have h1 : (2 * a + x) % 2 = x := by omega
    have h2 : (2 * b + y) % 2 = y := by omega
    have h3 : (2 * (a ^^^ b) + (x ^^^ y)) % 2 = x ^^^ y := by omega
    rw [h1, h2, h3]
    interval_cases x <;> interval_cases y <;> decide
  | succ j =>
    rw [Nat.testBit_xor]
    simp only [Nat.testBit_succ]
    have h1 : (2 * a + x) / 2 = a := by omega
    have h2 : (2 * b + y) / 2 = b := by omega
    have h3 : (2 * (a ^^^ b) + (x ^^^ y)) / 2 = a ^^^ b := by omega
    rw [h1, h2, h3, Nat.testBit_xor]

/-- Two summands adding to an all-ones value are bitwise complementary:
their XOR is that all-ones value. -/
theorem xor_of_add_all_ones (n : Nat) :
    ∀ a b, a + b = 2 ^ n - 1 → a ^^^ b = 2 ^ n - 1 := by
  induction n with
  | zero =>
    intro a b h
    have ha : a = 0 := by omega
    have hb : b = 0 := by omega
    simp [ha, hb]
  | succ m ih =>
    intro a b h
    have hpow : (2 : Nat) ^ (m + 1) = 2 * 2 ^ m := by rw [Nat.pow_succ]; ring
    have hpos : 0 < 2 ^ m := Nat.pos_pow_of_pos _ (by omega)
    have hmod : a % 2 + b % 2 = 1 := by omega
    have hdiv : a / 2 + b / 2 = 2 ^ m - 1 := by omega
    have hsplit : a = 2 * (a / 2) + a % 2 := by omega
    have hsplit2 : b = 2 * (b / 2) + b % 2 := by omega
    calc a ^^^ b = (2 * (a / 2) + a % 2) ^^^ (2 * (b / 2) + b % 2) := by
          rw [← hsplit, ← hsplit2]
      _ = 2 * (a / 2 ^^^ b / 2) + (a % 2 ^^^ b % 2) :=
          xor_two_mul_add _ _ _ _ (by omega) (by omega)
      _ = 2 ^ (m + 1) - 1 := by
          rw [ih (a / 2) (b / 2) hdiv]
          have hx : a % 2 ^^^ b % 2 = 1 := by
            rcases (by omega : a % 2 = 0 ∧ b % 2 = 1 ∨ a % 2 = 1 ∧ b % 2 = 0) with
              ⟨h1, h2⟩ | ⟨h1, h2⟩ <;> rw [h1, h2] <;> decide
          rw [hx]
          omega

theorem len_xor_nlen (len : Nat) (h : len ≤ 65535) :
    len ^^^ (65535 - len) = 65535 := by
  have h16 : (65535 : Nat) = 2 ^ 16 - 1 := by norm_num
  rw [h16]
  exact xor_of_add_all_ones 16 len (2 ^ 16 - 1 - len) (by omega)

theorem read_byte_spec (s : BitStream) (b : Nat) (tail : List Bool) (h : s.WF)
    (hb : b < 256) (hsb : s.sbits = natBits b 8 ++ tail) :
    (s.read_bits 8).1 = b ∧ (s.read_bits 8).2.WF ∧
    (s.read_bits 8).2.sbits = tail ∧ (s.read_bits 8).2.data = s.data := by
  have hlen : 8 ≤ s.sbits.length := by
    rw [hsb]
    simp [natBits_length]
  obtain ⟨hv, hwf, hsb2, hdata⟩ := read_bits_spec s 8 h (by omega) hlen
  refine ⟨?_, hwf, ?_, hdata⟩
  · rw [hv, hsb, take_append_exact _ _ 8 (natBits_length _ _), bitsToNat_natBits]
    exact Nat.mod_eq_of_lt (by norm_num; omega)
  · rw [hsb2, hsb, drop_append_exact _ _ 8 (natBits_length _ _)]

theorem readBytesLoop_spec :
    ∀ (bytes : List Nat) (s : BitStream) (out : List Nat) (rest : List Bool),
      s.WF → s.sbits = bytesBits bytes ++ rest → (∀ b ∈ bytes, b < 256) →
      (readBytesLoop s out bytes.length).2 = out ++ bytes ∧
      (readBytesLoop s out bytes.length).1.WF ∧
      (readBytesLoop s out bytes.length).1.sbits = rest ∧
      (readBytesLoop s out bytes.length).1.data = s.data := by
  intro bytes
  induction bytes with
  | nil =>
    intro s out rest hwf hsb hb
    refine ⟨by simp [readBytesLoop], hwf, ?_, rfl⟩
    simpa [bytesBits] using hsb
  | cons b bs ih =>
    intro s out rest hwf hsb hb
    have hsb' : s.sbits = natBits b 8 ++ (bytesBits bs ++ rest) := by
      rw [hsb, bytesBits]
      simp
    obtain ⟨hv, hwf1, hsb1, hdata1⟩ := read_byte_spec s b (bytesBits bs ++ rest) hwf
      (hb b (by simp)) hsb'
    have hstep : readBytesLoop s out (b :: bs).length =
        readBytesLoop (s.read_bits 8).2 (out ++ [b]) bs.length := by
      rw [List.length_cons, readBytesLoop, hv]
    rw [hstep]
    obtain ⟨hout, hwf2, hsb2, hdata2⟩ := ih (s.read_bits 8).2 (out ++ [b]) rest hwf1 hsb1
      (fun x hx => hb x (by simp [hx]))
    refine ⟨by rw [hout]; simp, hwf2, hsb2, by rw [hdata2, hdata1]⟩

/-- Success path of `process_uncompressed`: a correctly framed stored
chunk (LEN, one's-complement NLEN, LEN payload bytes) after a partial
header byte of 5 leftover bits. -/
theorem process_uncompressed_spec (s : BitStream) (pad : List Bool) (len : Nat)
    (chunk : List Nat) (rest : List Bool) (out : List Nat) (h : s.WF)
    (hpad : pad.length = 5) (hlen : len ≤ 65535) (hclen : chunk.length = len)
    (hcb : ∀ b ∈ chunk, b < 256) (hrest : rest.length % 8 = 0)
    (hsb : s.sbits = pad ++
      bytesBits [len % 256, len / 256 % 256, (65535 - len) % 256,
        (65535 - len) / 256 % 256] ++ bytesBits chunk ++ rest) :
    (Inflate.process_uncompressed s out).1 = true ∧
    (Inflate.process_uncompressed s out).2.2 = out ++ chunk ∧
    (Inflate.process_uncompressed s out).2.1.WF ∧
    (Inflate.process_uncompressed s out).2.1.sbits = rest ∧
    (Inflate.process_uncompressed s out).2.1.data = s.data := by
  have hmod : s.sbits.length % 8 = 5 := by
    rw [hsb]
    simp only [List.length_append, hpad, bytesBits_length]
    omega
  obtain ⟨hwf0, hsb0, hdata0⟩ := align_to_byte_spec s h
  rw [hmod, hsb, List.append_assoc, List.append_assoc,
    drop_append_exact pad _ 5 hpad, ← List.append_assoc] at hsb0
  set bytes4 : List Nat := [len % 256, len / 256 % 256, (65535 - len) % 256,
    (65535 - len) / 256 % 256] with hbytes4
  have hsplit : bytesBits bytes4 ++ bytesBits chunk ++ rest =
      natBits (len % 256) 8 ++ (natBits (len / 256 % 256) 8 ++
        (natBits ((65535 - len) % 256) 8 ++ (natBits ((65535 - len) / 256 % 256) 8 ++
          (bytesBits chunk ++ rest)))) := by
    rw [hbytes4]
    show bytesBits (len % 256 :: len / 256 % 256 :: (65535 - len) % 256 ::
      (65535 - len) / 256 % 256 :: []) ++ _ ++ _ = _
    simp only [bytesBits]
    simp
  rw [hsplit] at hsb0
  obtain ⟨hv1, hwf1, hsb1, hdata1⟩ := read_byte_spec s.align_to_byte (len % 256) _
    hwf0 (by omega) hsb0
  obtain ⟨hv2, hwf2, hsb2, hdata2⟩ := read_byte_spec _ (len / 256 % 256) _
    hwf1 (by omega) hsb1
  obtain ⟨hv3, hwf3, hsb3, hdata3⟩ := read_byte_spec _ ((65535 - len) % 256) _
    hwf2 (by omega) hsb2
  obtain ⟨hv4, hwf4, hsb4, hdata4⟩ := read_byte_spec _ ((65535 - len) / 256 % 256) _
    hwf3 (by omega) hsb3
  have hlen' : (s.align_to_byte.read_bits 8).1 |||
      ((((s.align_to_byte.read_bits 8).2.read_bits 8).1) <<< 8) = len := by
    rw [hv1, hv2]
    rw [lor_shift_add _ _ 8 (by omega)]
    have e1 : len / 256 % 256 = len / 256 := by omega
    rw [e1]
    omega
  have hnlen' :
      ((((s.align_to_byte.read_bits 8).2.read_bits 8).2.read_bits 8).1) |||
      ((((((s.align_to_byte.read_bits 8).2.read_bits 8).2.read_bits 8).2.read_bits
        8).1) <<< 8) = 65535 - len := by
    rw [hv3, hv4]
    rw [lor_shift_add _ _ 8 (by omega)]
    have e1 : (65535 - len) / 256 % 256 = (65535 - len) / 256 := by omega
    rw [e1]
    omega
  rw [Inflate.process_uncompressed]
  simp only [hlen', hnlen']
  rw [if_neg (by rw [len_xor_nlen len hlen]; omega)]
  rw [← hclen]
  obtain ⟨hout, hwfr, hsbr, hdatar⟩ := readBytesLoop_spec chunk _ out rest hwf4 hsb4 hcb
  refine ⟨rfl, hout, hwfr, hsbr, ?_⟩
  rw [hdatar, hdata4, hdata3, hdata2, hdata1, hdata0]

theorem storedLoopF_append (input : List Nat) :
    ∀ f pos out, storedLoopF input f pos out = out ++ storedLoopF input f pos [] := by
  intro f
  induction f with
  | zero =>
    intro pos out
    simp [storedLoopF]
  | succ n ih =>
    intro pos out
    rw [storedLoopF]
    conv_rhs => rw [storedLoopF]
    by_cases hp : pos < input.length
    · rw [if_pos hp, if_pos hp]
      conv_lhs => rw [ih]
      conv_rhs => rw [ih]
      simp
    · rw [if_neg hp, if_neg hp]
      simp

theorem storedLoopF_length (input : List Nat) :
    ∀ f pos, input.length - pos ≤ f →
      (storedLoopF input f pos []).length =
        (input.length - pos) + 5 * ((input.length - pos + 65534) / 65535) := by
  intro f
  induction f with
  | zero =>
    intro pos hf
    simp only [storedLoopF, List.length_nil]
    omega
  | succ n ih =>
    intro pos hf
    rw [storedLoopF]
    by_cases hp : pos < input.length
    · rw [if_pos hp]
      conv_lhs => rw [storedLoopF_append]
      rw [List.length_append]
      have hbs : (pos + min 65535 (input.length - pos)) ≤ input.length := by omega
      rw [ih (pos + min 65535 (input.length - pos)) (by omega)]
      have hchunk : ((input.drop pos).take (min 65535 (input.length - pos))).length =
          min 65535 (input.length - pos) := by
        rw [List.length_take, List.length_drop]
        omega
      simp only [List.nil_append, List.length_append, List.length_cons,
        List.length_nil, hchunk]
      omega
    · rw [if_neg hp]
      simp only [List.length_nil]
      omega

theorem storedLoop_length (input : List Nat) :
    (storedLoop input 0 []).length =
      input.length + 5 * ((input.length + 65534) / 65535) := by
  have h := storedLoopF_length input (input.length - 0) 0 (Nat.le_refl _)
  simpa using h

theorem storedLoopF_bytes (input : List Nat) (hin : ∀ b ∈ input, b < 256) :
    ∀ f pos out, (∀ b ∈ out, b < 256) →
      ∀ b ∈ storedLoopF input f pos out, b < 256 := by
  intro f
  induction f with
  | zero =>
    intro pos out hout
    exact hout
  | succ n ih =>
    intro pos out hout
    rw [storedLoopF]
    by_cases hp : pos < input.length
    · rw [if_pos hp]
      apply ih
      intro b hb
      simp only [List.append_assoc, List.mem_append, List.mem_cons,
        List.not_mem_nil, or_false] at hb
      rcases hb with hb | hb | hb
      · exact hout b hb
      · rcases hb with h | h | h | h | h <;> subst h
        · split <;> omega
        · omega
        · omega
        · omega
        · omega
      · exact hin b (List.mem_of_mem_drop (List.mem_of_mem_take hb))
    · rw [if_neg hp]
      exact hout

theorem blockLoop_succ (dataFuel : Nat) (s : BitStream) (out : List Nat)
    (fuel : Nat) :
    Inflate.blockLoop dataFuel s out (fuel + 1) =
      Inflate.blockStep dataFuel
        (fun s3 out3 => Inflate.blockLoop dataFuel s3 out3 fuel) s out := rfl

theorem take_one_cons {A : Type} (a : A) (l : List A) : (a :: l).take 1 = [a] := rfl

theorem drop_one_cons {A : Type} (a : A) (l : List A) : (a :: l).drop 1 = l := rfl

theorem blockLoop_stored (input : List Nat) (hin : ∀ b ∈ input, b < 256)
    (dataFuel : Nat) :
    ∀ fuel ef pos s, pos < input.length → input.length - pos ≤ fuel →
      input.length - pos ≤ ef → s.WF →
      s.sbits = bytesBits (storedLoopF input ef pos []) →
      Inflate.blockLoop dataFuel s (input.take pos) fuel = .ok input := by
  intro fuel
  induction fuel with
  | zero =>
    intro ef pos s hp hf hef hwf hsb
    omega
  | succ fu ih =>
    intro ef pos s hp hf hef hwf hsb
    obtain ⟨e, rfl⟩ : ∃ e, ef = e + 1 := ⟨ef - 1, by omega⟩
    rw [storedLoopF, if_pos hp, storedLoopF_append] at hsb
    set bs := min 65535 (input.length - pos) with hbs
    set hdr : Nat := if input.length ≤ pos + bs then (1 : Nat) else 0 with hhdr
    set chunk := (input.drop pos).take bs with hchunk
    set tailB := bytesBits (storedLoopF input e (pos + bs) []) with htailB
    have hsb2 : s.sbits = natBits hdr 8 ++
        (bytesBits [bs % 256, bs / 256 % 256, (65535 - bs) % 256,
          (65535 - bs) / 256 % 256] ++ bytesBits chunk ++ tailB) := by
      rw [hsb]
      rw [show ([] ++ [hdr, bs % 256, bs / 256 % 256, (65535 - bs) % 256,
        (65535 - bs) / 256 % 256] ++ chunk) ++ storedLoopF input e (pos + bs) [] =
        hdr :: ([bs % 256, bs / 256 % 256, (65535 - bs) % 256,
          (65535 - bs) / 256 % 256] ++ (chunk ++ storedLoopF input e (pos + bs) []))
        from by simp]
      rw [bytesBits]
      rw [bytesBits_append, bytesBits_append]
      simp
    have hchlen : chunk.length = bs := by
      rw [hchunk, List.length_take, List.length_drop]
      omega
    have hcb : ∀ b ∈ chunk, b < 256 := by
      intro b hb
      exact hin b (List.mem_of_mem_drop (List.mem_of_mem_take hb))
    have htlen : tailB.length % 8 = 0 := by
      rw [htailB, bytesBits_length]
      omega
    have hdrlt : hdr < 2 := by rw [hhdr]; split <;> omega
    have hnb : natBits hdr 8 = decide (hdr = 1) :: List.replicate 7 false := by
      interval_cases hdr <;> decide
    rw [hnb, List.cons_append] at hsb2
    have hlen1 : 1 ≤ s.sbits.length := by rw [hsb2]; simp
    obtain ⟨hv1, hwf1, hsb1, hdata1⟩ := read_bits_spec s 1 hwf (by omega) hlen1
    rw [hsb2] at hv1 hsb1
    rw [take_one_cons] at hv1
    rw [drop_one_cons] at hsb1
    have hv1' : (s.read_bits 1).1 = hdr := by
      rw [hv1]
      show (if decide (hdr = 1) then 1 else 0) + 2 * bitsToNat [] = hdr
      interval_cases hdr <;> decide
    have hlen2 : 2 ≤ (s.read_bits 1).2.sbits.length := by rw [hsb1]; simp
    obtain ⟨hv2, hwf2, hsb2b, hdata2⟩ := read_bits_spec (s.read_bits 1).2 2 hwf1
      (by omega) hlen2
    rw [hsb1] at hv2 hsb2b
    have hrep7 : (List.replicate 7 false : List Bool) =
        [false, false] ++ List.replicate 5 false := by decide
    rw [hrep7, List.append_assoc] at hv2 hsb2b
    rw [take_append_exact [false, false] _ 2 rfl] at hv2
    rw [drop_append_exact [false, false] _ 2 rfl] at hsb2b
    have hv2' : ((s.read_bits 1).2.read_bits 2).1 = 0 := by
      rw [hv2]; decide
    -- the stored chunk is decoded by process_uncompressed
    obtain ⟨hpu1, hpu2, hpuwf, hpusb, hpudata⟩ := process_uncompressed_spec
      ((s.read_bits 1).2.read_bits 2).2 (List.replicate 5 false) bs chunk tailB
      (input.take pos) hwf2 (by simp) (by omega) hchlen hcb htlen
      (by rw [hsb2b]; simp)
    have hout3 : (Inflate.process_uncompressed ((s.read_bits 1).2.read_bits 2).2
        (input.take pos)).2.2 = input.take (pos + bs) := by
      rw [hpu2, hchunk, List.take_add]
    rcases hPP : Inflate.process_uncompressed ((s.read_bits 1).2.read_bits 2).2
      (input.take pos) with ⟨b1, s3, out3⟩
    rw [hPP] at hpu1 hout3 hpuwf hpusb hpudata
    dsimp only at hpu1 hout3 hpuwf hpusb hpudata
    subst hpu1
    subst hout3
    rw [blockLoop_succ, Inflate.blockStep]
    rw [hv2']
    rw [if_pos rfl]
    rw [hPP]
    show (if (s.read_bits 1).1 ≠ 0 then DOut.ok (input.take (pos + bs))
      else Inflate.blockLoop dataFuel s3 (input.take (pos + bs)) fu) = .ok input
    rw [hv1']
    by_cases hfin : input.length ≤ pos + bs
    · have h1 : hdr = 1 := by rw [hhdr, if_pos hfin]
      rw [h1, if_pos (by omega)]
      rw [List.take_of_length_le hfin]
    · have h0 : hdr = 0 := by rw [hhdr, if_neg hfin]
      rw [h0]
      rw [if_neg (by omega)]
      exact ih e (pos + bs) _ (by omega) (by omega) (by omega) hpuwf
        (by rw [hpusb, htailB])


theorem decompress_stored (input : List Nat) (hin : ∀ b ∈ input, b < 256)
    (hne : input ≠ []) :
    Inflate.decompress (storedLoop input 0 []) = .ok input := by
  rw [Inflate.decompress]
  have hbytes : ∀ b ∈ storedLoop input 0 [], b < 256 := by
    rw [storedLoop]
    exact storedLoopF_bytes input hin _ 0 [] (by simp)
  have hlenpos : 0 < input.length := by
    cases input with
    | nil => exact absurd rfl hne
    | cons a l => simp
  have hcl := storedLoop_length input
  have h := blockLoop_stored input hin (8 * (storedLoop input 0 []).length + 64)
    (8 * (storedLoop input 0 []).length + 64) input.length 0 (BitStream.init _)
    hlenpos (by omega) (by omega) (init_WF _ hbytes)
    (by rw [init_sbits, storedLoop]; simp)
  simpa using h

/-! ## Bit-reversed writes -/

theorem bitsToNat_append (l m : List Bool) :
    bitsToNat (l ++ m) = bitsToNat l + 2 ^ l.length * bitsToNat m := by
  induction l with
  | nil => simp [bitsToNat]
  | cons b t ih =>
    show (if b then 1 else 0) + 2 * bitsToNat (t ++ m) =
      bitsToNat (b :: t) + 2 ^ (b :: t).length * bitsToNat m
    rw [ih]
    show _ = ((if b then 1 else 0) + 2 * bitsToNat t) +
      2 ^ (t.length + 1) * bitsToNat m
    rw [Nat.pow_succ]
    ring

theorem revLoop_spec : ∀ (n bits r : Nat),
    revLoop bits r n = r * 2 ^ n + bitsToNat ((natBits bits n).reverse) := by
  intro n
  induction n with
  | zero => intro bits r; simp [revLoop, natBits, bitsToNat]
  | succ m ih =>
    intro bits r
    rw [revLoop, ih]
    have hand : bits &&& 1 = bits % 2 := by
      have h1 : (1 : Nat) = 2 ^ 1 - 1 := by norm_num
      rw [h1, Nat.and_pow_two_sub_one_eq_mod]
    have hshl : r <<< 1 = 2 * r := by
      rw [Nat.shiftLeft_eq]
      ring
    have hshr : bits >>> 1 = bits / 2 := by
      rw [Nat.shiftRight_eq_div_pow]
    have hlor : (r <<< 1) ||| (bits &&& 1) = 2 * r + bits % 2 := by
      rw [hand, hshl]
      have hla := lor_shift_add (bits % 2) r 1 (by omega)
      rw [hshl] at hla
      rw [Nat.lor_comm, hla]
      norm_num
    rw [hlor, hshr]
    show (2 * r + bits % 2) * 2 ^ m + bitsToNat ((natBits (bits / 2) m).reverse) =
      r * 2 ^ (m + 1) + bitsToNat ((natBits bits (m + 1)).reverse)
    rw [natBits, List.reverse_cons, bitsToNat_append]
    have hb : bitsToNat [decide (bits % 2 = 1)] = bits % 2 := by
      show (if decide (bits % 2 = 1) then 1 else 0) + 2 * bitsToNat [] = bits % 2
      rcases Nat.mod_two_eq_zero_or_one bits with h | h <;> rw [h] <;> decide
    rw [hb, List.length_reverse, natBits_length, Nat.pow_succ]
    ring

theorem write_bits_reverse_spec (w : BitWriter) (v count : Nat) (h : w.WF)
    (hv : v < 2 ^ count) (hc : count ≤ 24) :
    (w.write_bits_reverse v count).WF ∧
    (w.write_bits_reverse v count).wbits =
      w.wbits ++ (natBits v count).reverse := by
  rw [BitWriter.write_bits_reverse]
  have hlt : bitsToNat ((natBits v count).reverse) < 2 ^ count := by
    have := bitsToNat_lt ((natBits v count).reverse)
    rwa [List.length_reverse, natBits_length] at this
  have hrev : revLoop v 0 count = bitsToNat ((natBits v count).reverse) := by
    rw [revLoop_spec]
    simp
  obtain ⟨hwf, hwb⟩ := write_bits_spec w (revLoop v 0 count) count h
    (by rw [hrev]; exact hlt) hc
  refine ⟨hwf, ?_⟩
  rw [hwb, hrev]
  congr 1
  set rev := (natBits v count).reverse with hrd
  have hl : rev.length = count := by rw [hrd, List.length_reverse, natBits_length]
  rw [← hl, natBits_bitsToNat]


/-! ## The bit image of the fixed-Huffman encoder -/

set_option maxRecDepth 10000 in
theorem lit_code_bounds : ∀ i < 288,
    (lit_code i).code < 2 ^ (lit_code i).length ∧ (lit_code i).length ≤ 24 ∧
    7 ≤ (lit_code i).length := by decide

theorem dist_code_bounds : ∀ i < 30,
    (dist_code_fixed i).code < 2 ^ (dist_code_fixed i).length ∧
    (dist_code_fixed i).length ≤ 24 := by decide

theorem length_extra_le : ∀ c < 29, length_extra.getD c 0 ≤ 24 := by decide

theorem dist_extra_le : ∀ c < 30, dist_extra.getD c 0 ≤ 24 := by decide

/-- The bits `writeToken` emits for one token (specification-side list). -/
def tokenBits : LZ77Token → List Bool
  | .literal b => codeBits (lit_code b)
  | .mtch len dist =>
    codeBits (lit_code (257 + find_len_code len)) ++
    natBits (len - length_base.getD (find_len_code len) 0)
      (length_extra.getD (find_len_code len) 0) ++
    codeBits (dist_code_fixed (find_dist_code dist)) ++
    natBits (dist - dist_base.getD (find_dist_code dist) 0)
      (dist_extra.getD (find_dist_code dist) 0)

def tokensBits : List LZ77Token → List Bool
  | [] => []
  | t :: ts => tokenBits t ++ tokensBits ts

/-- The per-token well-formedness that `LZ77.compress` guarantees. -/
def TokOk : LZ77Token → Prop
  | .literal b => b < 256
  | .mtch len dist => 3 ≤ len ∧ len ≤ 258 ∧ 1 ≤ dist ∧ dist ≤ 32768

theorem getD_lt_bound (l : List Nat) (hl : ∀ b ∈ l, b < 256) :
    ∀ (i d : Nat), d < 256 → l.getD i d < 256 := by
  induction l with
  | nil =>
    intro i d hd
    simpa [List.getD] using hd
  | cons a t ih =>
    intro i d hd
    cases i with
    | zero => simpa [List.getD] using hl a (by simp)
    | succ j =>
      show t.getD j d < 256
      exact ih (fun b hb => hl b (by simp [hb])) j d hd

theorem fit_tokOk (data : List Nat) (hbytes : ∀ b ∈ data, b < 256) :
    ∀ pos toks, TokensFit data pos toks → ∀ t ∈ toks, TokOk t := by
  intro pos toks h
  induction h with
  | nil => intro t ht; exact absurd ht (List.not_mem_nil t)
  | lit pos toks hp ht ih =>
    intro t htm
    rcases List.mem_cons.mp htm with rfl | hm
    · show data.getD pos 0 < 256
      exact getD_lt_bound data hbytes pos 0 (by norm_num)
    · exact ih t hm
  | mat pos len dist toks h3 h258 hle hd1 hdp hdw hmatch ht ih =>
    intro t htm
    rcases List.mem_cons.mp htm with rfl | hm
    · exact ⟨h3, h258, hd1, hdw⟩
    · exact ih t hm

theorem writeToken_spec (w : BitWriter) (t : LZ77Token) (h : w.WF) (ht : TokOk t) :
    (writeToken w t).WF ∧ (writeToken w t).wbits = w.wbits ++ tokenBits t := by
  cases t with
  | literal b =>
    have hb : b < 288 := lt_of_lt_of_le ht (by norm_num)
    obtain ⟨hc, h24, h7⟩ := lit_code_bounds b hb
    obtain ⟨hwf, hwb⟩ := write_bits_reverse_spec w (lit_code b).code
      (lit_code b).length h hc h24
    exact ⟨hwf, hwb⟩
  | mtch len dist =>
    obtain ⟨h3, h258, hd1, hdw⟩ := ht
    obtain ⟨hlc29, hlb, hlx, hlx0⟩ := find_len_code_spec len h3 h258
    obtain ⟨hdc30, hdb, hdx, hdx0⟩ := find_dist_code_spec dist hd1 hdw
    obtain ⟨hc1, h241, _⟩ := lit_code_bounds (257 + find_len_code len) (by omega)
    obtain ⟨hc2, h242⟩ := dist_code_bounds (find_dist_code dist) hdc30
    obtain ⟨hwf1, hwb1⟩ := write_bits_reverse_spec w
      (lit_code (257 + find_len_code len)).code
      (lit_code (257 + find_len_code len)).length h hc1 h241
    set lc := find_len_code len with hlcdef
    set w1 := w.write_bits_reverse (lit_code (257 + lc)).code
      (lit_code (257 + lc)).length with hw1
    set w2 := if 0 < length_extra.getD lc 0 then
      w1.write_bits (len - length_base.getD lc 0) (length_extra.getD lc 0)
      else w1 with hw2
    have hwf2 : w2.WF ∧ w2.wbits = w1.wbits ++
        natBits (len - length_base.getD lc 0) (length_extra.getD lc 0) := by
      rw [hw2]
      by_cases hE : 0 < length_extra.getD lc 0
      · rw [if_pos hE]
        exact write_bits_spec w1 _ _ hwf1 hlx (length_extra_le lc hlc29)
      · rw [if_neg hE]
        have h0 : length_extra.getD lc 0 = 0 := by omega
        rw [h0]
        exact ⟨hwf1, by simp [natBits]⟩
    set dc := find_dist_code dist with hdcdef
    obtain ⟨hwf3, hwb3⟩ := write_bits_reverse_spec w2
      (dist_code_fixed dc).code (dist_code_fixed dc).length hwf2.1 hc2 h242
    set w3 := w2.write_bits_reverse (dist_code_fixed dc).code
      (dist_code_fixed dc).length with hw3
    set w4 := if 0 < dist_extra.getD dc 0 then
      w3.write_bits (dist - dist_base.getD dc 0) (dist_extra.getD dc 0)
      else w3 with hw4
    have hwf4 : w4.WF ∧ w4.wbits = w3.wbits ++
        natBits (dist - dist_base.getD dc 0) (dist_extra.getD dc 0) := by
      rw [hw4]
      by_cases hE : 0 < dist_extra.getD dc 0
      · rw [if_pos hE]
        exact write_bits_spec w3 _ _ hwf3 hdx (dist_extra_le dc hdc30)
      · rw [if_neg hE]
        have h0 : dist_extra.getD dc 0 = 0 := by omega
        rw [h0]
        exact ⟨hwf3, by simp [natBits]⟩
    have he : writeToken w (.mtch len dist) = w4 := rfl
    have htb : tokenBits (.mtch len dist) =
        codeBits (lit_code (257 + lc)) ++
        natBits (len - length_base.getD lc 0) (length_extra.getD lc 0) ++
        codeBits (dist_code_fixed dc) ++
        natBits (dist - dist_base.getD dc 0) (dist_extra.getD dc 0) := rfl
    rw [he, htb]
    refine ⟨hwf4.1, ?_⟩
    rw [hwf4.2, hwb3, hwf2.2, hwb1]
    show _ = w.wbits ++ (codeBits _ ++ _ ++ codeBits _ ++ _)
    rw [codeBits, codeBits]
    simp [List.append_assoc]

theorem foldl_writeToken_spec :
    ∀ (toks : List LZ77Token) (w : BitWriter), w.WF → (∀ t ∈ toks, TokOk t) →
      (toks.foldl writeToken w).WF ∧
      (toks.foldl writeToken w).wbits = w.wbits ++ tokensBits toks := by
  intro toks
  induction toks with
  | nil =>
    intro w hwf _
    exact ⟨hwf, by simp [tokensBits]⟩
  | cons t ts ih =>
    intro w hwf hok
    obtain ⟨hwf1, hwb1⟩ := writeToken_spec w t hwf (hok t (by simp))
    obtain ⟨hwf2, hwb2⟩ := ih (writeToken w t) hwf1
      (fun x hx => hok x (by simp [hx]))
    rw [List.foldl_cons]
    refine ⟨hwf2, ?_⟩
    rw [hwb2, hwb1, tokensBits]
    simp [List.append_assoc]

theorem tokensBits_min_length :
    ∀ (toks : List LZ77Token), (∀ t ∈ toks, TokOk t) →
      7 * toks.length ≤ (tokensBits toks).length := by
  intro toks
  induction toks with
  | nil => intro _; simp [tokensBits]
  | cons t ts ih =>
    intro hok
    rw [tokensBits, List.length_append]
    have hts := ih (fun x hx => hok x (by simp [hx]))
    have hone : 7 ≤ (tokenBits t).length := by
      cases t with
      | literal b =>
        have hokb := hok (LZ77Token.literal b) (by simp)
        have hb : b < 288 := lt_of_lt_of_le hokb (by norm_num)
        obtain ⟨_, _, h7⟩ := lit_code_bounds b hb
        show 7 ≤ (codeBits (lit_code b)).length
        rw [codeBits, List.length_reverse, natBits_length]
        exact h7
      | mtch len dist =>
        obtain ⟨h3, h258, hd1, hdw⟩ := hok (LZ77Token.mtch len dist) (by simp)
        obtain ⟨hlc29, _, _, _⟩ := find_len_code_spec len h3 h258
        obtain ⟨_, _, h7⟩ := lit_code_bounds (257 + find_len_code len) (by omega)
        show 7 ≤ (codeBits _ ++ _ ++ codeBits _ ++ _).length
        rw [codeBits, codeBits]
        simp only [List.length_append, List.length_reverse, natBits_length]
        omega
    simp only [List.length_cons]
    omega

/-- The complete bit image of a fixed-Huffman compress call: final-block
flag `1`, block type `01` (LSB first), the tokens, the end-of-block code,
then zero padding to a byte boundary. -/
theorem compress_fixed_spec (input : List Nat) (level : Int)
    (hbytes : ∀ b ∈ input, b < 256) (toks : List LZ77Token)
    (htokeq : LZ77.compress input level = some toks) :
    ∃ out k, Deflate.compress_fixed_huffman input level =
        some (.FCONVERT_OK, out) ∧
      bytesBits out = [true, true, false] ++ tokensBits toks ++
        codeBits (lit_code 256) ++ List.replicate k false ∧
      (∀ b ∈ out, b < 256) := by
  have htoks : ∀ t ∈ toks, TokOk t :=
    fit_tokOk input hbytes 0 _ (compress_fit input level toks htokeq)
  obtain ⟨hwfa, hwba⟩ := write_bits_spec BitWriter.init 1 1 init_writer_WF
    (by norm_num) (by norm_num)
  obtain ⟨hwfb, hwbb⟩ := write_bits_spec (BitWriter.init.write_bits 1 1) 1 2 hwfa
    (by norm_num) (by norm_num)
  obtain ⟨hwfc, hwbc⟩ := foldl_writeToken_spec toks
    ((BitWriter.init.write_bits 1 1).write_bits 1 2) hwfb htoks
  obtain ⟨h256c, h256l, _⟩ := lit_code_bounds 256 (by norm_num)
  obtain ⟨hwfd, hwbd⟩ := write_bits_reverse_spec
    (toks.foldl writeToken ((BitWriter.init.write_bits 1 1).write_bits 1 2))
    (lit_code 256).code (lit_code 256).length hwfc h256c h256l
  have he : Deflate.compress_fixed_huffman input level =
      some (.FCONVERT_OK,
        ((toks.foldl writeToken
          ((BitWriter.init.write_bits 1 1).write_bits 1 2)).write_bits_reverse
          (lit_code 256).code (lit_code 256).length).get_data) := by
    rw [Deflate.compress_fixed_huffman, htokeq]
  set w4 := (toks.foldl writeToken
    ((BitWriter.init.write_bits 1 1).write_bits 1 2)).write_bits_reverse
    (lit_code 256).code (lit_code 256).length with hw4
  obtain ⟨hgd, hgb⟩ := get_data_spec w4 hwfd
  refine ⟨w4.get_data, (8 - w4.bits_in_buffer) % 8, he, ?_, hgb⟩
  rw [hgd, hwbd, hwbc, hwbb, hwba, init_wbits]
  show [] ++ natBits 1 1 ++ natBits 1 2 ++ tokensBits _ ++ codeBits (lit_code 256)
      ++ List.replicate _ false = _
  rw [show natBits 1 1 = [true] from rfl, show natBits 1 2 = [true, false] from rfl]
  simp [List.append_assoc]


/-! ## Decoding a fixed-Huffman block -/

theorem length_extra_le16 : ∀ c < 29, length_extra.getD c 0 ≤ 16 := by decide

theorem dist_extra_le16 : ∀ c < 30, dist_extra.getD c 0 ≤ 16 := by decide

theorem decode_huffman_data_succ (lt dt : HuffmanTree) (s : BitStream)
    (out : List Nat) (fuel : Nat) :
    Inflate.decode_huffman_data lt dt s out (fuel + 1) =
      Inflate.decodeStep lt dt
        (fun s1 o1 => Inflate.decode_huffman_data lt dt s1 o1 fuel) s out := rfl

theorem get?_eq_some_getD (l : List Nat) (i : Nat) (h : i < l.length) :
    l.get? i = some (l.getD i 0) := by
  rw [List.get?_eq_getElem?, List.getElem?_eq_getElem h, List.getD_eq_getElem?_getD,
    List.getElem?_eq_getElem h]
  rfl

theorem copyLoop_take (data : List Nat) :
    ∀ len pos dist, 1 ≤ dist → dist ≤ pos → pos + len ≤ data.length →
      (∀ k, k < len → data.getD (pos - dist + k) 0 = data.getD (pos + k) 0) →
      copyLoop (data.take pos) (pos - dist) len = some (data.take (pos + len)) := by
  intro len
  induction len with
  | zero => intro pos dist _ _ _ _; simp [copyLoop]
  | succ l ih =>
    intro pos dist hd1 hdp hle hmatch
    rw [copyLoop]
    have hlen : (data.take pos).length = pos :=
      (List.length_take _ _).trans (Nat.min_eq_left (by omega))
    have hidx : pos - dist < (data.take pos).length := by omega
    rw [get?_eq_some_getD _ _ hidx]
    show copyLoop ((data.take pos) ++ [(data.take pos).getD (pos - dist) 0])
      (pos - dist + 1) l = _
    have hread : (data.take pos).getD (pos - dist) 0 = data.getD pos 0 := by
      rw [getD_take data pos (pos - dist) (by omega)]
      have h0 := hmatch 0 (by omega)
      simpa using h0
    rw [hread, ← take_succ_getD data pos (by omega)]
    have hpd : pos - dist + 1 = pos + 1 - dist := by omega
    rw [hpd]
    have hstep := ih (pos + 1) dist hd1 (by omega) (by omega) ?_
    · rw [hstep]
      congr 2
      omega
    · intro k hk
      have hmk := hmatch (k + 1) (by omega)
      have e1 : pos - dist + (k + 1) = pos + 1 - dist + k := by omega
      have e2 : pos + (k + 1) = pos + 1 + k := by omega
      rw [e1, e2] at hmk
      exact hmk

theorem decodeStep_eob (lt dt : HuffmanTree) (next : BitStream → List Nat → HuffRes)
    (s s1 : BitStream) (out : List Nat)
    (hdec : lt.decode_symbol s = .val 256 s1) :
    Inflate.decodeStep lt dt next s out = .done s1 out := by
  simp only [Inflate.decodeStep, hdec]
  norm_num

theorem decodeStep_lit (lt dt : HuffmanTree) (next : BitStream → List Nat → HuffRes)
    (s s1 : BitStream) (out : List Nat) (b : Nat) (hb : b < 256)
    (hdec : lt.decode_symbol s = .val ((b : Nat) : Int) s1) :
    Inflate.decodeStep lt dt next s out = next s1 (out ++ [b]) := by
  simp only [Inflate.decodeStep, hdec]
  rw [if_neg (by omega), if_pos (by omega)]
  rw [show (((b : Nat) : Int)).toNat = b from by omega]

theorem decodeStep_match (lt dt : HuffmanTree) (next : BitStream → List Nat → HuffRes)
    (s s1 s2 s3 s4 : BitStream) (out out2 : List Nat) (lc dc len dist : Nat)
    (hlc : lc < 29) (hdc : dc < 30)
    (hdec1 : lt.decode_symbol s = .val ((257 + lc : Nat) : Int) s1)
    (hre : (if 0 < length_extra.getD lc 0 then
        s1.read_bits (length_extra.getD lc 0) else (0, s1)) =
      (len - length_base.getD lc 0, s2))
    (hlen : length_base.getD lc 0 ≤ len)
    (hdec2 : dt.decode_symbol s2 = .val ((dc : Nat) : Int) s3)
    (hrd : (if 0 < dist_extra.getD dc 0 then
        s3.read_bits (dist_extra.getD dc 0) else (0, s3)) =
      (dist - dist_base.getD dc 0, s4))
    (hdist : dist_base.getD dc 0 ≤ dist)
    (hcopy : Inflate.lz77_copy out dist len = some out2) :
    Inflate.decodeStep lt dt next s out = next s4 out2 := by
  simp only [Inflate.decodeStep, hdec1]
  have hsym0 : ¬ ((257 + lc : Nat) : Int) < 0 := by omega
  have hsym1 : ¬ ((257 + lc : Nat) : Int) < 256 := by omega
  have hsym2 : ¬ ((257 + lc : Nat) : Int) = 256 := by omega
  have hlcode : ((((257 + lc : Nat) : Int)) - 257).toNat = lc := by omega
  rw [if_neg hsym0, if_neg hsym1, if_neg hsym2]
  rw [hlcode]
  rw [if_neg (by omega : ¬ 29 ≤ lc)]
  rw [hre]
  have hlen2 : length_base.getD lc 0 + (len - length_base.getD lc 0) = len := by
    omega
  rw [hlen2]
  simp only [hdec2]
  have hdsym : ¬ (((dc : Nat) : Int) < 0 ∨ 30 ≤ ((dc : Nat) : Int)) := by omega
  rw [if_neg hdsym]
  have hdcode : (((dc : Nat) : Int)).toNat = dc := by omega
  rw [hdcode, hrd]
  dsimp only
  have hdist2 : dist_base.getD dc 0 + (dist - dist_base.getD dc 0) = dist := by
    omega
  rw [hdist2]
  simp only [hcopy]


theorem fixed_lit_decode (sym : Nat) (hs : sym < 288) (s : BitStream)
    (rest : List Bool) (hwf : s.WF)
    (hsb : s.sbits = codeBits (lit_code sym) ++ rest) :
    ∃ s', fixed_lit_tree.decode_symbol s = .val ((sym : Nat) : Int) s' ∧ s'.WF ∧
      s'.sbits = rest ∧ s'.data = s.data := by
  obtain ⟨hv, hr, hc⟩ := fixed_lit_tree_shape
  refine decode_symbol_path fixed_lit_tree _ _ rest s hv hr hwf
    (fixed_lit_paths sym hs) ?_ hsb
  rw [hc, codeBits, List.length_reverse, natBits_length]
  obtain ⟨_, h24, _⟩ := lit_code_bounds sym hs
  omega

theorem fixed_dist_decode (sym : Nat) (hs : sym < 32) (s : BitStream)
    (rest : List Bool) (hwf : s.WF)
    (hsb : s.sbits = codeBits (dist_code_fixed sym) ++ rest) :
    ∃ s', fixed_dist_tree.decode_symbol s = .val ((sym : Nat) : Int) s' ∧ s'.WF ∧
      s'.sbits = rest ∧ s'.data = s.data := by
  obtain ⟨hv, hr, hc⟩ := fixed_dist_tree_shape
  refine decode_symbol_path fixed_dist_tree _ _ rest s hv hr hwf
    (fixed_dist_paths sym hs) ?_ hsb
  rw [hc, codeBits, List.length_reverse, natBits_length]
  show (dist_code_fixed sym).length ≤ 64
  norm_num [dist_code_fixed]

theorem decode_tokens (data : List Nat) (hbytes : ∀ b ∈ data, b < 256)
    (rest : List Bool) :
    ∀ pos toks, TokensFit data pos toks → ∀ s fuel, s.WF →
      s.sbits = tokensBits toks ++ codeBits (lit_code 256) ++ rest →
      toks.length < fuel →
      ∃ s', Inflate.decode_huffman_data fixed_lit_tree fixed_dist_tree s
          (data.take pos) fuel = .done s' data ∧
        s'.WF ∧ s'.sbits = rest ∧ s'.data = s.data := by
  intro pos toks hfit
  induction hfit with
  | nil =>
    intro s fuel hwf hsb hfuel
    obtain ⟨f, rfl⟩ : ∃ f, fuel = f + 1 := ⟨fuel - 1, by omega⟩
    rw [List.take_length, decode_huffman_data_succ]
    obtain ⟨s', hdec, hwf', hsb', hdata'⟩ := fixed_lit_decode 256 (by norm_num)
      s rest hwf (by simpa [tokensBits] using hsb)
    rw [show (((256 : Nat) : Int)) = (256 : Int) from rfl] at hdec
    rw [decodeStep_eob _ _ _ s s' data hdec]
    exact ⟨s', rfl, hwf', hsb', hdata'⟩
  | lit pos toks hp ht ih =>
    intro s fuel hwf hsb hfuel
    obtain ⟨f, rfl⟩ : ∃ f, fuel = f + 1 := ⟨fuel - 1, by omega⟩
    have hb : data.getD pos 0 < 256 := getD_lt_bound data hbytes pos 0 (by norm_num)
    obtain ⟨s1, hdec, hwf1, hsb1, hdata1⟩ := fixed_lit_decode (data.getD pos 0)
      (by omega) s (tokensBits toks ++ codeBits (lit_code 256) ++ rest) hwf
      (by rw [hsb]; simp only [tokensBits, tokenBits, List.append_assoc])
    rw [decode_huffman_data_succ]
    rw [decodeStep_lit fixed_lit_tree fixed_dist_tree _ s s1 (data.take pos)
      (data.getD pos 0) hb hdec]
    rw [← take_succ_getD data pos hp]
    obtain ⟨s', hrec, hwf', hsb', hdata'⟩ := ih s1 f hwf1 hsb1
      (by simp only [List.length_cons] at hfuel; omega)
    exact ⟨s', hrec, hwf', hsb', by rw [hdata', hdata1]⟩
  | mat pos len dist toks h3 h258 hle hd1 hdp hdw hmatch ht ih =>
    intro s fuel hwf hsb hfuel
    obtain ⟨f, rfl⟩ : ∃ f, fuel = f + 1 := ⟨fuel - 1, by omega⟩
    obtain ⟨hlc29, hlb, hlx, hlx0⟩ := find_len_code_spec len h3 h258
    obtain ⟨hdc30, hdb, hdx, hdx0⟩ := find_dist_code_spec dist hd1 hdw
    set lc := find_len_code len with hlcd
    set dc := find_dist_code dist with hdcd
    have hsbA : s.sbits = codeBits (lit_code (257 + lc)) ++
        (natBits (len - length_base.getD lc 0) (length_extra.getD lc 0) ++
         (codeBits (dist_code_fixed dc) ++
          (natBits (dist - dist_base.getD dc 0) (dist_extra.getD dc 0) ++
           (tokensBits toks ++ codeBits (lit_code 256) ++ rest)))) := by
      rw [hsb]
      simp only [tokensBits, tokenBits, List.append_assoc]
    obtain ⟨s1, hdec1, hwf1, hsb1, hdata1⟩ := fixed_lit_decode (257 + lc)
      (by omega) s _ hwf hsbA
    -- length extra bits
    obtain ⟨s2, hre, hwf2, hsb2, hdata2⟩ :
        ∃ s2, (if 0 < length_extra.getD lc 0 then
            s1.read_bits (length_extra.getD lc 0) else (0, s1)) =
          (len - length_base.getD lc 0, s2) ∧ s2.WF ∧
          s2.sbits = codeBits (dist_code_fixed dc) ++
            (natBits (dist - dist_base.getD dc 0) (dist_extra.getD dc 0) ++
             (tokensBits toks ++ codeBits (lit_code 256) ++ rest)) ∧
          s2.data = s1.data := by
      by_cases hE : 0 < length_extra.getD lc 0
      · have hlen16 : length_extra.getD lc 0 ≤ 16 := length_extra_le16 lc hlc29
        have hlenb : length_extra.getD lc 0 ≤ s1.sbits.length := by
          rw [hsb1]
          simp [natBits_length]
        obtain ⟨hv, hwf2, hsb2, hdata2⟩ := read_bits_spec s1
          (length_extra.getD lc 0) hwf1 hlen16 hlenb
        refine ⟨(s1.read_bits (length_extra.getD lc 0)).2, ?_, hwf2, ?_, hdata2⟩
        · rw [if_pos hE]
          refine Prod.ext ?_ rfl
          rw [hv, hsb1, take_append_exact _ _ _ (natBits_length _ _),
            bitsToNat_natBits]
          exact Nat.mod_eq_of_lt hlx
        · rw [hsb2, hsb1, drop_append_exact _ _ _ (natBits_length _ _)]
      · have h0 : length_extra.getD lc 0 = 0 := by omega
        have hbase : length_base.getD lc 0 = len := hlx0 h0
        refine ⟨s1, ?_, hwf1, ?_, rfl⟩
        · rw [if_neg hE]
          refine Prod.ext ?_ rfl
          show (0 : Nat) = len - length_base.getD lc 0
          omega
        · rw [hsb1, h0, hbase]
          show natBits (len - len) 0 ++ _ = _
          rw [show natBits (len - len) 0 = [] from rfl]
          rw [List.nil_append]
    -- distance symbol
    obtain ⟨s3, hdec2, hwf3, hsb3, hdata3⟩ := fixed_dist_decode dc
      (by omega) s2 _ hwf2 hsb2
    -- distance extra bits
    obtain ⟨s4, hrd, hwf4, hsb4, hdata4⟩ :
        ∃ s4, (if 0 < dist_extra.getD dc 0 then
            s3.read_bits (dist_extra.getD dc 0) else (0, s3)) =
          (dist - dist_base.getD dc 0, s4) ∧ s4.WF ∧
          s4.sbits = tokensBits toks ++ codeBits (lit_code 256) ++ rest ∧
          s4.data = s3.data := by
      by_cases hE : 0 < dist_extra.getD dc 0
      · have hd16 : dist_extra.getD dc 0 ≤ 16 := dist_extra_le16 dc hdc30
        have hdb2 : dist_extra.getD dc 0 ≤ s3.sbits.length := by
          rw [hsb3]
          simp [natBits_length]
        obtain ⟨hv, hwf4, hsb4, hdata4⟩ := read_bits_spec s3
          (dist_extra.getD dc 0) hwf3 hd16 hdb2
        refine ⟨(s3.read_bits (dist_extra.getD dc 0)).2, ?_, hwf4, ?_, hdata4⟩
        · rw [if_pos hE]
          refine Prod.ext ?_ rfl
          rw [hv, hsb3, take_append_exact _ _ _ (natBits_length _ _),
            bitsToNat_natBits]
          exact Nat.mod_eq_of_lt hdx
        · rw [hsb4, hsb3, drop_append_exact _ _ _ (natBits_length _ _)]
      · have h0 : dist_extra.getD dc 0 = 0 := by omega
        have hbase : dist_base.getD dc 0 = dist := hdx0 h0
        refine ⟨s3, ?_, hwf3, ?_, rfl⟩
        · rw [if_neg hE]
          refine Prod.ext ?_ rfl
          show (0 : Nat) = dist - dist_base.getD dc 0
          omega
        · rw [hsb3, h0, hbase]
          show natBits (dist - dist) 0 ++ _ = _
          rw [show natBits (dist - dist) 0 = [] from rfl]
          rw [List.nil_append]
    -- the copy
    have hlenp : (data.take pos).length = pos :=
      (List.length_take _ _).trans (Nat.min_eq_left (by omega))
    have hlz : Inflate.lz77_copy (data.take pos) dist len =
        some (data.take (pos + len)) := by
      rw [Inflate.lz77_copy, if_pos (by omega), hlenp]
      exact copyLoop_take data len pos dist hd1 hdp hle hmatch
    rw [decode_huffman_data_succ]
    rw [decodeStep_match fixed_lit_tree fixed_dist_tree _ s s1 s2 s3 s4
      (data.take pos) (data.take (pos + len)) lc dc len dist hlc29 hdc30
      hdec1 hre hlb hdec2 hrd hdb hlz]
    obtain ⟨s', hrec, hwf', hsb', hdata'⟩ := ih s4 f hwf4 hsb4
      (by simp only [List.length_cons] at hfuel; omega)
    refine ⟨s', hrec, hwf', hsb', ?_⟩
    rw [hdata', hdata4, hdata3, hdata2, hdata1]


theorem decompress_fixed (input : List Nat) (level : Int)
    (hbytes : ∀ b ∈ input, b < 256) (hlevel : level ≠ 0)
    (e : fconvert_error_t) (out : List Nat)
    (hcomp : Deflate.compress input level = some (e, out)) :
    Inflate.decompress out = .ok input := by
  rw [Deflate.compress, if_neg hlevel] at hcomp
  rcases htokeq : LZ77.compress input level with - | toks
  · rw [Deflate.compress_fixed_huffman, htokeq] at hcomp
    exact absurd hcomp (by simp)
  · obtain ⟨comp, k, heq2, hbits, hb256⟩ :=
      compress_fixed_spec input level hbytes toks htokeq
    rw [heq2] at hcomp
    have h2 : ((.FCONVERT_OK : fconvert_error_t), comp) = (e, out) :=
      (Option.some.injEq _ _).mp hcomp
    have hout : comp = out := congrArg Prod.snd h2
    subst hout
    rw [Inflate.decompress]
    have hwf0 := init_WF comp hb256
    have hsb0 : (BitStream.init comp).sbits = [true] ++ ([true, false] ++
        (tokensBits toks ++ codeBits (lit_code 256) ++ List.replicate k false)) := by
      rw [init_sbits, hbits]
      simp
    have hfuelpos : ∃ f, 8 * comp.length + 64 = f + 1 := ⟨8 * comp.length + 63, by omega⟩
    obtain ⟨f, hf⟩ := hfuelpos
    rw [hf, blockLoop_succ, Inflate.blockStep]
    have hlen1 : 1 ≤ (BitStream.init comp).sbits.length := by rw [hsb0]; simp
    obtain ⟨hv1, hwf1, hsb1, hdata1⟩ := read_bits_spec (BitStream.init comp) 1 hwf0
      (by omega) hlen1
    rw [hsb0, take_append_exact [true] _ 1 rfl] at hv1
    rw [hsb0, drop_append_exact [true] _ 1 rfl] at hsb1
    have hv1v : ((BitStream.init comp).read_bits 1).1 = 1 := by rw [hv1]; decide
    have hlen2 : 2 ≤ ((BitStream.init comp).read_bits 1).2.sbits.length := by
      rw [hsb1]; simp
    obtain ⟨hv2, hwf2, hsb2, hdata2⟩ := read_bits_spec _ 2 hwf1 (by omega) hlen2
    rw [hsb1, take_append_exact [true, false] _ 2 rfl] at hv2
    rw [hsb1, drop_append_exact [true, false] _ 2 rfl] at hsb2
    have hv2v : (((BitStream.init comp).read_bits 1).2.read_bits 2).1 = 1 := by
      rw [hv2]; decide
    rw [hv2v]
    rw [if_neg (by omega : ¬ (1 : Nat) = 0), if_pos rfl]
    rw [Inflate.process_fixed_huffman]
    -- the token stream decodes
    have htl : 7 * toks.length ≤ (tokensBits toks).length :=
      tokensBits_min_length toks
        (fit_tokOk input hbytes 0 toks (compress_fit input level toks htokeq))
    have hbl := congrArg List.length hbits
    rw [bytesBits_length] at hbl
    simp only [List.length_append, List.length_cons, List.length_replicate] at hbl
    obtain ⟨s', hdone, hwf', hsb', hdata'⟩ := decode_tokens input hbytes
      (List.replicate k false) 0 toks (compress_fit input level toks htokeq)
      (((BitStream.init comp).read_bits 1).2.read_bits 2).2 (f + 1) hwf2
      (by rw [hsb2]) (by omega)
    simp only [List.take_zero] at hdone
    rw [hv1v]
    simp only [hdone]
    rw [if_pos (by omega : (1 : Nat) ≠ 0)]

/-- A dynamic-Huffman block (BTYPE=10) whose single distance code has
length zero: RFC 1951 §3.2.7 permits this ("one distance code of zero
bits means that there are no distance codes used").  The literal tree has
codes for symbols 0 and 256 only, and the data section is the single
end-of-block symbol. -/
def dyn_all_zero_dist_input : List Nat :=
  [5, 192, 129, 8, 0, 0, 0, 0, 160, 253, 169, 47]

set_option maxRecDepth 100000 in
theorem test_dyn : Inflate.decompress dyn_all_zero_dist_input = .corrupted [] := by rfl

/-- Specification-side variant of `process_dynamic_huffman`, written from
the spec's words: per RFC 1951 §3.2.7 an all-zero distance code-length
array is legal and means no distance codes are used, so instead of
failing, decoding proceeds with a tree on which any distance lookup
fails (`HuffmanTree.cleared` decodes every symbol to `-1`).  Everything
else is identical to `Inflate.process_dynamic_huffman`. -/
def InflateRFC.process_dynamic_huffman (s : BitStream) (out : List Nat)
    (fuel : Nat) : HuffRes :=
  let r1 := s.read_bits 5
  let hlit := r1.1 + 257
  let r2 := r1.2.read_bits 5
  let hdist := r2.1 + 1
  let r3 := r2.2.read_bits 4
  let hclen := r3.1 + 4
  let rcl := clLoop r3.2 (List.replicate 19 0) 0 hclen
  match HuffmanTree.build_from_lengths rcl.2 19 with
  | .ub => .ub
  | .fail _ => .fail rcl.1 out
  | .ok code_tree =>
    match lengthsLoop code_tree rcl.1 [] (hlit + hdist) (hlit + hdist + 1) with
    | .hang => .hang
    | .fail s5 => .fail s5 out
    | .ok lens s5 =>
      match HuffmanTree.build_from_lengths lens hlit with
      | .ub => .ub
      | .fail _ => .fail s5 out
      | .ok lit_tree =>
        if ((lens.drop hlit).take hdist).all (· = 0) then
          Inflate.decode_huffman_data lit_tree HuffmanTree.cleared s5 out fuel
        else
          match HuffmanTree.build_from_lengths (lens.drop hlit) hdist with
          | .ub => .ub
          | .fail _ => .fail s5 out
          | .ok dist_tree =>
            Inflate.decode_huffman_data lit_tree dist_tree s5 out fuel

/-- Specification-side block loop: as `Inflate.blockStep`/`blockLoop` but
with the RFC-permissive dynamic-block handler. -/
def InflateRFC.blockStep (dataFuel : Nat) (next : BitStream → List Nat → DOut)
    (s : BitStream) (out : List Nat) : DOut :=
  let r1 := s.read_bits 1
  let is_final := r1.1 ≠ 0
  let r2 := r1.2.read_bits 2
  let block_type := r2.1
  if block_type = 0 then
    match Inflate.process_uncompressed r2.2 out with
    | (false, _, out3) => .corrupted out3
    | (true, s3, out3) => if is_final then .ok out3 else next s3 out3
  else if block_type = 1 then
    match Inflate.process_fixed_huffman r2.2 out dataFuel with
    | .done s3 out3 => if is_final then .ok out3 else next s3 out3
    | .fail _ out3 => .corrupted out3
    | .ub => .ub
    | .hang => .hang
  else if block_type = 2 then
    match InflateRFC.process_dynamic_huffman r2.2 out dataFuel with
    | .done s3 out3 => if is_final then .ok out3 else next s3 out3
    | .fail _ out3 => .corrupted out3
    | .ub => .ub
    | .hang => .hang
  else .corrupted out

def InflateRFC.blockLoop (dataFuel : Nat) : BitStream → List Nat → Nat → DOut
  | _, _, 0 => .hang
  | s, out, fuel + 1 =>
    InflateRFC.blockStep dataFuel
      (fun s3 out3 => InflateRFC.blockLoop dataFuel s3 out3 fuel) s out

def InflateRFC.decompress (data : List Nat) : DOut :=
  InflateRFC.blockLoop (8 * data.length + 64) (BitStream.init data) []
    (8 * data.length + 64)

set_option maxRecDepth 100000 in
theorem test_dyn_rfc : InflateRFC.decompress dyn_all_zero_dist_input = .ok [] := by rfl


set_option maxRecDepth 100000 in
theorem test_c5_cl : Inflate.decompress [5, 0, 2, 32] = .corrupted [] := by rfl

set_option maxRecDepth 100000 in
theorem test_c5_len : Inflate.decompress [27, 3] = .corrupted [] := by rfl

set_option maxRecDepth 100000 in
theorem test_c5_dist : Inflate.decompress [3, 62] = .corrupted [] := by rfl

set_option maxRecDepth 100000 in
theorem test_c5_stored : Inflate.decompress [0, 0, 0, 0, 0] = .corrupted [] := by rfl

theorem all_zero_count (lens : List Nat) :
    ∀ (l : List Nat), (∀ i ∈ l, lens.getD i 0 = 0) →
      ∀ st, l.foldl (countStep lens) (some st) = some st := by
  intro l
  induction l with
  | nil => intro _ st; rfl
  | cons a t ih =>
    intro h st
    rw [List.foldl_cons]
    have ha : lens.getD a 0 = 0 := h a (by simp)
    show List.foldl (countStep lens) (countStep lens (some st) a) t = some st
    have hstep : countStep lens (some st) a = some st := by
      rcases st with ⟨c, m⟩
      simp only [countStep]
      rw [if_pos ha]
    rw [hstep]
    exact ih (fun i hi => h i (by simp [hi])) st

/-- All-zero code-length arrays are rejected: `max_length` stays 0, so
`build_from_lengths` clears the tree and returns failure. -/
theorem build_all_zero_fails (lens : List Nat) (n : Nat)
    (h : ∀ i < n, lens.getD i 0 = 0) :
    HuffmanTree.build_from_lengths lens n = .fail HuffmanTree.cleared := by
  rw [HuffmanTree.build_from_lengths]
  rw [countLengths]
  rw [all_zero_count lens (List.range n) (fun i hi => h i (List.mem_range.mp hi))]
  rfl

/-- Claim C10 (amended): `Deflate::compress` has no error paths — when
it completes it returns `FCONVERT_OK` with an output stream, for every
input buffer and every integer level, and any level other than 0 takes
the fixed-Huffman path.  Completion is not guaranteed: at level ≥ 6 the
hash-chain matcher can commit an out-of-bounds read (undefined
behavior, see `c10_counterexample`). -/
theorem compress_total :
    (∀ (input : List Nat) (level : Int) (e : fconvert_error_t) (out : List Nat),
      Deflate.compress input level = some (e, out) → e = .FCONVERT_OK) ∧
    (∀ (input : List Nat) (level : Int), level ≠ 0 →
      Deflate.compress input level = Deflate.compress_fixed_huffman input level) := by
  constructor
  · intro input level e out h
    by_cases hl : level = 0
    · rw [Deflate.compress, if_pos hl] at h
      have h2 : Deflate.compress_uncompressed input = (e, out) :=
        (Option.some.injEq _ _).mp h
      exact (congrArg Prod.fst h2).symm
    · rw [Deflate.compress, if_neg hl] at h
      rcases htokeq : LZ77.compress input level with - | toks
      · rw [Deflate.compress_fixed_huffman, htokeq] at h
        exact absurd h (by simp)
      · rw [Deflate.compress_fixed_huffman, htokeq] at h
        simp only at h
        have h2 := (Option.some.injEq _ _).mp h
        exact (congrArg Prod.fst h2).symm
  · intro input level hl
    rw [Deflate.compress, if_neg hl]


/-- Any first byte whose BTYPE bits (bits 1-2) are `11` makes `decompress`
report corruption immediately, whatever follows. -/
theorem decompress_reserved_btype (b : Nat) (rest : List Nat) (hb : b < 256)
    (hrest : ∀ x ∈ rest, x < 256) (hty : b / 2 % 4 = 3) :
    Inflate.decompress (b :: rest) = .corrupted [] := by
  have hall : ∀ x ∈ b :: rest, x < 256 := by
    intro x hx
    rcases List.mem_cons.mp hx with rfl | h
    · exact hb
    · exact hrest x h
  have hwf0 := init_WF (b :: rest) hall
  have hsb0 : (BitStream.init (b :: rest)).sbits =
      natBits (b % 2) 1 ++ (natBits (b / 2 % 4) 2 ++
        (natBits (b / 2 / 4) 5 ++ bytesBits rest)) := by
    rw [init_sbits]
    show natBits b 8 ++ bytesBits rest = _
    rw [show (8 : Nat) = 1 + 7 from rfl, natBits_add]
    rw [show (7 : Nat) = 2 + 5 from rfl, natBits_add]
    rw [show (2 : Nat) ^ 1 = 2 from rfl, show (2 : Nat) ^ 2 = 4 from rfl]
    simp [List.append_assoc]
  rw [Inflate.decompress]
  obtain ⟨f, hf⟩ : ∃ f, 8 * (b :: rest).length + 64 = f + 1 :=
    ⟨8 * (b :: rest).length + 63, by omega⟩
  rw [hf, blockLoop_succ, Inflate.blockStep]
  have hlen1 : 1 ≤ (BitStream.init (b :: rest)).sbits.length := by
    rw [hsb0]
    simp [natBits_length]
  obtain ⟨hv1, hwf1, hsb1, hd1⟩ := read_bits_spec _ 1 hwf0 (by omega) hlen1
  rw [hsb0, drop_append_exact _ _ 1 (natBits_length _ _)] at hsb1
  have hlen2 : 2 ≤ ((BitStream.init (b :: rest)).read_bits 1).2.sbits.length := by
    rw [hsb1]
    simp [natBits_length]
  obtain ⟨hv2, hwf2, hsb2, hd2⟩ := read_bits_spec _ 2 hwf1 (by omega) hlen2
  rw [hsb1, take_append_exact _ _ 2 (natBits_length _ _), bitsToNat_natBits] at hv2
  have hv2v : (((BitStream.init (b :: rest)).read_bits 1).2.read_bits 2).1 = 3 := by
    rw [hv2, hty]
    norm_num
  rw [hv2v]
  rw [if_neg (by omega), if_neg (by omega), if_neg (by omega)]

end Fconvert


namespace Fconvert

/-! ## Canonical Huffman codes (specification side, RFC 1951 §3.2.2)

`blCount`, `specCode`, `specRank`, `specCanon` and `specBits` transcribe
the RFC's words: count codes of each length (zero lengths designate
unused symbols, `bl_count[0] = 0`); `code(len) =
(code(len-1) + bl_count(len-1)) << 1` with `code(0) = 0`; codes of equal
length go to symbols in ascending order; the codeword is the `len`-bit
value MSB first. -/

def blCount (lens : List Nat) (n l : Nat) : Nat :=
  if l = 0 then 0
  else ((List.range n).filter (fun i => lens.getD i 0 = l)).length

def specCode (lens : List Nat) (n : Nat) : Nat → Nat
  | 0 => 0
  | l + 1 => (specCode lens n l + blCount lens n l) * 2

def specRank (lens : List Nat) (sym : Nat) : Nat :=
  ((List.range sym).filter (fun i => lens.getD i 0 = lens.getD sym 0)).length

def specCanon (lens : List Nat) (n sym : Nat) : Nat :=
  specCode lens n (lens.getD sym 0) + specRank lens sym

def specBits (lens : List Nat) (n sym : Nat) : List Bool :=
  (natBits (specCanon lens n sym) (lens.getD sym 0)).reverse

/-- Per-level fit (equivalent to Kraft): at every length the first code
of that length plus the number of such codes still fits in `l` bits. -/
def Fit (lens : List Nat) (n : Nat) : Prop :=
  ∀ l, l ≤ 15 → specCode lens n l + blCount lens n l ≤ 2 ^ l

/-! ### The counting pass agrees with `blCount` -/

theorem getD_set_eq_list (c : List Nat) (i v : Nat) (h : i < c.length) :
    (c.set i v).getD i 0 = v := by
  rw [List.getD_eq_getElem?_getD, List.getElem?_set_self, Option.getD_some]
  · exact h

theorem getD_set_ne_list (c : List Nat) (i j v : Nat) (h : i ≠ j) :
    (c.set i v).getD j 0 = c.getD j 0 := by
  rw [List.getD_eq_getElem?_getD, List.getElem?_set_ne h, ← List.getD_eq_getElem?_getD]

theorem blCount_succ (lens : List Nat) (n l : Nat) :
    blCount lens (n + 1) l =
      blCount lens n l + (if lens.getD n 0 = l ∧ l ≠ 0 then 1 else 0) := by
  rw [blCount, blCount]
  by_cases h0 : l = 0
  · rw [if_pos h0, if_pos h0, if_neg (by simp [h0])]
  · rw [if_neg h0, if_neg h0, List.range_succ, List.filter_append]
    rw [List.length_append]
    congr 1
    by_cases he : lens.getD n 0 = l
    · rw [if_pos ⟨he, h0⟩]
      have he2 : lens[n]?.getD 0 = l := by
        rw [← List.getD_eq_getElem?_getD]
        exact he
      simp [he2]
    · rw [if_neg (fun hc => he hc.1)]
      have he2 : ¬ lens[n]?.getD 0 = l := by
        rw [← List.getD_eq_getElem?_getD]
        exact he
      simp [he2]

theorem getD_replicate_zero : ∀ (n i : Nat),
    (List.replicate n (0 : Nat)).getD i 0 = 0 := by
  intro n
  induction n with
  | zero => intro i; rfl
  | succ m ih =>
    intro i
    cases i with
    | zero => rfl
    | succ j =>
      show (List.replicate m 0).getD j 0 = 0
      exact ih j

theorem countLengths_spec (lens : List Nat) (n : Nat)
    (hle : ∀ i < n, lens.getD i 0 ≤ 15) :
    ∃ counts maxl, countLengths lens n = some (counts, maxl) ∧
      counts.length = 16 ∧
      (∀ l, counts.getD l 0 = blCount lens n l) ∧
      (∀ i < n, lens.getD i 0 ≤ maxl) ∧ maxl ≤ 15 := by
  induction n with
  | zero =>
    refine ⟨List.replicate 16 0, 0, rfl, by simp, ?_, by omega, by omega⟩
    intro l
    rw [blCount]
    split
    · exact getD_replicate_zero 16 l
    · simpa using getD_replicate_zero 16 l
  | succ m ih =>
    obtain ⟨counts, maxl, heq, hlen, hcnt, hmax, hm15⟩ :=
      ih (fun i hi => hle i (by omega))
    rw [countLengths, List.range_succ, List.foldl_append]
    rw [show (List.range m).foldl (countStep lens) (some (List.replicate 16 0, 0)) =
      countLengths lens m from rfl, heq]
    rw [List.foldl_cons, List.foldl_nil]
    by_cases h0 : lens.getD m 0 = 0
    · refine ⟨counts, maxl, ?_, hlen, ?_, ?_, hm15⟩
      · simp only [countStep]
        rw [if_pos h0]
      · intro l
        rw [hcnt l, blCount_succ]
        rw [if_neg (by rintro ⟨h1, h2⟩; rw [h0] at h1; exact h2 h1.symm)]
        omega
      · intro i hi
        rcases Nat.lt_succ_iff_lt_or_eq.mp hi with h | h
        · exact hmax i h
        · rw [h, h0]; omega
    · have hl15 : lens.getD m 0 ≤ 15 := hle m (by omega)
      refine ⟨counts.set (lens.getD m 0) (counts.getD (lens.getD m 0) 0 + 1),
        if maxl < lens.getD m 0 then lens.getD m 0 else maxl, ?_, by simp [hlen], ?_, ?_, ?_⟩
      · simp only [countStep]
        rw [if_neg h0, if_neg (by omega)]
      · intro l
        rw [blCount_succ]
        by_cases he : l = lens.getD m 0
        · subst he
          rw [getD_set_eq_list _ _ _ (by omega), hcnt, if_pos ⟨rfl, h0⟩]
        · rw [getD_set_ne_list _ _ _ _ (fun hc => he hc.symm), hcnt,
            if_neg (by rintro ⟨h1, h2⟩; exact he h1.symm)]
          omega
      · intro i hi
        rcases Nat.lt_succ_iff_lt_or_eq.mp hi with h | h
        · have := hmax i h
          split <;> omega
        · rw [h]
          split <;> omega
      · split <;> omega


/-! ### The first-code pass computes the RFC recurrence -/

theorem codesGoF_spec (lens : List Nat) (n : Nat) (counts : List Nat)
    (maxl : Nat) (hcnt : ∀ l, counts.getD l 0 = blCount lens n l)
    (hm15 : maxl ≤ 15) :
    ∀ f len code codes, codes.length = 16 → 1 ≤ len → maxl + 1 - len ≤ f →
      code = specCode lens n (len - 1) →
      ((∀ l, l < len →
        (codesGoF counts maxl f len code codes).getD l 0 = codes.getD l 0) ∧
       (∀ l, len ≤ l → l ≤ maxl →
        (codesGoF counts maxl f len code codes).getD l 0 = specCode lens n l)) := by
  intro f
  induction f with
  | zero =>
    intro len code codes hlen h1 hf hcode
    exact ⟨fun l _ => rfl, fun l hl1 hl2 => by omega⟩
  | succ m ih =>
    intro len code codes hlen h1 hf hcode
    rw [codesGoF]
    by_cases hle : len ≤ maxl
    · rw [if_pos hle]
      obtain ⟨k, rfl⟩ : ∃ k, len = k + 1 := ⟨len - 1, by omega⟩
      have hc' : (code + counts.getD (k + 1 - 1) 0) <<< 1 = specCode lens n (k + 1) := by
        rw [hcnt]
        rw [hcode]
        show (specCode lens n (k + 1 - 1) + blCount lens n (k + 1 - 1)) <<< 1 = _
        rw [show k + 1 - 1 = k from rfl]
        rw [Nat.shiftLeft_eq, specCode]
      obtain ⟨ihA, ihB⟩ := ih (k + 2)
        ((code + counts.getD (k + 1 - 1) 0) <<< 1)
        (codes.set (k + 1) ((code + counts.getD (k + 1 - 1) 0) <<< 1))
        (by rw [List.length_set]; exact hlen) (by omega) (by omega)
        (by rw [hc']; rfl)
      constructor
      · intro l hl
        rw [ihA l (by omega), getD_set_ne_list _ _ _ _ (by omega)]
      · intro l hl1 hl2
        by_cases heq : l = k + 1
        · subst heq
          rw [ihA (k + 1) (by omega), getD_set_eq_list _ _ _ (by omega), hc']
        · exact ihB l (by omega) hl2
    · rw [if_neg hle]
      exact ⟨fun l _ => rfl, fun l hl1 hl2 => by omega⟩

theorem codesGo_spec (lens : List Nat) (n : Nat) (counts : List Nat)
    (maxl : Nat) (hcnt : ∀ l, counts.getD l 0 = blCount lens n l)
    (hm15 : maxl ≤ 15) :
    ∀ l, 1 ≤ l → l ≤ maxl →
      (codesGo counts maxl 1 0 (List.replicate 16 0)).getD l 0 =
        specCode lens n l := by
  intro l h1 h2
  rw [codesGo]
  exact (codesGoF_spec lens n counts maxl hcnt hm15 (maxl + 1 - 1) 1 0
    (List.replicate 16 0) (by simp) (by omega) (by omega) rfl).2 l h1 h2

/-! ### Canonical codes are prefix-free under per-level fit -/

theorem blCount_mono (lens : List Nat) (l : Nat) :
    ∀ {a b : Nat}, a ≤ b → blCount lens a l ≤ blCount lens b l := by
  intro a b hab
  induction b with
  | zero =>
    have : a = 0 := by omega
    subst this
    exact Nat.le_refl _
  | succ c ih =>
    rcases Nat.lt_succ_iff_lt_or_eq.mp (Nat.lt_succ_of_le hab) with h | h
    · have := ih (by omega)
      rw [blCount_succ]
      split <;> omega
    · subst h
      exact Nat.le_refl _

theorem specRank_eq_blCount (lens : List Nat) (sym : Nat) (h0 : lens.getD sym 0 ≠ 0) :
    specRank lens sym = blCount lens sym (lens.getD sym 0) := by
  rw [specRank, blCount, if_neg h0]

theorem specRank_lt (lens : List Nat) (n sym : Nat) (hs : sym < n)
    (h0 : lens.getD sym 0 ≠ 0) :
    specRank lens sym < blCount lens n (lens.getD sym 0) := by
  rw [specRank_eq_blCount lens sym h0]
  have h1 : blCount lens (sym + 1) (lens.getD sym 0) =
      blCount lens sym (lens.getD sym 0) + 1 := by
    rw [blCount_succ, if_pos ⟨rfl, h0⟩]
  have h2 := blCount_mono lens (lens.getD sym 0) (show sym + 1 ≤ n by omega)
  omega

theorem specCanon_lt (lens : List Nat) (n sym : Nat) (hs : sym < n)
    (h0 : lens.getD sym 0 ≠ 0) (h15 : lens.getD sym 0 ≤ 15)
    (hfit : Fit lens n) :
    specCanon lens n sym < 2 ^ lens.getD sym 0 := by
  have h1 := specRank_lt lens n sym hs h0
  have h2 := hfit (lens.getD sym 0) h15
  rw [specCanon]
  omega

theorem specCode_shift (lens : List Nat) (n : Nat) (l : Nat) :
    ∀ d, 1 ≤ d →
      2 ^ d * (specCode lens n l + blCount lens n l) ≤ specCode lens n (l + d) := by
  intro d
  induction d with
  | zero => omega
  | succ e ih =>
    intro _
    by_cases he : 1 ≤ e
    · have h1 := ih he
      rw [show l + (e + 1) = (l + e) + 1 from rfl, specCode, Nat.pow_succ]
      have hx : 2 ^ e * 2 * (specCode lens n l + blCount lens n l) =
          2 * (2 ^ e * (specCode lens n l + blCount lens n l)) := by ring
      omega
    · have he0 : e = 0 := by omega
      subst he0
      rw [specCode]
      have h21 : (2 : Nat) ^ 1 = 2 := rfl
      rw [h21]
      omega

theorem natBits_inj (v w m : Nat) (hv : v < 2 ^ m) (hw : w < 2 ^ m)
    (h : natBits v m = natBits w m) : v = w := by
  have := congrArg bitsToNat h
  rw [bitsToNat_natBits, bitsToNat_natBits, Nat.mod_eq_of_lt hv,
    Nat.mod_eq_of_lt hw] at this
  exact this

/-- Under per-level fit, no canonical codeword is a prefix of another
symbol's codeword. -/
theorem specBits_prefix_free (lens : List Nat) (n : Nat) (hfit : Fit lens n)
    (h15 : ∀ i < n, lens.getD i 0 ≤ 15)
    (j1 j2 : Nat) (hj1 : j1 < n) (hj2 : j2 < n) (hne : j1 ≠ j2)
    (h01 : lens.getD j1 0 ≠ 0) (h02 : lens.getD j2 0 ≠ 0) :
    ¬ (specBits lens n j1).IsPrefix (specBits lens n j2) := by
  intro hpre
  have hlen1 : (specBits lens n j1).length = lens.getD j1 0 := by
    rw [specBits, List.length_reverse, natBits_length]
  have hlen2 : (specBits lens n j2).length = lens.getD j2 0 := by
    rw [specBits, List.length_reverse, natBits_length]
  have hll : lens.getD j1 0 ≤ lens.getD j2 0 := by
    have := hpre.length_le
    omega
  have hc1 := specCanon_lt lens n j1 hj1 h01 (h15 j1 hj1) hfit
  have hc2 := specCanon_lt lens n j2 hj2 h02 (h15 j2 hj2) hfit
  have htake : (specBits lens n j2).take (lens.getD j1 0) = specBits lens n j1 := by
    obtain ⟨t, ht⟩ := hpre
    rw [← ht, take_append_exact _ _ _ hlen1]
  by_cases heq : lens.getD j1 0 = lens.getD j2 0
  · -- equal lengths: equal codes, but ranks differ
    have hbits : specBits lens n j2 = specBits lens n j1 := by
      rw [← htake, heq, ← hlen2, List.take_length]
    have hcodes : specCanon lens n j2 = specCanon lens n j1 := by
      have hnb := congrArg List.reverse hbits
      rw [specBits, specBits, List.reverse_reverse, List.reverse_reverse] at hnb
      rw [heq] at hnb
      rw [heq] at hc1
      exact natBits_inj _ _ _ hc2 hc1 hnb
    have hr1 : specRank lens j1 = blCount lens j1 (lens.getD j2 0) := by
      rw [← heq]
      exact specRank_eq_blCount lens j1 h01
    have hr2 : specRank lens j2 = blCount lens j2 (lens.getD j2 0) :=
      specRank_eq_blCount lens j2 h02
    rw [specCanon, specCanon, heq] at hcodes
    rcases Nat.lt_or_ge j1 j2 with hlt | hge
    · have hstep : blCount lens (j1 + 1) (lens.getD j2 0) =
          blCount lens j1 (lens.getD j2 0) + 1 := by
        rw [blCount_succ, if_pos ⟨heq, h02⟩]
      have hmono := blCount_mono lens (lens.getD j2 0) (show j1 + 1 ≤ j2 by omega)
      omega
    · have hlt2 : j2 < j1 := by omega
      have hstep : blCount lens (j2 + 1) (lens.getD j2 0) =
          blCount lens j2 (lens.getD j2 0) + 1 := by
        rw [blCount_succ, if_pos ⟨rfl, h02⟩]
      have hmono := blCount_mono lens (lens.getD j2 0) (show j2 + 1 ≤ j1 by omega)
      omega
  · -- strictly shorter prefix: arithmetic separation
    have hlt : lens.getD j1 0 < lens.getD j2 0 := by omega
    set l1 := lens.getD j1 0 with hl1d
    set l2 := lens.getD j2 0 with hl2d
    set d := l2 - l1 with hdd
    have hsplit : natBits (specCanon lens n j2) l2 =
        natBits (specCanon lens n j2 % 2 ^ d) d ++
        natBits (specCanon lens n j2 / 2 ^ d) l1 := by
      have := natBits_add (specCanon lens n j2) d l1
      rw [show d + l1 = l2 by omega] at this
      exact this
    have htake2 : (specBits lens n j2).take l1 =
        (natBits (specCanon lens n j2 / 2 ^ d) l1).reverse := by
      rw [specBits, hsplit, List.reverse_append]
      rw [take_append_exact _ _ _ (by rw [List.length_reverse, natBits_length])]
    have heqbits : natBits (specCanon lens n j2 / 2 ^ d) l1 =
        natBits (specCanon lens n j1) l1 := by
      have h := htake2.symm.trans htake
      rw [specBits] at h
      have := congrArg List.reverse h
      rwa [List.reverse_reverse, List.reverse_reverse] at this
    have hdivlt : specCanon lens n j2 / 2 ^ d < 2 ^ l1 := by
      rw [Nat.div_lt_iff_lt_mul (Nat.pos_pow_of_pos _ (by omega)), ← Nat.pow_add]
      rw [show l1 + d = l2 by omega]
      exact hc2
    have heqv : specCanon lens n j2 / 2 ^ d = specCanon lens n j1 :=
      natBits_inj _ _ _ hdivlt hc1 heqbits
    -- but the shifted first code already exceeds every level-l1 code
    have hshift := specCode_shift lens n l1 d (by omega)
    have hge : specCode lens n l2 ≤ specCanon lens n j2 := by
      rw [specCanon, ← hl2d]
      omega
    have hdivge : specCode lens n l1 + blCount lens n l1 ≤
        specCanon lens n j2 / 2 ^ d := by
      rw [Nat.le_div_iff_mul_le (Nat.pos_pow_of_pos _ (by omega))]
      rw [show l1 + d = l2 by omega] at hshift
      calc (specCode lens n l1 + blCount lens n l1) * 2 ^ d
          = 2 ^ d * (specCode lens n l1 + blCount lens n l1) := by ring
        _ ≤ specCode lens n l2 := hshift
        _ ≤ specCanon lens n j2 := hge
    have hr1 := specRank_lt lens n j1 hj1 h01
    rw [← hl1d] at hr1
    have hx : specCanon lens n j1 = specCode lens n l1 + specRank lens j1 := by
      rw [specCanon, ← hl1d]
    omega


/-! ### The arena trie: walks, and the invariant of the insertion fold

`walkA m node q` follows the child pointers of the arena `m` along the
bit string `q` (`false` = left, `true` = right), returning the node index
reached, or `none` if a zero child pointer is hit.  `TrieInv` captures
the state of the arena during `build_from_lengths`: `T` is the walk
function in tabulated form, it is injective on indices, reached indices
are allocated, unallocated cells are zero, every node carrying a real
symbol sits at the end of the codeword path of an already-inserted
symbol, and every inserted symbol has its leaf in place. -/

def walkA (m : Smap HuffmanNode) : Nat → List Bool → Option Nat
  | node, [] => some node
  | node, b :: bs =>
    let nd := m.getD node HuffmanNode.zero
    let ch := if b then nd.right else nd.left
    if ch = 0 then none else walkA m ch bs

structure TrieInv (m : Smap HuffmanNode) (next : Nat)
    (paths : Nat → List Bool) (Ins : Nat → Prop)
    (T : List Bool → Option Nat) : Prop where
  walk_eq : ∀ q, walkA m 0 q = T q
  idx_lt : ∀ q i, T q = some i → i < next
  inj : ∀ q r i, T q = some i → T r = some i → q = r
  childb : ∀ i, i < next → (m.getD i HuffmanNode.zero).left < next ∧
    (m.getD i HuffmanNode.zero).right < next
  fresh : ∀ i, next ≤ i → m.getD i HuffmanNode.zero = HuffmanNode.zero
  syms : ∀ q i, T q = some i → (m.getD i HuffmanNode.zero).symbol ≠ -1 →
    ∃ j, Ins j ∧ paths j = q ∧ (m.getD i HuffmanNode.zero).symbol = (j : Int)
  leafat : ∀ j, Ins j → ∃ i, T (paths j) = some i ∧
    (m.getD i HuffmanNode.zero).symbol = (j : Int)

theorem walkA_append (m : Smap HuffmanNode) :
    ∀ (q1 : List Bool) (node : Nat) (q2 : List Bool),
      walkA m node (q1 ++ q2) =
        match walkA m node q1 with
        | none => none
        | some mid => walkA m mid q2 := by
  intro q1
  induction q1 with
  | nil => intro node q2; rfl
  | cons b bs ih =>
    intro node q2
    show (if (if b then _ else _) = 0 then none else walkA m _ (bs ++ q2)) = _
    by_cases hc : (if b then (m.getD node HuffmanNode.zero).right
        else (m.getD node HuffmanNode.zero).left) = 0
    · rw [if_pos hc]
      show _ = (match (if (if b then _ else _) = 0 then none
        else walkA m _ bs : Option Nat) with
        | none => none | some mid => walkA m mid q2)
      rw [if_pos hc]
    · rw [if_neg hc]
      rw [ih]
      show _ = (match (if (if b then _ else _) = 0 then none
        else walkA m _ bs : Option Nat) with
        | none => none | some mid => walkA m mid q2)
      rw [if_neg hc]

theorem walkA_prefix (m : Smap HuffmanNode) (node : Nat) (q1 q2 : List Bool)
    (i : Nat) (h : walkA m node (q1 ++ q2) = some i) :
    ∃ mid, walkA m node q1 = some mid ∧ walkA m mid q2 = some i := by
  have ha := walkA_append m q1 node q2
  rw [h] at ha
  rcases hw : walkA m node q1 with _ | mid
  · rw [hw] at ha
    exact absurd ha.symm (by simp)
  · rw [hw] at ha
    exact ⟨mid, rfl, ha.symm⟩

/-- A walkable path of length `L` forces at least `L + 1` allocated
nodes: its prefixes reach pairwise distinct indices. -/
theorem walk_length_lt (m : Smap HuffmanNode) (next : Nat)
    (paths : Nat → List Bool) (Ins : Nat → Prop) (T : List Bool → Option Nat)
    (hinv : TrieInv m next paths Ins T) (q : List Bool) (i : Nat)
    (hq : T q = some i) : q.length < next := by
  have hf : ∀ t : Fin (q.length + 1), ∃ it, T (q.take t) = some it := by
    intro ⟨t, ht⟩
    have hsplit : q = q.take t ++ q.drop t := (List.take_append_drop t q).symm
    have := hinv.walk_eq (q.take t)
    rw [hsplit] at hq
    rw [← hinv.walk_eq _] at hq
    obtain ⟨mid, hmid, _⟩ := walkA_prefix m 0 (q.take t) (q.drop t) i hq
    exact ⟨mid, by rw [← hinv.walk_eq]; exact hmid⟩
  choose f hfs using hf
  have hflt : ∀ t, f t < next := fun t => hinv.idx_lt _ _ (hfs t)
  have hinjf : Function.Injective f := by
    intro a b hab
    have := hinv.inj _ _ _ (hfs a) (by rw [hab]; exact hfs b)
    have hlen : (q.take (a : Nat)).length = (q.take (b : Nat)).length := by
      rw [this]
    rw [List.length_take, List.length_take] at hlen
    have ha := a.2
    have hb := b.2
    apply Fin.ext
    omega
  have hcard := Fintype.card_le_of_injective
    (fun t : Fin (q.length + 1) => (⟨f t, hflt t⟩ : Fin next))
    (fun a b hab => hinjf (by simpa using congrArg Fin.val hab))
  simpa using hcard


/-- A successful walk whose intermediate stops are all internal and whose
endpoint carries `sym` is a decode path. -/
theorem walk_pathOk_go (m : Smap HuffmanNode) (t : HuffmanTree) (ht : t.nodes = m)
    (sym : Int) :
    ∀ (bits : List Bool) (node i : Nat), walkA m node bits = some i →
      (∀ q, q.IsPrefix bits → q.length < bits.length → ∀ iq,
        walkA m node q = some iq →
        (m.getD iq HuffmanNode.zero).symbol = -1) →
      (m.getD i HuffmanNode.zero).symbol = sym → sym ≠ -1 →
      pathOk t node bits sym = true := by
  intro bits
  induction bits with
  | nil =>
    intro node i hw hint hsym hne
    have hi : i = node := by
      have h2 : some node = some i := hw
      exact (Option.some.injEq _ _).mp h2.symm
    subst hi
    simp only [pathOk, decide_eq_true_eq]
    rw [ht]
    exact ⟨hsym, hne⟩
  | cons b bs ih =>
    intro node i hw hint hsym hne
    have hch : (if b then (m.getD node HuffmanNode.zero).right
        else (m.getD node HuffmanNode.zero).left) ≠ 0 := by
      intro hc
      rw [walkA, if_pos hc] at hw
      exact absurd hw (by simp)
    rw [walkA, if_neg hch] at hw
    have hroot : (m.getD node HuffmanNode.zero).symbol = -1 :=
      hint [] List.nil_prefix (by simp) node rfl
    simp only [pathOk, Bool.and_eq_true, decide_eq_true_eq]
    rw [ht]
    refine ⟨hroot, hch, ?_⟩
    refine ih _ i hw ?_ hsym hne
    intro q hpre hq iq hwq
    obtain ⟨tl, htl⟩ := hpre
    refine hint (b :: q) ⟨tl, by rw [List.cons_append, htl]⟩ (by simp; omega) iq ?_
    rw [walkA, if_neg hch]
    exact hwq

/-- `b` extends `a`: same symbol, and each present child pointer kept. -/
def nodeExt (a b : HuffmanNode) : Prop :=
  b.symbol = a.symbol ∧ (a.left ≠ 0 → b.left = a.left) ∧
  (a.right ≠ 0 → b.right = a.right)

theorem walkA_ext (m m2 : Smap HuffmanNode) (next : Nat)
    (hext : ∀ i, i < next →
      nodeExt (m.getD i HuffmanNode.zero) (m2.getD i HuffmanNode.zero))
    (hcb : ∀ i, i < next → (m.getD i HuffmanNode.zero).left < next ∧
      (m.getD i HuffmanNode.zero).right < next) :
    ∀ (q : List Bool) (node i : Nat), node < next →
      walkA m node q = some i → walkA m2 node q = some i := by
  intro q
  induction q with
  | nil => intro node i _ hw; exact hw
  | cons b bs ih =>
    intro node i hn hw
    have hch : (if b then (m.getD node HuffmanNode.zero).right
        else (m.getD node HuffmanNode.zero).left) ≠ 0 := by
      intro hc
      rw [walkA, if_pos hc] at hw
      exact absurd hw (by simp)
    rw [walkA, if_neg hch] at hw
    obtain ⟨hsym, hl, hr⟩ := hext node hn
    have hch2 : (if b then (m2.getD node HuffmanNode.zero).right
        else (m2.getD node HuffmanNode.zero).left) =
        (if b then (m.getD node HuffmanNode.zero).right
        else (m.getD node HuffmanNode.zero).left) := by
      cases b with
      | false => exact hl (by simpa using hch)
      | true => exact hr (by simpa using hch)
    rw [walkA, hch2, if_neg hch]
    refine ih _ i ?_ hw
    have h2 := hcb node hn
    cases b with
    | false => simpa using h2.1
    | true => simpa using h2.2

/-- Effect of one arena mutation (attach a fresh node under an empty
child slot) on walks: every new walk is an old walk, or it is the fresh
node reached by one `bset` step from the attachment point. -/
theorem walk_mutate (m : Smap HuffmanNode) (next node : Nat) (bset : Bool)
    (fsym : Int) (hnode : node < next)
    (hslot : (if bset then (m.getD node HuffmanNode.zero).right
      else (m.getD node HuffmanNode.zero).left) = 0)
    (hfresh : ∀ i, next ≤ i → m.getD i HuffmanNode.zero = HuffmanNode.zero)
    (hcb : ∀ i, i < next → (m.getD i HuffmanNode.zero).left < next ∧
      (m.getD i HuffmanNode.zero).right < next) :
    ∀ m2, m2 = (m.set node
      { symbol := (m.getD node HuffmanNode.zero).symbol,
        left := if bset then (m.getD node HuffmanNode.zero).left else next,
        right := if bset then next else (m.getD node HuffmanNode.zero).right }).set
      next { symbol := fsym, left := 0, right := 0 } →
    (∀ i, i < next →
      nodeExt (m.getD i HuffmanNode.zero) (m2.getD i HuffmanNode.zero)) ∧
    (∀ i, i < next + 1 → (m2.getD i HuffmanNode.zero).left < next + 1 ∧
      (m2.getD i HuffmanNode.zero).right < next + 1) ∧
    (∀ i, next + 1 ≤ i → m2.getD i HuffmanNode.zero = HuffmanNode.zero) ∧
    (m2.getD next HuffmanNode.zero = { symbol := fsym, left := 0, right := 0 }) ∧
    ((if bset then (m2.getD node HuffmanNode.zero).right
      else (m2.getD node HuffmanNode.zero).left) = next) ∧
    (∀ start q i, start < next → walkA m2 start q = some i →
      walkA m start q = some i ∨
      (i = next ∧ ∃ q0, q = q0 ++ [bset] ∧ walkA m start q0 = some node)) := by
  intro m2 hm2
  have hget : ∀ i, i ≠ next → i ≠ node →
      m2.getD i HuffmanNode.zero = m.getD i HuffmanNode.zero := by
    intro i h1 h2
    rw [hm2, Smap.getD_set_ne _ _ _ _ _ h1, Smap.getD_set_ne _ _ _ _ _ h2]
  have hgetnode : m2.getD node HuffmanNode.zero =
      { symbol := (m.getD node HuffmanNode.zero).symbol,
        left := if bset then (m.getD node HuffmanNode.zero).left else next,
        right := if bset then next else (m.getD node HuffmanNode.zero).right } := by
    rw [hm2, Smap.getD_set_ne _ _ _ _ _ (by omega), Smap.getD_set_eq]
  have hgetfresh : m2.getD next HuffmanNode.zero =
      { symbol := fsym, left := 0, right := 0 } := by
    rw [hm2, Smap.getD_set_eq]
  have hext : ∀ i, i < next →
      nodeExt (m.getD i HuffmanNode.zero) (m2.getD i HuffmanNode.zero) := by
    intro i hi
    by_cases hieq : i = node
    · subst hieq
      rw [hgetnode]
      refine ⟨rfl, ?_, ?_⟩
      · intro h
        cases bset with
        | true => simp
        | false => exact absurd (by simpa using hslot) h
      · intro h
        cases bset with
        | false => simp
        | true => exact absurd (by simpa using hslot) h
    · rw [hget i (by omega) hieq]
      exact ⟨rfl, fun _ => rfl, fun _ => rfl⟩
  have hslotn : ∀ c : Bool,
      (if c then (m2.getD node HuffmanNode.zero).right
        else (m2.getD node HuffmanNode.zero).left) =
      (if c = bset then next else
        (if c then (m.getD node HuffmanNode.zero).right
          else (m.getD node HuffmanNode.zero).left)) := by
    intro c
    rw [hgetnode]
    cases c <;> cases bset <;> simp
  have hfreshwalk : ∀ (ds : List Bool) (d : Bool),
      walkA m2 next (d :: ds) = none := by
    intro ds d
    rw [walkA, hgetfresh]
    cases d <;> rfl
  refine ⟨hext, ?_, ?_, hgetfresh, by rw [hslotn bset]; simp, ?_⟩
  · intro i hi
    by_cases hien : i = next
    · subst hien
      rw [hgetfresh]
      exact ⟨Nat.succ_pos _, Nat.succ_pos _⟩
    · have hilt : i < next := by omega
      by_cases hieq : i = node
      · subst hieq
        rw [hgetnode]
        have h2 := hcb i hilt
        constructor
        · show (if bset then (m.getD i HuffmanNode.zero).left else next) < next + 1
          cases bset with
          | false => simp
          | true => simp; omega
        · show (if bset then next else (m.getD i HuffmanNode.zero).right) < next + 1
          cases bset with
          | false => simp; omega
          | true => simp
      · rw [hget i hien hieq]
        have h2 := hcb i hilt
        omega
  · intro i hi
    rw [hget i (by omega) (by omega)]
    exact hfresh i (by omega)
  · intro start q
    induction q generalizing start with
    | nil =>
      intro i hs hw
      left
      exact hw
    | cons c cs ih =>
      intro i hs hw
      by_cases hsn : start = node
      · subst hsn
        by_cases hcb2 : c = bset
        · rw [walkA, hslotn c, if_pos hcb2] at hw
          rw [if_neg (by omega : ¬ next = 0)] at hw
          cases cs with
          | nil =>
            right
            have h2 : some next = some i := hw
            refine ⟨((Option.some.injEq _ _).mp h2).symm, [], ?_, rfl⟩
            rw [hcb2]
            rfl
          | cons d ds =>
            rw [hfreshwalk ds d] at hw
            exact absurd hw (by simp)
        · rw [walkA, hslotn c, if_neg hcb2] at hw
          by_cases hz : (if c then (m.getD start HuffmanNode.zero).right
              else (m.getD start HuffmanNode.zero).left) = 0
          · rw [if_pos hz] at hw
            exact absurd hw (by simp)
          · rw [if_neg hz] at hw
            have hchlt : (if c then (m.getD start HuffmanNode.zero).right
                else (m.getD start HuffmanNode.zero).left) < next := by
              have h2 := hcb start hs
              cases c with
              | false => simpa using h2.1
              | true => simpa using h2.2
            rcases ih _ i hchlt hw with hold | ⟨hi2, q0, hq0, hwq0⟩
            · left
              rw [walkA, if_neg hz]
              exact hold
            · right
              refine ⟨hi2, c :: q0, by rw [hq0]; rfl, ?_⟩
              rw [walkA, if_neg hz]
              exact hwq0
      · have hcell : m2.getD start HuffmanNode.zero =
            m.getD start HuffmanNode.zero := hget start (by omega) hsn
        rw [walkA, hcell] at hw
        by_cases hz : (if c then (m.getD start HuffmanNode.zero).right
            else (m.getD start HuffmanNode.zero).left) = 0
        · rw [if_pos hz] at hw
          exact absurd hw (by simp)
        · rw [if_neg hz] at hw
          have hchlt : (if c then (m.getD start HuffmanNode.zero).right
              else (m.getD start HuffmanNode.zero).left) < next := by
            have h2 := hcb start hs
            cases c with
            | false => simpa using h2.1
            | true => simpa using h2.2
          rcases ih _ i hchlt hw with hold | ⟨hi2, q0, hq0, hwq0⟩
          · left
            rw [walkA, if_neg hz]
            exact hold
          · right
            refine ⟨hi2, c :: q0, by rw [hq0]; rfl, ?_⟩
            rw [walkA, if_neg hz]
            exact hwq0


/-! ### One insertion step extends the trie invariant -/

/-- Core of a single trie mutation: attaching a fresh node (symbol
`fsym`) under the empty `bset` slot of the node at the end of path `P`
turns the walk table `T` into `T2` (one new entry at `P ++ [bset]`). -/
theorem trie_core (m : Smap HuffmanNode) (next node : Nat) (bset : Bool)
    (fsym : Int) (paths : Nat → List Bool) (Ins : Nat → Prop)
    (T T2 : List Bool → Option Nat) (P : List Bool)
    (hinv : TrieInv m next paths Ins T) (h1 : 1 ≤ next)
    (hTP : T P = some node)
    (hslot : (if bset then (m.getD node HuffmanNode.zero).right
      else (m.getD node HuffmanNode.zero).left) = 0)
    (m2 : Smap HuffmanNode)
    (hm2 : m2 = (m.set node
      { symbol := (m.getD node HuffmanNode.zero).symbol,
        left := if bset then (m.getD node HuffmanNode.zero).left else next,
        right := if bset then next else (m.getD node HuffmanNode.zero).right }).set
      next { symbol := fsym, left := 0, right := 0 })
    (hT2 : T2 = fun q => if q = P ++ [bset] then some next else T q) :
    (∀ q, walkA m2 0 q = T2 q) ∧
    (∀ q i, T2 q = some i → i < next + 1) ∧
    (∀ q r i, T2 q = some i → T2 r = some i → q = r) ∧
    (∀ i, i < next + 1 → (m2.getD i HuffmanNode.zero).left < next + 1 ∧
      (m2.getD i HuffmanNode.zero).right < next + 1) ∧
    (∀ i, next + 1 ≤ i → m2.getD i HuffmanNode.zero = HuffmanNode.zero) ∧
    (∀ i, i < next → (m2.getD i HuffmanNode.zero).symbol =
      (m.getD i HuffmanNode.zero).symbol) ∧
    (m2.getD next HuffmanNode.zero = { symbol := fsym, left := 0, right := 0 }) ∧
    (T (P ++ [bset]) = none) ∧
    (∀ q i, T q = some i → T2 q = some i ∧ i < next) := by
  have hnode : node < next := hinv.idx_lt _ _ hTP
  obtain ⟨hext, hcb2, hfresh2, hgetfresh, hslot2, hchar⟩ :=
    walk_mutate m next node bset fsym hnode hslot hinv.fresh hinv.childb m2 hm2
  have hsympres : ∀ i, i < next → (m2.getD i HuffmanNode.zero).symbol =
      (m.getD i HuffmanNode.zero).symbol := fun i hi => (hext i hi).1
  have hTnone : T (P ++ [bset]) = none := by
    rcases hTx : T (P ++ [bset]) with _ | i
    · rfl
    · exfalso
      have hwx : walkA m 0 (P ++ [bset]) = some i := by
        rw [hinv.walk_eq]; exact hTx
      obtain ⟨mid, hmid, hstep⟩ := walkA_prefix m 0 P [bset] i hwx
      have hmn : mid = node := by
        have h2 : walkA m 0 P = T P := hinv.walk_eq P
        rw [hmid, hTP] at h2
        exact (Option.some.injEq _ _).mp h2
      subst hmn
      rw [walkA, if_pos hslot] at hstep
      exact absurd hstep (by simp)
  have hpreserve : ∀ q i, walkA m 0 q = some i → walkA m2 0 q = some i := by
    intro q i hw
    exact walkA_ext m m2 next hext hinv.childb q 0 i (by omega) hw
  have hnew : walkA m2 0 (P ++ [bset]) = some next := by
    rw [walkA_append]
    have hP2 : walkA m2 0 P = some node :=
      hpreserve P node (by rw [hinv.walk_eq]; exact hTP)
    rw [hP2]
    show walkA m2 node (bset :: []) = some next
    rw [walkA, hslot2, if_neg (by omega : ¬ next = 0)]
    rfl
  have hwalk2 : ∀ q, walkA m2 0 q = T2 q := by
    intro q
    by_cases hq : q = P ++ [bset]
    · subst hq
      rw [hT2]
      simp only [if_pos rfl]
      exact hnew
    · rw [hT2]
      simp only [if_neg hq]
      rcases hTq : T q with _ | i
      · rcases hw2 : walkA m2 0 q with _ | i2
        · rfl
        · exfalso
          rcases hchar 0 q i2 (by omega) hw2 with hold | ⟨hi2, q0, hq0, hwq0⟩
          · rw [hinv.walk_eq, hTq] at hold
            exact absurd hold (by simp)
          · have hq0P : q0 = P := by
              refine hinv.inj q0 P node ?_ hTP
              rw [← hinv.walk_eq]; exact hwq0
            rw [hq0P] at hq0
            exact hq hq0
      · exact hpreserve q i (by rw [hinv.walk_eq]; exact hTq)
  have hidx : ∀ q i, T2 q = some i → i < next + 1 := by
    intro q i h
    simp only [hT2] at h
    by_cases hq : q = P ++ [bset]
    · rw [if_pos hq] at h
      have := (Option.some.injEq _ _).mp h
      omega
    · rw [if_neg hq] at h
      have := hinv.idx_lt q i h
      omega
  have hinj : ∀ q r i, T2 q = some i → T2 r = some i → q = r := by
    intro q r i hq hr
    simp only [hT2] at hq hr
    by_cases h1q : q = P ++ [bset] <;> by_cases h1r : r = P ++ [bset]
    · rw [h1q, h1r]
    · rw [if_pos h1q] at hq
      rw [if_neg h1r] at hr
      have hi : i = next := ((Option.some.injEq _ _).mp hq).symm
      rw [hi] at hr
      exact absurd (hinv.idx_lt r next hr) (by omega)
    · rw [if_neg h1q] at hq
      rw [if_pos h1r] at hr
      have hi : i = next := ((Option.some.injEq _ _).mp hr).symm
      rw [hi] at hq
      exact absurd (hinv.idx_lt q next hq) (by omega)
    · rw [if_neg h1q] at hq
      rw [if_neg h1r] at hr
      exact hinv.inj q r i hq hr
  have hextend : ∀ q i, T q = some i → T2 q = some i ∧ i < next := by
    intro q i h
    have hq : q ≠ P ++ [bset] := by
      intro hc
      rw [hc, hTnone] at h
      exact absurd h (by simp)
    simp only [hT2]
    exact ⟨by simp only [if_neg hq]; exact h, hinv.idx_lt q i h⟩
  exact ⟨hwalk2, hidx, hinj, hcb2, hfresh2, hsympres, hgetfresh, hTnone, hextend⟩

/-- Allocating an internal node (`symbol = -1`) preserves the invariant
with the same inserted set. -/
theorem trie_alloc (m : Smap HuffmanNode) (next node : Nat) (bset : Bool)
    (paths : Nat → List Bool) (Ins : Nat → Prop)
    (T : List Bool → Option Nat) (P : List Bool)
    (hinv : TrieInv m next paths Ins T) (h1 : 1 ≤ next)
    (hTP : T P = some node)
    (hslot : (if bset then (m.getD node HuffmanNode.zero).right
      else (m.getD node HuffmanNode.zero).left) = 0)
    (m2 : Smap HuffmanNode)
    (hm2 : m2 = (m.set node
      { symbol := (m.getD node HuffmanNode.zero).symbol,
        left := if bset then (m.getD node HuffmanNode.zero).left else next,
        right := if bset then next else (m.getD node HuffmanNode.zero).right }).set
      next { symbol := -1, left := 0, right := 0 }) :
    ∃ T2, TrieInv m2 (next + 1) paths Ins T2 ∧
      T2 (P ++ [bset]) = some next ∧
      (∀ q i, T q = some i → T2 q = some i) := by
  obtain ⟨hwalk2, hidx, hinj, hcb2, hfresh2, hsympres, hgetfresh, hTnone, hextend⟩ :=
    trie_core m next node bset (-1) paths Ins T
      (fun q => if q = P ++ [bset] then some next else T q) P hinv h1 hTP hslot m2
      hm2 rfl
  refine ⟨fun q => if q = P ++ [bset] then some next else T q,
    ⟨hwalk2, hidx, hinj, hcb2, hfresh2, ?_, ?_⟩, by simp,
    fun q i h => (hextend q i h).1⟩
  · intro q i hq hsy
    by_cases hqe : q = P ++ [bset]
    · exfalso
      rw [if_pos hqe] at hq
      have hi : i = next := ((Option.some.injEq _ _).mp hq).symm
      subst hi
      rw [hgetfresh] at hsy
      exact hsy rfl
    · rw [if_neg hqe] at hq
      have hlt := hinv.idx_lt q i hq
      rw [hsympres i hlt] at hsy
      obtain ⟨j, hj1, hj2, hj3⟩ := hinv.syms q i hq hsy
      exact ⟨j, hj1, hj2, by rw [hsympres i hlt]; exact hj3⟩
  · intro j hj
    obtain ⟨i, hi1, hi2⟩ := hinv.leafat j hj
    obtain ⟨hT2, hlt⟩ := hextend _ i hi1
    exact ⟨i, hT2, by rw [hsympres i hlt]; exact hi2⟩

/-- Placing the leaf of symbol `sym` at the end of its codeword path
extends the inserted set with `sym`. -/
theorem trie_leaf (m : Smap HuffmanNode) (next node sym : Nat) (bset : Bool)
    (paths : Nat → List Bool) (Ins : Nat → Prop)
    (T : List Bool → Option Nat) (P : List Bool)
    (hinv : TrieInv m next paths Ins T) (h1 : 1 ≤ next)
    (hTP : T P = some node)
    (hslot : (if bset then (m.getD node HuffmanNode.zero).right
      else (m.getD node HuffmanNode.zero).left) = 0)
    (hpath : paths sym = P ++ [bset])
    (m2 : Smap HuffmanNode)
    (hm2 : m2 = (m.set node
      { symbol := (m.getD node HuffmanNode.zero).symbol,
        left := if bset then (m.getD node HuffmanNode.zero).left else next,
        right := if bset then next else (m.getD node HuffmanNode.zero).right }).set
      next { symbol := (sym : Int), left := 0, right := 0 }) :
    ∃ T2, TrieInv m2 (next + 1) paths (fun j => Ins j ∨ j = sym) T2 ∧
      (∀ q i, T q = some i → T2 q = some i) := by
  obtain ⟨hwalk2, hidx, hinj, hcb2, hfresh2, hsympres, hgetfresh, hTnone, hextend⟩ :=
    trie_core m next node bset (sym : Int) paths Ins T
      (fun q => if q = P ++ [bset] then some next else T q) P hinv h1 hTP hslot m2
      hm2 rfl
  refine ⟨fun q => if q = P ++ [bset] then some next else T q,
    ⟨hwalk2, hidx, hinj, hcb2, hfresh2, ?_, ?_⟩,
    fun q i h => (hextend q i h).1⟩
  · intro q i hq hsy
    by_cases hqe : q = P ++ [bset]
    · rw [if_pos hqe] at hq
      have hi : i = next := ((Option.some.injEq _ _).mp hq).symm
      subst hi
      refine ⟨sym, Or.inr rfl, by rw [hpath, hqe], by rw [hgetfresh]⟩
    · rw [if_neg hqe] at hq
      have hlt := hinv.idx_lt q i hq
      rw [hsympres i hlt] at hsy
      obtain ⟨j, hj1, hj2, hj3⟩ := hinv.syms q i hq hsy
      exact ⟨j, Or.inl hj1, hj2, by rw [hsympres i hlt]; exact hj3⟩
  · intro j hj
    rcases hj with hj | hj
    · obtain ⟨i, hi1, hi2⟩ := hinv.leafat j hj
      obtain ⟨hT2, hlt⟩ := hextend _ i hi1
      exact ⟨i, hT2, by rw [hsympres i hlt]; exact hi2⟩
    · subst hj
      refine ⟨next, ?_, by rw [hgetfresh]⟩
      rw [hpath]
      simp


/-- Simulation of the per-symbol insertion walk `insertLoopF`: starting
at the node reached by path `P` with the remaining codeword bits `rem`
(the LSB-first expansion of `reversed` from position `b`), a successful
insertion extends the trie with symbol `sym` at path `P ++ rem`,
preserving all established walks. -/
theorem insertLoop_sim (cap sym len reversed : Nat) (paths : Nat → List Bool) :
    ∀ (rem : List Bool) (b : Nat) (m : Smap HuffmanNode) (next node : Nat)
      (Ins : Nat → Prop) (T : List Bool → Option Nat) (P : List Bool)
      (ar2 : Arena),
      TrieInv m next paths Ins T →
      1 ≤ next → next ≤ cap →
      T P = some node →
      b < len →
      natBits (reversed >>> b) (len - b) = rem →
      paths sym = P ++ rem →
      insertLoopF cap sym reversed len (len - b) ⟨m, next⟩ node b = .ok ar2 →
      ∃ T2, TrieInv ar2.nodes ar2.next paths (fun j => Ins j ∨ j = sym) T2 ∧
        next ≤ ar2.next ∧ ar2.next ≤ cap ∧
        (∀ q i, T q = some i → T2 q = some i) := by
  intro rem
  induction rem with
  | nil =>
    intro b m next node Ins T P ar2 hinv h1 hcap hTP hb hrem hpath hrun
    exfalso
    have hlenz := congrArg List.length hrem
    rw [natBits_length] at hlenz
    simp at hlenz
    omega
  | cons b0 rest ih =>
    intro b m next node Ins T P ar2 hinv h1 hcap hTP hb hrem hpath hrun
    obtain ⟨k, hk⟩ : ∃ k, len - b = k + 1 := ⟨len - b - 1, by omega⟩
    rw [hk, natBits] at hrem
    have hb0 : b0 = decide ((reversed >>> b) % 2 = 1) :=
      (((List.cons.injEq _ _ _ _).mp hrem).1).symm
    have hrest : natBits (reversed >>> b / 2) k = rest :=
      ((List.cons.injEq _ _ _ _).mp hrem).2
    have hand : (reversed >>> b) &&& 1 = (reversed >>> b) % 2 := by
      have h2 : (1 : Nat) = 2 ^ 1 - 1 := by norm_num
      rw [h2, Nat.and_pow_two_sub_one_eq_mod, pow_one]
    have hshr : reversed >>> (b + 1) = reversed >>> b / 2 :=
      Nat.shiftRight_succ reversed b
    rw [hk] at hrun
    simp only [insertLoopF] at hrun
    by_cases hbl : b + 1 < len
    · -- interior step
      rw [if_pos hbl] at hrun
      by_cases hbit : (reversed >>> b) &&& 1 = 0
      · -- walk left
        have hb0f : b0 = false := by
          have hm0 : (reversed >>> b) % 2 = 0 := by rw [← hand]; exact hbit
          rw [hb0, hm0]
          rfl
        rw [if_pos hbit] at hrun
        by_cases hch : (m.getD node HuffmanNode.zero).left = 0
        · -- allocate an internal node
          rw [if_pos hch] at hrun
          by_cases hcap2 : cap ≤ next
          · rw [if_pos hcap2] at hrun
            exact absurd hrun (by simp)
          · rw [if_neg hcap2] at hrun
            rw [if_pos hbit] at hrun
            obtain ⟨T1, hinv1, hT1P, hext1⟩ := trie_alloc m next node false paths
              Ins T P hinv h1 hTP (by simpa using hch)
              ((m.set node { m.getD node HuffmanNode.zero with
                left := next }).set next { symbol := -1, left := 0, right := 0 })
              (by simp)
            rw [show k = len - (b + 1) by omega] at hrun
            obtain ⟨T2, hinv2, hn1, hn2, hext2⟩ := ih (b + 1)
              ((m.set node { m.getD node HuffmanNode.zero with
                left := next }).set next { symbol := -1, left := 0, right := 0 })
              (next + 1) next Ins T1 (P ++ [false]) ar2 hinv1 (by omega)
              (by omega) hT1P hbl
              (by rw [hshr, show len - (b + 1) = k by omega]; exact hrest)
              (by rw [hpath, hb0f]; simp) hrun
            exact ⟨T2, hinv2, by omega, hn2,
              fun q i h => hext2 q i (hext1 q i h)⟩
        · -- follow the existing left child
          rw [if_neg hch] at hrun
          have hTP2 : T (P ++ [false]) = some (m.getD node HuffmanNode.zero).left := by
            rw [← hinv.walk_eq, walkA_append]
            rw [show walkA m 0 P = some node by rw [hinv.walk_eq]; exact hTP]
            show walkA m node (false :: []) = _
            rw [walkA]
            rw [if_neg (by simpa using hch)]
            rfl
          rw [show k = len - (b + 1) by omega] at hrun
          obtain ⟨T2, hinv2, hn1, hn2, hext2⟩ := ih (b + 1) m next
            (m.getD node HuffmanNode.zero).left Ins T (P ++ [false]) ar2 hinv h1
            hcap hTP2 hbl
            (by rw [hshr, show len - (b + 1) = k by omega]; exact hrest)
            (by rw [hpath, hb0f]; simp) hrun
          exact ⟨T2, hinv2, hn1, hn2, hext2⟩
      · -- walk right
        have hb0t : b0 = true := by
          have hm1 : (reversed >>> b) % 2 = 1 := by
            rw [← hand]
            have := Nat.and_le_right (n := reversed >>> b) (m := 1)
            omega
          rw [hb0, hm1]
          rfl
        rw [if_neg hbit] at hrun
        by_cases hch : (m.getD node HuffmanNode.zero).right = 0
        · rw [if_pos hch] at hrun
          by_cases hcap2 : cap ≤ next
          · rw [if_pos hcap2] at hrun
            exact absurd hrun (by simp)
          · rw [if_neg hcap2] at hrun
            rw [if_neg hbit] at hrun
            obtain ⟨T1, hinv1, hT1P, hext1⟩ := trie_alloc m next node true paths
              Ins T P hinv h1 hTP (by simpa using hch)
              ((m.set node { m.getD node HuffmanNode.zero with
                right := next }).set next { symbol := -1, left := 0, right := 0 })
              (by simp)
            rw [show k = len - (b + 1) by omega] at hrun
            obtain ⟨T2, hinv2, hn1, hn2, hext2⟩ := ih (b + 1)
              ((m.set node { m.getD node HuffmanNode.zero with
                right := next }).set next { symbol := -1, left := 0, right := 0 })
              (next + 1) next Ins T1 (P ++ [true]) ar2 hinv1 (by omega)
              (by omega) hT1P hbl
              (by rw [hshr, show len - (b + 1) = k by omega]; exact hrest)
              (by rw [hpath, hb0t]; simp) hrun
            exact ⟨T2, hinv2, by omega, hn2,
              fun q i h => hext2 q i (hext1 q i h)⟩
        · rw [if_neg hch] at hrun
          have hTP2 : T (P ++ [true]) = some (m.getD node HuffmanNode.zero).right := by
            rw [← hinv.walk_eq, walkA_append]
            rw [show walkA m 0 P = some node by rw [hinv.walk_eq]; exact hTP]
            show walkA m node (true :: []) = _
            rw [walkA]
            rw [if_neg (by simpa using hch)]
            rfl
          rw [show k = len - (b + 1) by omega] at hrun
          obtain ⟨T2, hinv2, hn1, hn2, hext2⟩ := ih (b + 1) m next
            (m.getD node HuffmanNode.zero).right Ins T (P ++ [true]) ar2 hinv h1
            hcap hTP2 hbl
            (by rw [hshr, show len - (b + 1) = k by omega]; exact hrest)
            (by rw [hpath, hb0t]; simp) hrun
          exact ⟨T2, hinv2, hn1, hn2, hext2⟩
    · -- final bit: place the leaf
      have hrest0 : rest = [] := by
        rw [← hrest, show k = 0 by omega]
        rfl
      rw [if_neg hbl] at hrun
      simp only [insertLeaf] at hrun
      by_cases hbit : (reversed >>> b) &&& 1 = 0
      · have hb0f : b0 = false := by
          have hm0 : (reversed >>> b) % 2 = 0 := by rw [← hand]; exact hbit
          rw [hb0, hm0]
          rfl
        rw [if_pos hbit] at hrun
        by_cases hL : (m.getD node HuffmanNode.zero).left ≠ 0
        · rw [if_pos hL] at hrun
          exact absurd hrun (by simp)
        · rw [if_neg hL] at hrun
          by_cases hcap2 : cap ≤ next
          · rw [if_pos hcap2] at hrun
            exact absurd hrun (by simp)
          · rw [if_neg hcap2] at hrun
            have har2 : ar2 = ⟨(m.set node { m.getD node HuffmanNode.zero with
                left := next }).set next
                { symbol := (sym : Int), left := 0, right := 0 }, next + 1⟩ := by
              have h2 := hrun
              injection h2 with h3
              exact h3.symm
            obtain ⟨T2, hinv2, hext2⟩ := trie_leaf m next node sym false paths
              Ins T P hinv h1 hTP (by simpa using hL)
              (by rw [hpath, hb0f, hrest0])
              ((m.set node { m.getD node HuffmanNode.zero with
                left := next }).set next
                { symbol := (sym : Int), left := 0, right := 0 })
              (by simp)
            rw [har2]
            exact ⟨T2, hinv2, by show next ≤ next + 1; omega,
              by show next + 1 ≤ cap; omega, hext2⟩
      · have hb0t : b0 = true := by
          have hm1 : (reversed >>> b) % 2 = 1 := by
            rw [← hand]
            have := Nat.and_le_right (n := reversed >>> b) (m := 1)
            omega
          rw [hb0, hm1]
          rfl
        rw [if_neg hbit] at hrun
        by_cases hR : (m.getD node HuffmanNode.zero).right ≠ 0
        · rw [if_pos hR] at hrun
          exact absurd hrun (by simp)
        · rw [if_neg hR] at hrun
          by_cases hcap2 : cap ≤ next
          · rw [if_pos hcap2] at hrun
            exact absurd hrun (by simp)
          · rw [if_neg hcap2] at hrun
            have har2 : ar2 = ⟨(m.set node { m.getD node HuffmanNode.zero with
                right := next }).set next
                { symbol := (sym : Int), left := 0, right := 0 }, next + 1⟩ := by
              have h2 := hrun
              injection h2 with h3
              exact h3.symm
            obtain ⟨T2, hinv2, hext2⟩ := trie_leaf m next node sym true paths
              Ins T P hinv h1 hTP (by simpa using hR)
              (by rw [hpath, hb0t, hrest0])
              ((m.set node { m.getD node HuffmanNode.zero with
                right := next }).set next
                { symbol := (sym : Int), left := 0, right := 0 })
              (by simp)
            rw [har2]
            exact ⟨T2, hinv2, by show next ≤ next + 1; omega,
              by show next + 1 ≤ cap; omega, hext2⟩


theorem TrieInv_congr (m : Smap HuffmanNode) (next : Nat)
    (paths : Nat → List Bool) (Ins Ins2 : Nat → Prop)
    (T : List Bool → Option Nat) (h : ∀ j, Ins j ↔ Ins2 j)
    (hinv : TrieInv m next paths Ins T) : TrieInv m next paths Ins2 T :=
  ⟨hinv.walk_eq, hinv.idx_lt, hinv.inj, hinv.childb, hinv.fresh,
   fun q i hq hs =>
     match hinv.syms q i hq hs with
     | ⟨j, h1, h2, h3⟩ => ⟨j, (h j).mp h1, h2, h3⟩,
   fun j hj => hinv.leafat j ((h j).mpr hj)⟩

theorem symFold_fail (lens : List Nat) (cap : Nat) :
    ∀ l : List Nat, l.foldl (symStep lens cap) .fail = .fail := by
  intro l
  induction l with
  | nil => rfl
  | cons a t ih =>
    rw [List.foldl_cons]
    exact ih

theorem symFold_ub (lens : List Nat) (cap : Nat) :
    ∀ l : List Nat, l.foldl (symStep lens cap) .ub = .ub := by
  intro l
  induction l with
  | nil => rfl
  | cons a t ih =>
    rw [List.foldl_cons]
    exact ih

theorem codesGoF_length (counts : List Nat) (maxl : Nat) :
    ∀ f len code codes,
      (codesGoF counts maxl f len code codes).length = codes.length := by
  intro f
  induction f with
  | zero => intro len code codes; rfl
  | succ g ih =>
    intro len code codes
    rw [codesGoF]
    by_cases h : len ≤ maxl
    · rw [if_pos h, ih, List.length_set]
    · rw [if_neg h]

/-- The invariant holds for the one-node arena `build_from_lengths`
starts from. -/
theorem trie_init (paths : Nat → List Bool) (Ins0 : Nat → Prop)
    (hIns0 : ∀ j, ¬ Ins0 j) :
    TrieInv (Smap.empty.set 0 { symbol := -1, left := 0, right := 0 }) 1 paths
      Ins0 (fun q => if q = [] then some 0 else none) := by
  have hg : (Smap.empty.set 0
      { symbol := -1, left := 0, right := 0 }).getD 0 HuffmanNode.zero =
      { symbol := -1, left := 0, right := 0 } := Smap.getD_set_eq _ _ _ _
  refine ⟨?_, ?_, ?_, ?_, ?_, ?_, ?_⟩
  · intro q
    cases q with
    | nil => rfl
    | cons b bs =>
      rw [walkA, hg]
      have hz : (if b then ({ symbol := -1, left := 0, right := 0 } :
          HuffmanNode).right else ({ symbol := -1, left := 0, right := 0 } :
          HuffmanNode).left) = 0 := by cases b <;> rfl
      rw [hz, if_pos rfl]
      simp
  · intro q i h
    by_cases hq : q = []
    · rw [if_pos hq] at h
      have h2 := (Option.some.injEq _ _).mp h
      omega
    · rw [if_neg hq] at h
      exact absurd h (by simp)
  · intro q r i hq hr
    by_cases h1q : q = [] <;> by_cases h1r : r = []
    · rw [h1q, h1r]
    · rw [if_neg h1r] at hr
      exact absurd hr (by simp)
    · rw [if_neg h1q] at hq
      exact absurd hq (by simp)
    · rw [if_neg h1q] at hq
      exact absurd hq (by simp)
  · intro i hi
    have hi0 : i = 0 := by omega
    subst hi0
    rw [hg]
    exact ⟨Nat.succ_pos _, Nat.succ_pos _⟩
  · intro i hi
    rw [Smap.getD_set_ne _ _ _ _ _ (by omega)]
    show (Smap.empty.get? i).getD HuffmanNode.zero = HuffmanNode.zero
    rw [Smap.get?_empty]
    rfl
  · intro q i hq hs
    exfalso
    by_cases h1q : q = []
    · rw [if_pos h1q] at hq
      have h2 := (Option.some.injEq _ _).mp hq
      rw [← h2, hg] at hs
      exact hs rfl
    · rw [if_neg h1q] at hq
      exact absurd hq (by simp)
  · intro j hj
    exact absurd hj (hIns0 j)


theorem natBits_revLoop (v len : Nat) :
    natBits (revLoop v 0 len) len = (natBits v len).reverse := by
  rw [revLoop_spec]
  simp only [Nat.zero_mul, Nat.zero_add]
  have h2 := natBits_bitsToNat ((natBits v len).reverse)
  rw [List.length_reverse, natBits_length] at h2
  exact h2

/-- Invariant of the symbol-insertion fold of `build_from_lengths`:
after the first `k` symbols, each `codes[l]` equals the first code of
length `l` plus the number of symbols of length `l` already consumed,
and the arena is a correct trie for the canonical codewords of the
consumed nonzero-length symbols. -/
theorem symFold_inv (lens : List Nat) (n cap maxl : Nat) (codes0 : List Nat)
    (hcap : 1 ≤ cap)
    (hmaxb : ∀ i, i < n → lens.getD i 0 ≤ maxl)
    (hm15 : maxl ≤ 15)
    (hlen0 : codes0.length = 16)
    (hcodes0 : ∀ l, 1 ≤ l → l ≤ maxl → codes0.getD l 0 = specCode lens n l)
    (codesN : List Nat) (arN : Arena)
    (hfoldN : (List.range n).foldl (symStep lens cap)
      (.ok codes0 ⟨Smap.empty.set 0 { symbol := -1, left := 0, right := 0 }, 1⟩) =
      .ok codesN arN) :
    ∀ k, k ≤ n →
      ∃ codes ar T,
        (List.range k).foldl (symStep lens cap)
          (.ok codes0 ⟨Smap.empty.set 0 { symbol := -1, left := 0, right := 0 },
            1⟩) = .ok codes ar ∧
        codes.length = 16 ∧
        (∀ l, 1 ≤ l → l ≤ maxl →
          codes.getD l 0 = specCode lens n l + blCount lens k l) ∧
        TrieInv ar.nodes ar.next (fun j => specBits lens n j)
          (fun j => j < k ∧ lens.getD j 0 ≠ 0) T ∧
        1 ≤ ar.next ∧ ar.next ≤ cap := by
  have hbl0 : ∀ l, blCount lens 0 l = 0 := by
    intro l
    rw [blCount]
    split
    · rfl
    · simp
  intro k
  induction k with
  | zero =>
    intro _
    refine ⟨codes0, _, fun q => if q = [] then some 0 else none, rfl, hlen0,
      ?_, ?_, Nat.le_refl 1, hcap⟩
    · intro l hl1 hl2
      rw [hcodes0 l hl1 hl2, hbl0 l]
      omega
    · exact trie_init _ _ (fun j hj => by omega)
  | succ k ih =>
    intro hk1
    obtain ⟨codes, ar, T, hfold, hlen, hcodes, hinv, h1, hc⟩ := ih (by omega)
    rw [List.range_succ, List.foldl_append, hfold, List.foldl_cons, List.foldl_nil]
    by_cases h0 : lens.getD k 0 = 0
    · refine ⟨codes, ar, T, ?_, hlen, ?_, ?_, h1, hc⟩
      · simp only [symStep]
        rw [if_pos h0]
      · intro l hl1 hl2
        rw [hcodes l hl1 hl2, blCount_succ,
          if_neg (by rintro ⟨ha, hb⟩; rw [h0] at ha; exact hb ha.symm)]
        omega
      · refine TrieInv_congr _ _ _ _ _ _ (fun j => ?_) hinv
        constructor
        · rintro ⟨hj, hjn⟩
          exact ⟨by omega, hjn⟩
        · rintro ⟨hj, hjn⟩
          refine ⟨?_, hjn⟩
          rcases Nat.lt_succ_iff_lt_or_eq.mp hj with h | h
          · exact h
          · exfalso
            rw [h, h0] at hjn
            exact hjn rfl
    · have hl1 : 1 ≤ lens.getD k 0 := by omega
      have hlm : lens.getD k 0 ≤ maxl := hmaxb k (by omega)
      have hcv : codes.getD (lens.getD k 0) 0 = specCanon lens n k := by
        rw [hcodes _ hl1 hlm, specCanon, specRank_eq_blCount lens k h0]
      rcases hins : insertLoop cap k (revLoop (codes.getD (lens.getD k 0) 0) 0
          (lens.getD k 0)) (lens.getD k 0) ar 0 0 with ar2 | - | -
      · -- insertion succeeded
        have hrem : natBits (revLoop (codes.getD (lens.getD k 0) 0) 0
            (lens.getD k 0) >>> 0) (lens.getD k 0 - 0) = specBits lens n k := by
          rw [Nat.shiftRight_zero, Nat.sub_zero, hcv, natBits_revLoop, specBits]
        obtain ⟨T2, hinv2, hn1, hn2, hext2⟩ := insertLoop_sim cap k
          (lens.getD k 0)
          (revLoop (codes.getD (lens.getD k 0) 0) 0 (lens.getD k 0))
          (fun j => specBits lens n j) (specBits lens n k) 0 ar.nodes ar.next 0
          (fun j => j < k ∧ lens.getD j 0 ≠ 0) T [] ar2 hinv h1 hc
          (by rw [← hinv.walk_eq]; rfl) (by omega) hrem (by simp) hins
        refine ⟨codes.set (lens.getD k 0) (codes.getD (lens.getD k 0) 0 + 1),
          ar2, T2, ?_, by rw [List.length_set]; exact hlen, ?_, ?_, by omega, hn2⟩
        · simp only [symStep]
          rw [if_neg h0, hins]
        · intro l hl1b hl2b
          by_cases hle : l = lens.getD k 0
          · subst hle
            rw [getD_set_eq_list _ _ _ (by rw [hlen]; omega)]
            rw [hcodes _ hl1b hl2b, blCount_succ, if_pos ⟨rfl, by omega⟩]
            omega
          · rw [getD_set_ne_list _ _ _ _ (fun hcc => hle hcc.symm)]
            rw [hcodes l hl1b hl2b, blCount_succ,
              if_neg (by rintro ⟨ha, _⟩; exact hle ha.symm)]
            omega
        · refine TrieInv_congr _ _ _ _ _ _ (fun j => ?_) hinv2
          constructor
          · rintro (⟨hj, hjn⟩ | hj)
            · exact ⟨by omega, hjn⟩
            · rw [hj]
              exact ⟨by omega, h0⟩
          · rintro ⟨hj, hjn⟩
            rcases Nat.lt_succ_iff_lt_or_eq.mp hj with h | h
            · exact Or.inl ⟨h, hjn⟩
            · exact Or.inr h
      · -- insertion failed: the whole fold would fail
        exfalso
        have hstep : symStep lens cap (.ok codes ar) k = .fail := by
          simp only [symStep]
          rw [if_neg h0, hins]
        have hdec := List.range_add (k + 1) (n - (k + 1))
        rw [show k + 1 + (n - (k + 1)) = n by omega] at hdec
        rw [hdec, List.foldl_append] at hfoldN
        rw [List.range_succ, List.foldl_append, hfold, List.foldl_cons,
          List.foldl_nil] at hfoldN
        rw [hstep, symFold_fail] at hfoldN
        exact absurd hfoldN (by simp)
      · exfalso
        have hstep : symStep lens cap (.ok codes ar) k = .ub := by
          simp only [symStep]
          rw [if_neg h0, hins]
        have hdec := List.range_add (k + 1) (n - (k + 1))
        rw [show k + 1 + (n - (k + 1)) = n by omega] at hdec
        rw [hdec, List.foldl_append] at hfoldN
        rw [List.range_succ, List.foldl_append, hfold, List.foldl_cons,
          List.foldl_nil] at hfoldN
        rw [hstep, symFold_ub] at hfoldN
        exact absurd hfoldN (by simp)


/-- Claim C7 (amended): canonical-Huffman correctness of
`build_from_lengths`.  The claim as stated is refuted by
`c7_counterexample` (a decodable array overflowing the node arena is
undefined behavior); whenever the build does succeed on a code-length
array whose per-level first codes fit (`Fit`, the RFC condition for a
decodable code), every symbol of nonzero length is decoded back from
its canonical codeword, consuming exactly those bits. -/
theorem build_canonical_decode (lens : List Nat) (n : Nat) (t : HuffmanTree)
    (h15 : ∀ i, i < n → lens.getD i 0 ≤ 15)
    (hfit : Fit lens n)
    (hok : HuffmanTree.build_from_lengths lens n = .ok t) :
    ∀ sym, sym < n → lens.getD sym 0 ≠ 0 →
    ∀ (s : BitStream) (rest : List Bool), s.WF →
      s.sbits = specBits lens n sym ++ rest →
      ∃ s', t.decode_symbol s = .val (sym : Int) s' ∧ s'.WF ∧
        s'.sbits = rest ∧ s'.data = s.data := by
  obtain ⟨counts, maxl, hcl, hclen, hcnt, hmaxb, hm15⟩ := countLengths_spec lens n h15
  rw [HuffmanTree.build_from_lengths, hcl] at hok
  dsimp only at hok
  by_cases hm0 : maxl = 0
  · rw [if_pos hm0] at hok
    exact absurd hok (by simp)
  · rw [if_neg hm0] at hok
    by_cases hn0 : n * 2 = 0
    · rw [if_pos hn0] at hok
      exact absurd hok (by simp)
    · rw [if_neg hn0] at hok
      rcases hfold : (List.range n).foldl (symStep lens (n * 2))
          (.ok (codesGo counts maxl 1 0 (List.replicate 16 0))
            ⟨Smap.empty.set 0 { symbol := -1, left := 0, right := 0 }, 1⟩)
          with ⟨codesN, arN⟩ | - | -
      · simp only [hfold] at hok
        have ht :
            t = { nodes := arN.nodes, cap := n * 2, valid := true, root := 0 } := by
          injection hok with h2
          exact h2.symm
        obtain ⟨codes, ar, T, hfoldn, hlen, hcodesn, hinv, h1, hcap2⟩ :=
          symFold_inv lens n (n * 2) maxl
            (codesGo counts maxl 1 0 (List.replicate 16 0)) (by omega) hmaxb hm15
            (by rw [codesGo, codesGoF_length]; simp)
            (codesGo_spec lens n counts maxl hcnt hm15) codesN arN hfold n
            (Nat.le_refl n)
        rw [hfold] at hfoldn
        have har : ar = arN := by
          injection hfoldn with h2 h3
          exact h3.symm
        subst har
        intro sym hsn hs0 s rest hwf hsb
        obtain ⟨leaf, hTleaf, hsymleaf⟩ := hinv.leafat sym ⟨hsn, hs0⟩
        have hpath : pathOk t 0 (specBits lens n sym) (sym : Int) = true := by
          refine walk_pathOk_go ar.nodes t (by rw [ht]) (sym : Int)
            (specBits lens n sym) 0 leaf (by rw [hinv.walk_eq]; exact hTleaf)
            ?_ hsymleaf (by omega)
          intro q hpre hq iq hwq
          by_contra hnz
          obtain ⟨j, hjins, hjpath, hjsym⟩ :=
            hinv.syms q iq (by rw [← hinv.walk_eq]; exact hwq) hnz
          have hjne : j ≠ sym := by
            intro hje
            rw [hje] at hjpath
            have := congrArg List.length hjpath
            simp at this
            omega
          exact specBits_prefix_free lens n hfit h15 j sym hjins.1 hsn hjne
            hjins.2 hs0 (by rw [hjpath]; exact hpre)
        have hfuel : (specBits lens n sym).length ≤ t.cap := by
          have hwl := walk_length_lt ar.nodes ar.next (fun j => specBits lens n j)
            (fun j => j < n ∧ lens.getD j 0 ≠ 0) T hinv (specBits lens n sym)
            leaf hTleaf
          rw [ht]
          show _ ≤ n * 2
          omega
        exact decode_symbol_path t (sym : Int) (specBits lens n sym) rest s
          (by rw [ht]) (by rw [ht]) hwf hpath hfuel hsb
      · simp only [hfold] at hok
        exact absurd hok (by simp)
      · simp only [hfold] at hok
        exact absurd hok (by simp)

end Fconvert


namespace Fconvert

/-! ## The claims -/

/-- Claim C1 (amended): whenever `compress` completes — it can fail to,
committing an out-of-bounds read at level ≥ 6 (see C8) — decompressing
its output returns the original buffer, for every byte buffer and every
level, except for the empty buffer at level 0 (see `c1_counterexample`):
the round trip holds whenever the buffer is nonempty or the level is
nonzero. -/
theorem c1_round_trip (b : List Nat) (level : Int) (hbytes : ∀ x ∈ b, x < 256)
    (h : b ≠ [] ∨ level ≠ 0) (e : fconvert_error_t) (out : List Nat)
    (hcomp : Deflate.compress b level = some (e, out)) :
    Inflate.decompress out = .ok b := by
  by_cases hl : level = 0
  · rcases h with hne | hne
    · rw [hl, Deflate.compress, if_pos rfl] at hcomp
      have h2 : Deflate.compress_uncompressed b = (e, out) :=
        (Option.some.injEq _ _).mp hcomp
      have hout : storedLoop b 0 [] = out := congrArg Prod.snd h2
      rw [← hout]
      exact decompress_stored b hbytes hne
    · exact absurd hl hne
  · exact decompress_fixed b level hbytes hl e out hcomp

theorem c1_round_trip_witness :
    Inflate.decompress [1, 1, 0, 254, 255, 42] = .ok [42] :=
  c1_round_trip [42] 0 (by decide) (Or.inl (by decide)) .FCONVERT_OK
    [1, 1, 0, 254, 255, 42] (by rfl)

set_option maxRecDepth 100000 in
/-- Claim C1, counterexample: compressing the empty buffer at level 0
produces the empty stream, which `decompress` rejects as corrupted
instead of returning the empty buffer. -/
theorem c1_counterexample :
    Deflate.compress [] 0 = some (.FCONVERT_OK, []) ∧
    Inflate.decompress [] = .corrupted [] :=
  ⟨rfl, rfl⟩

set_option maxRecDepth 100000 in
/-- Claim C2: on input `[3, 2]` (final fixed-Huffman block whose first
token is a match with distance larger than the empty output so far)
`lz77_copy` computes `output.size() - distance` in `size_t`, the
subtraction wraps, and `output[start + i]` reads out of bounds:
undefined behavior, not a corrupted-stream error. -/
theorem c2_distance_underflow_ub : Inflate.decompress [3, 2] = .ub := by rfl

/-- Claim C3 (amended): the empty buffer round-trips at every nonzero
level (the fixed-Huffman path, on which `LZ77::compress` returns no
tokens and cannot fault); at level 0 the produced stream is empty and
`decompress` rejects it (see `c3_counterexample`). -/
theorem c3_empty_round_trip (level : Int) (hlevel : level ≠ 0) :
    ∃ out, Deflate.compress [] level = some (.FCONVERT_OK, out) ∧
      Inflate.decompress out = .ok [] := by
  obtain ⟨out, k, heq, hbits, hb256⟩ :=
    compress_fixed_spec [] level (by simp) [] rfl
  have hcomp : Deflate.compress [] level = some (.FCONVERT_OK, out) := by
    rw [Deflate.compress, if_neg hlevel]
    exact heq
  exact ⟨out, hcomp, decompress_fixed [] level (by simp) hlevel .FCONVERT_OK out
    hcomp⟩

theorem c3_empty_round_trip_witness :
    (1 : Int) ≠ 0 ∧ ∃ out, Deflate.compress [] 1 = some (.FCONVERT_OK, out) ∧
      Inflate.decompress out = .ok [] :=
  ⟨by decide, c3_empty_round_trip 1 (by decide)⟩

set_option maxRecDepth 100000 in
/-- Claim C3, counterexample: at level 0 the empty buffer compresses to
the empty stream, which `decompress` does not decode back to the empty
buffer (it reports corruption). -/
theorem c3_counterexample :
    Deflate.compress [] 0 = some (.FCONVERT_OK, []) ∧
    Inflate.decompress [] ≠ .ok [] := by
  refine ⟨rfl, ?_⟩
  rw [show Inflate.decompress [] = .corrupted [] from rfl]
  simp

/-- Claim C4 (amended): level-0 compression always completes and emits
exactly `b.len + 5 * ceil(b.len / 65535)` bytes (the 5-byte stored-block
header per ≤ 65535-byte chunk) for every buffer, and decompression
returns the buffer whenever it is nonempty; the empty buffer yields an
empty stream that `decompress` rejects (see `c4_counterexample`). -/
theorem c4_stored_correct (b : List Nat) (hbytes : ∀ x ∈ b, x < 256) :
    ∃ out, Deflate.compress b 0 = some (.FCONVERT_OK, out) ∧
      out.length = b.length + 5 * ((b.length + 65534) / 65535) ∧
      (b ≠ [] → Inflate.decompress out = .ok b) :=
  ⟨storedLoop b 0 [], rfl, storedLoop_length b,
    fun hne => decompress_stored b hbytes hne⟩

theorem c4_stored_correct_witness :
    (∀ x ∈ [1, 2], x < 256) ∧
    ∃ out, Deflate.compress [1, 2] 0 = some (.FCONVERT_OK, out) ∧
      out.length = 2 + 5 * ((2 + 65534) / 65535) ∧
      (([1, 2] : List Nat) ≠ [] → Inflate.decompress out = .ok [1, 2]) :=
  ⟨by decide, c4_stored_correct [1, 2] (by decide)⟩

set_option maxRecDepth 100000 in
/-- Claim C4, counterexample: for the empty buffer the size formula
holds (zero bytes of output), but the resulting empty stream does not
decode back to the empty buffer: `decompress` reports corruption. -/
theorem c4_counterexample :
    Deflate.compress [] 0 = some (.FCONVERT_OK, []) ∧
    ([] : List Nat).length + 5 * ((([] : List Nat).length + 65534) / 65535) = 0 ∧
    Inflate.decompress [] = .corrupted [] :=
  ⟨rfl, rfl, rfl⟩

/-- Claim C5 (amended, one direction): each listed condition is detected
and surfaced as a corrupted-stream error: reserved BTYPE=11 (any first
byte with those bits, whatever follows), an invalid Huffman path in the
code-length code (`[5, 0, 2, 32]`), a length symbol beyond the 29-entry
table (`[27, 3]`), a distance symbol beyond the 30-entry table
(`[3, 62]`), and a stored block whose LEN/NLEN complement check fails
(`[0, 0, 0, 0, 0]`).  The converse — errors occur *only* on those
inputs — is false: see `c5_counterexample`. -/
theorem c5_error_conditions :
    (∀ b rest, b < 256 → (∀ x ∈ rest, x < 256) → b / 2 % 4 = 3 →
      Inflate.decompress (b :: rest) = .corrupted []) ∧
    Inflate.decompress [5, 0, 2, 32] = .corrupted [] ∧
    Inflate.decompress [27, 3] = .corrupted [] ∧
    Inflate.decompress [3, 62] = .corrupted [] ∧
    Inflate.decompress [0, 0, 0, 0, 0] = .corrupted [] :=
  ⟨decompress_reserved_btype, test_c5_cl, test_c5_len, test_c5_dist,
    test_c5_stored⟩

theorem c5_error_conditions_witness :
    Inflate.decompress [7] = .corrupted [] :=
  c5_error_conditions.1 7 [] (by decide) (by simp) (by decide)

/-- Claim C5, counterexample to "exactly when": a dynamic-Huffman block
with an all-zero distance code-length array is a valid RFC 1951 stream
(the spec-side `InflateRFC`, which tolerates such arrays, decodes it to
the empty buffer), yet `decompress` reports corruption although the
input contains none of the four listed conditions. -/
theorem c5_counterexample :
    InflateRFC.decompress dyn_all_zero_dist_input = .ok [] ∧
    Inflate.decompress dyn_all_zero_dist_input = .corrupted [] :=
  ⟨test_dyn_rfc, test_dyn⟩

set_option maxRecDepth 100000 in
theorem test_c6 :
    Inflate.decompress [0, 1, 0, 254, 255, 171] = .corrupted [171] := by rfl

/-- Claim C6 (amended): failure is surfaced as a hard stop, but the
caller-visible output buffer can retain a partially decoded prefix: a
truncated stream whose first stored block already produced a byte
returns that byte alongside the corrupted-stream error. -/
theorem c6_partial_output_on_failure :
    ∃ out, Inflate.decompress [0, 1, 0, 254, 255, 171] = .corrupted out ∧
      out ≠ [] :=
  ⟨[171], test_c6, by simp⟩

/-- Claim C6, counterexample: decoding `[0, 1, 0, 254, 255, 171]` (a
non-final stored block carrying the byte 171, then end of input) fails
with the partially decoded prefix `[171]` in the caller-visible
output. -/
theorem c6_counterexample :
    Inflate.decompress [0, 1, 0, 254, 255, 171] = .corrupted [171] :=
  test_c6

set_option maxRecDepth 1000000 in
/-- Claim C7, counterexample: `[1, 15]` is a decodable code-length array
(lengths ≤ 15, prefix-free codes `0` and `111111111111111`), but
building it overflows the `2 * num_symbols`-node arena —
`nodes_.resize(num_symbols * 2)` followed by unchecked `nodes_[next]`
writes — which is undefined behavior, not a built tree. -/
theorem c7_counterexample : HuffmanTree.build_from_lengths [1, 15] 2 = .ub := by
  rfl

def c7WitnessTree : HuffmanTree :=
  match HuffmanTree.build_from_lengths [1, 1] 2 with
  | .ok t => t
  | .fail t => t
  | .ub => HuffmanTree.cleared

set_option maxRecDepth 100000 in
theorem c7_build_ok :
    HuffmanTree.build_from_lengths [1, 1] 2 = .ok c7WitnessTree := by rfl

theorem build_canonical_decode_witness :
    (∀ i, i < 2 → ([1, 1] : List Nat).getD i 0 ≤ 15) ∧ Fit [1, 1] 2 ∧
    ∃ s', c7WitnessTree.decode_symbol (BitStream.init [0]) =
      .val ((0 : Nat) : Int) s' ∧ s'.sbits = List.replicate 7 false := by
  refine ⟨by decide, by unfold Fit; decide, ?_⟩
  obtain ⟨s', h1, h2, h3, h4⟩ := build_canonical_decode [1, 1] 2 c7WitnessTree
    (by decide) (by unfold Fit; decide) c7_build_ok 0 (by decide) (by decide)
    (BitStream.init [0]) (List.replicate 7 false) (init_WF [0] (by decide))
    (by rfl)
  exact ⟨s', h1, h3⟩

/-- Replay correctness of the emitted tokens: whenever `LZ77::compress`
completes, replaying its token sequence — append literals, resolve each
match byte by byte from `distance` bytes before the current end of
output (so overlapping copies are tolerated) — reconstructs the input
exactly, at every level. -/
theorem replay_reconstructs (data : List Nat) (level : Int)
    (toks : List LZ77Token) (h : LZ77.compress data level = some toks) :
    replayTokens [] toks = data := by
  have h2 := replay_fit data 0 toks (compress_fit data level toks h)
  simpa using h2

set_option maxRecDepth 1000000 in
/-- Claim C8: at level ≥ 6 the hash-chain matcher's quick check commits
an out-of-bounds read, so `LZ77::compress` has no defined token sequence
to replay on some inputs.  On this 11-byte buffer, at `pos = 8` the
first chain candidate sets the best match length to `3 = size - pos`;
the chain continues to the candidate at position 0, the first-byte
comparison `data[0] == data[8]` passes, and the quick check's second
comparison reads `data[11]` — one past the end of the buffer. -/
theorem c8_find_match_hash_ub :
    LZ77.compress [1, 2, 3, 9, 1, 2, 3, 8, 1, 2, 3] 6 = none := by rfl

/-- Claim C9: `build_from_lengths` fails (clearing the tree) on every
all-zero code-length array, and consequently `decompress` reports
corruption on a dynamic block whose distance lengths are all zero, even
though the stream is RFC-valid (the spec-side `InflateRFC` accepts
it). -/
theorem c9_all_zero :
    (∀ lens n, (∀ i, i < n → lens.getD i 0 = 0) →
      HuffmanTree.build_from_lengths lens n = .fail HuffmanTree.cleared) ∧
    Inflate.decompress dyn_all_zero_dist_input = .corrupted [] ∧
    InflateRFC.decompress dyn_all_zero_dist_input = .ok [] :=
  ⟨fun lens n h => build_all_zero_fails lens n h, test_dyn, test_dyn_rfc⟩

theorem c9_all_zero_witness :
    HuffmanTree.build_from_lengths [0, 0] 2 = .fail HuffmanTree.cleared :=
  c9_all_zero.1 [0, 0] 2 (by decide)

theorem c10_compress_witness :
    (3 : Int) ≠ 0 ∧
    Deflate.compress [5] 3 = Deflate.compress_fixed_huffman [5] 3 :=
  ⟨by decide, compress_total.2 [5] 3 (by decide)⟩

set_option maxRecDepth 1000000 in
/-- Claim C10, counterexample: `compress` does not return success on
every input and level — at level 6 on this 11-byte buffer the
fixed-Huffman path reaches the out-of-bounds quick-check read in
`find_match_hash` (undefined behavior), so no result is returned. -/
theorem c10_counterexample :
    Deflate.compress [1, 2, 3, 9, 1, 2, 3, 8, 1, 2, 3] 6 = none := by rfl

end Fconvert
